import Mathlib

/-!
The metrics-logger library: its lock-free queue, its metric accumulators and its logger.

Shallow embedding of `include/lock_free_queue.hpp`, `include/metric.hpp` and
`include/metrics_logger.hpp`.

* `size_t` is the 64-bit unsigned type: every `+` and `-` on a cursor or a generation
  is taken modulo `SIZE_MOD = 2 ^ 64`.
* `int64_t` is `Int` kept in `[-2^63, 2^63)` by `wrap64`.
* A queue is used by one thread, so an atomic `load` reads the field, a `store` writes it and
  `compare_exchange_weak(expected, desired)` succeeds exactly when the field equals `expected`
  (and otherwise reloads `expected`).
* The `while (true)` loops take a fuel argument: `none` means the loop was still running when
  the fuel ran out.
* The shared handles of the logger are addresses in a heap of metric objects; the sink is the
  text appended to the file; time points are tick counts; `FormatTimestamp` and the
  `operator<<` of the stream are parameters (`Format`).
* The worker is a loop over rounds: the calls application threads made since the previous
  pass (each call as a whole), the value then read from `running_`, and the clock.
  Exceptions are not modelled: no modelled operation throws.
* The logger with its worker thread and its callers is a state with the position of the
  worker in `OutputLoop`, run over events (a call of an application thread, a step of the
  worker, a call of `Stop()`); `join()` waits for the worker to return.
* What the specification says of a pass is written by the members of the metric objects
  (the `spec` definitions) and compared with what the code computes.
-/

namespace metrics

/-! ## Definitions: `lock_free_queue.hpp` -/

/-- Number of values of `size_t`. -/
def SIZE_MOD : Nat := 2 ^ 64

/-- The slot type `MPMCBoundedQueue::Elem`: a value and its generation. -/
structure Elem (α : Type) where
  val : α
  gen : Nat
deriving DecidableEq, Repr

/-- The fields of `MPMCBoundedQueue<T, Size>`. -/
structure MPMCBoundedQueue (α : Type) where
  mask_ : Nat
  head_ : Nat
  tail_ : Nat
  data_ : List (Elem α)
deriving DecidableEq, Repr

/-- The condition of the `static_assert`: `(Size & (Size - 1)) == 0`, with `Size - 1`
computed in `size_t`. -/
def SizeCheck (Size : Nat) : Bool :=
  (Size &&& ((Size + SIZE_MOD - 1) % SIZE_MOD)) == 0

/-- The constructor: `mask_(Size - 1), head_(0), tail_(0)` and `data_[i].gen.store(i)`.
The values of the slots are not initialised by the source; they are `default` here. -/
def MPMCBoundedQueue.new {α : Type} [Inhabited α] (Size : Nat) : MPMCBoundedQueue α :=
  { mask_ := (Size + SIZE_MOD - 1) % SIZE_MOD
    head_ := 0
    tail_ := 0
    data_ := (List.range Size).map fun i => { val := default, gen := i } }

/-- The slot `data_[i]`. An index outside the array (possible only when `Size = 0`)
reads a default slot. -/
def MPMCBoundedQueue.slot {α : Type} [Inhabited α] (q : MPMCBoundedQueue α) (i : Nat) : Elem α :=
  q.data_.getD i { val := default, gen := 0 }

/-- The loop of `EnqueueImpl`, started with the local `tail_pos`. -/
def EnqueueLoop {α : Type} [Inhabited α] (value : α) (q : MPMCBoundedQueue α) :
    Nat → Nat → Option (Bool × MPMCBoundedQueue α)
  | 0, _ => none
  | fuel + 1, tail_pos =>
    let element := q.slot (tail_pos &&& q.mask_)
    let generation := element.gen
    if generation = tail_pos then
      if q.tail_ = tail_pos then
        some (true,
          { q with
            tail_ := (tail_pos + 1) % SIZE_MOD
            data_ := q.data_.set (tail_pos &&& q.mask_)
              { val := value, gen := (tail_pos + 1) % SIZE_MOD } })
      else EnqueueLoop value q fuel q.tail_
    else if generation < tail_pos then some (false, q)
    else EnqueueLoop value q fuel q.tail_

/-- The function `EnqueueImpl`: `tail_pos = tail_.load()`, then the loop. -/
def EnqueueImpl {α : Type} [Inhabited α] (fuel : Nat) (q : MPMCBoundedQueue α) (value : α) :
    Option (Bool × MPMCBoundedQueue α) :=
  EnqueueLoop value q fuel q.tail_

/-- Both overloads of `Enqueue` forward to `EnqueueImpl`. -/
def Enqueue {α : Type} [Inhabited α] (fuel : Nat) (q : MPMCBoundedQueue α) (value : α) :
    Option (Bool × MPMCBoundedQueue α) :=
  EnqueueImpl fuel q value

/-- The loop of `Dequeue`, started with the local `head_pos`; `data` is the caller's
output variable. The result is the returned flag, the output variable and the queue. -/
def DequeueLoop {α : Type} [Inhabited α] (data : α) (q : MPMCBoundedQueue α) :
    Nat → Nat → Option (Bool × α × MPMCBoundedQueue α)
  | 0, _ => none
  | fuel + 1, head_pos =>
    let element := q.slot (head_pos &&& q.mask_)
    let generation := element.gen
    if generation = (head_pos + 1) % SIZE_MOD then
      if q.head_ = head_pos then
        some (true, element.val,
          { q with
            head_ := (head_pos + 1) % SIZE_MOD
            data_ := q.data_.set (head_pos &&& q.mask_)
              { val := element.val, gen := (head_pos + q.mask_ + 1) % SIZE_MOD } })
      else DequeueLoop data q fuel q.head_
    else if generation < (head_pos + 1) % SIZE_MOD then some (false, data, q)
    else DequeueLoop data q fuel q.head_

/-- The function `Dequeue`: `head_pos = head_.load()`, then the loop. -/
def Dequeue {α : Type} [Inhabited α] (fuel : Nat) (q : MPMCBoundedQueue α) (data : α) :
    Option (Bool × α × MPMCBoundedQueue α) :=
  DequeueLoop data q fuel q.head_

/-- The function `Empty`: `head_.load() == tail_.load()`. -/
def Empty {α : Type} (q : MPMCBoundedQueue α) : Bool :=
  q.head_ == q.tail_

/-! ### Single-threaded call sequences -/

/-- One call made by the single thread using the queue. -/
inductive Call (α : Type) where
  | Enqueue (value : α)
  | Dequeue
deriving DecidableEq, Repr

/-- What a call gave back: the flag, and for `Dequeue` the caller's output variable
after the call. -/
inductive Reply (α : Type) where
  | Enqueue (ok : Bool)
  | Dequeue (ok : Bool) (data : α)
deriving DecidableEq, Repr

/-- One call on the queue `q`; `val` is the variable the thread passes to `Dequeue`. -/
def doCall {α : Type} [Inhabited α] (fuel : Nat) (q : MPMCBoundedQueue α) (val : α) :
    Call α → Option (Reply α × MPMCBoundedQueue α × α)
  | .Enqueue value =>
    match Enqueue fuel q value with
    | none => none
    | some (ok, q') => some (.Enqueue ok, q', val)
  | .Dequeue =>
    match Dequeue fuel q val with
    | none => none
    | some (ok, data, q') => some (.Dequeue ok data, q', data)

/-- A sequence of calls, each given `fuel` loop iterations. -/
def runCalls {α : Type} [Inhabited α] (fuel : Nat) :
    MPMCBoundedQueue α → α → List (Call α) → Option (List (Reply α) × MPMCBoundedQueue α × α)
  | q, val, [] => some ([], q, val)
  | q, val, c :: cs =>
    match doCall fuel q val c with
    | none => none
    | some (r, q', val') =>
      match runCalls fuel q' val' cs with
      | none => none
      | some (rs, q'', val'') => some (r :: rs, q'', val'')

/-- Number of `Enqueue` calls that returned true. -/
def countEnqueued {α : Type} : List (Reply α) → Nat
  | [] => 0
  | .Enqueue ok :: rs => (if ok then 1 else 0) + countEnqueued rs
  | .Dequeue _ _ :: rs => countEnqueued rs

/-- Number of `Dequeue` calls that returned true. -/
def countDequeued {α : Type} : List (Reply α) → Nat
  | [] => 0
  | .Enqueue _ :: rs => countDequeued rs
  | .Dequeue ok _ :: rs => (if ok then 1 else 0) + countDequeued rs

/-! ### The bounded FIFO list the queue is compared with -/

/-- One call on a bounded FIFO list of capacity `N`, following the specification:
`Enqueue` appends iff fewer than `N` elements are held, `Dequeue` removes the oldest
element iff there is one; a failed call changes nothing. -/
def fifoCall {α : Type} (N : Nat) (l : List α) (val : α) : Call α → Reply α × List α × α
  | .Enqueue value =>
    if l.length < N then (.Enqueue true, l ++ [value], val) else (.Enqueue false, l, val)
  | .Dequeue =>
    match l with
    | [] => (.Dequeue false val, [], val)
    | x :: xs => (.Dequeue true x, xs, x)

/-- A sequence of calls on the bounded FIFO list. -/
def fifoRun {α : Type} (N : Nat) : List α → α → List (Call α) → List (Reply α) × List α × α
  | l, val, [] => ([], l, val)
  | l, val, c :: cs =>
    let r := fifoCall N l val c
    let rest := fifoRun N r.2.1 r.2.2 cs
    (r.1 :: rest.1, rest.2)

/-- The representation invariant of the ring for capacity `N`, relating the queue to the
list `l` of elements it holds, oldest first: positions `head_ .. tail_ - 1` are filled
(generation `p + 1`), positions `tail_ .. head_ + N - 1` are free (generation `p`). -/
structure RingInv {α : Type} [Inhabited α] (N : Nat) (q : MPMCBoundedQueue α) (l : List α) :
    Prop where
  mask_eq : q.mask_ = N - 1
  size_eq : q.data_.length = N
  tail_eq : q.tail_ = q.head_ + l.length
  le_cap : l.length ≤ N
  filled : ∀ p, q.head_ ≤ p → p < q.tail_ →
    (q.slot (p % N)).gen = p + 1 ∧ l[p - q.head_]? = some (q.slot (p % N)).val
  free : ∀ p, q.tail_ ≤ p → p < q.head_ + N → (q.slot (p % N)).gen = p

/-! ## Definitions: `metric.hpp` -/

/-- Reduction of an integer to the range of `int64_t` (two's complement wrap). -/
def wrap64 (x : Int) : Int := (x + 2 ^ 63) % 2 ^ 64 - 2 ^ 63

/-- The type `MetricValue = std::variant<int64_t, double>`. -/
inductive MetricValue where
  | int64_t (v : Int)
  | double (v : Float)

/-- The fields of `Counter`. -/
structure Counter where
  name_ : String
  value_ : Int

/-- The constructor `Counter(name)`: `value_(0)`. -/
def Counter.new (name : String) : Counter :=
  { name_ := name, value_ := 0 }

/-- The method `Increment(delta)`: `value_.fetch_add(delta)`. The call `Increment()` is
`Increment(1)`. -/
def Counter.Increment (c : Counter) (delta : Int) : Counter :=
  { c with value_ := wrap64 (c.value_ + delta) }

/-- The method `Counter::GetName`. -/
def Counter.GetName (c : Counter) : String := c.name_

/-- The method `Counter::GetAndReset`: `value_.exchange(0)`, the prior value is returned. -/
def Counter.GetAndReset (c : Counter) : MetricValue × Counter :=
  (MetricValue.int64_t c.value_, { c with value_ := 0 })

/-- The method `Counter::HasValue`: `value_.load() != 0`. -/
def Counter.HasValue (c : Counter) : Bool := c.value_ != 0

/-- A run of `Increment` calls, in order. -/
def Counter.IncrementAll (c : Counter) (deltas : List Int) : Counter :=
  deltas.foldl Counter.Increment c

/-- One atomic operation on a counter. -/
inductive CounterOp where
  | Increment (delta : Int)
  | GetAndReset
deriving DecidableEq, Repr

/-- A sequence of atomic operations on a counter; the result is the list of values
returned by the `GetAndReset` calls, in order, and the final counter. -/
def Counter.runOps : Counter → List CounterOp → List MetricValue × Counter
  | c, [] => ([], c)
  | c, .Increment delta :: ops => Counter.runOps (c.Increment delta) ops
  | c, .GetAndReset :: ops =>
    let r := c.GetAndReset
    let rest := Counter.runOps r.2 ops
    (r.1 :: rest.1, rest.2)

/-- The deltas passed to `Increment` in a sequence of operations. -/
def CounterOp.deltas : List CounterOp → List Int
  | [] => []
  | .Increment delta :: ops => delta :: CounterOp.deltas ops
  | .GetAndReset :: ops => CounterOp.deltas ops

/-- The fields of `Gauge`. -/
structure Gauge where
  name_ : String
  value_ : Float
  has_value_ : Bool

/-- The constructor `Gauge(name)`: `has_value_(false)`; `value_` is not in the initialiser
list, `uninit` is what it holds. -/
def Gauge.new (name : String) (uninit : Float) : Gauge :=
  { name_ := name, value_ := uninit, has_value_ := false }

/-- The method `Gauge::Set`: `value_.store(value)` then `has_value_.store(true)`. -/
def Gauge.Set (g : Gauge) (value : Float) : Gauge :=
  let g1 := { g with value_ := value }
  { g1 with has_value_ := true }

/-- The method `Gauge::GetName`. -/
def Gauge.GetName (g : Gauge) : String := g.name_

/-- The method `Gauge::GetAndReset`: `val = value_.load()`, `has_value_.store(false)`,
`return val`. -/
def Gauge.GetAndReset (g : Gauge) : MetricValue × Gauge :=
  let val := g.value_
  (MetricValue.double val, { g with has_value_ := false })

/-- The method `Gauge::HasValue`: `has_value_.load()`. -/
def Gauge.HasValue (g : Gauge) : Bool := g.has_value_

/-- A run of `Set` calls, in order. -/
def Gauge.SetAll (g : Gauge) (values : List Float) : Gauge :=
  values.foldl Gauge.Set g

/-- The atomic store `value_.store(value)`, first step of `Gauge::Set`. -/
def Gauge.store_value (g : Gauge) (value : Float) : Gauge :=
  { g with value_ := value }

/-- The atomic store `has_value_.store(flag)`: second step of `Gauge::Set` (true) and of
`Gauge::GetAndReset` (false). -/
def Gauge.store_has_value (g : Gauge) (flag : Bool) : Gauge :=
  { g with has_value_ := flag }

/-- The atomic steps of one `Set(value)` call and one `GetAndReset()` call on a gauge. -/
inductive GaugeStep where
  | Set_store_value (value : Float)
  | Set_store_has_value
  | GetAndReset_load_value
  | GetAndReset_store_has_value

/-- One atomic step on the gauge; `val` is the local variable of `GetAndReset`
(`none` before its load). -/
def GaugeStep.run : Gauge × Option Float → GaugeStep → Gauge × Option Float
  | (g, val), .Set_store_value value => (g.store_value value, val)
  | (g, val), .Set_store_has_value => (g.store_has_value true, val)
  | (g, _), .GetAndReset_load_value => (g, some g.value_)
  | (g, val), .GetAndReset_store_has_value => (g.store_has_value false, val)

/-- The steps of `Set(value)` in program order. -/
def Set_steps (value : Float) : List GaugeStep :=
  [.Set_store_value value, .Set_store_has_value]

/-- The steps of `GetAndReset()` in program order. -/
def GetAndReset_steps : List GaugeStep :=
  [.GetAndReset_load_value, .GetAndReset_store_has_value]

/-- An interleaving of two step sequences: every step of both, each sequence in its
program order. -/
inductive Interleaving {β : Type} : List β → List β → List β → Prop where
  | nil : Interleaving [] [] []
  | left (x : β) {xs ys zs : List β} : Interleaving xs ys zs → Interleaving (x :: xs) ys (x :: zs)
  | right (y : β) {xs ys zs : List β} :
      Interleaving xs ys zs → Interleaving xs (y :: ys) (y :: zs)

/-- An object behind an `IMetric` handle: one of the two implementations. -/
inductive Metric where
  | counter (c : Counter)
  | gauge (g : Gauge)

/-- The virtual call `GetName`. -/
def Metric.GetName : Metric → String
  | .counter c => c.GetName
  | .gauge g => g.GetName

/-- The virtual call `GetAndReset`. -/
def Metric.GetAndReset : Metric → MetricValue × Metric
  | .counter c => ((c.GetAndReset).1, .counter (c.GetAndReset).2)
  | .gauge g => ((g.GetAndReset).1, .gauge (g.GetAndReset).2)

/-- The virtual call `HasValue`. -/
def Metric.HasValue : Metric → Bool
  | .counter c => c.HasValue
  | .gauge g => g.HasValue

/-! ## Definitions: `metrics_logger.hpp` -/

/-- The struct `MetricSnapshot`; the time point is a tick count. -/
structure MetricSnapshot where
  name : String
  value : MetricValue
  timestamp : Nat

/-- A default-constructed `MetricSnapshot`, as held by the slots of a fresh queue and by
the local variable of `WriteSnapshots`. -/
instance : Inhabited MetricSnapshot :=
  ⟨{ name := "", value := MetricValue.int64_t 0, timestamp := 0 }⟩

/-- The metric objects that the shared handles point to, by address. -/
abbrev Heap := Nat → Metric

/-- What the worker thread reads and writes: the fields `metrics_` (a handle is an address
in the heap, `none` is a null pointer) and `queue_`, the metric objects, and the text of
the sink file. -/
structure LoggerWorld where
  metrics_ : List (Option Nat)
  queue_ : MPMCBoundedQueue MetricSnapshot
  heap : Heap
  file : String

/-- The state just after the constructor: no metric registered, the queue
`MPMCBoundedQueue<MetricSnapshot, 4096>` fresh. -/
def LoggerWorld.new (heap : Heap) (file : String) : LoggerWorld :=
  { metrics_ := [], queue_ := MPMCBoundedQueue.new 4096, heap := heap, file := file }

/-- The method `RegisterMetric`: `metrics_.emplace_back(metric)`. -/
def RegisterMetric (w : LoggerWorld) (metric : Option Nat) : LoggerWorld :=
  { w with metrics_ := w.metrics_ ++ [metric] }

/-- The `for` loop of `CollectMetrics` over the remaining handles. A null handle and a
metric without pending data are skipped; otherwise the snapshot is built from `GetName()`,
`GetAndReset()` and `now`, and the result of `Enqueue` is ignored. -/
def CollectLoop (fuel now : Nat) :
    List (Option Nat) → Heap → MPMCBoundedQueue MetricSnapshot →
      Option (Heap × MPMCBoundedQueue MetricSnapshot)
  | [], heap, q => some (heap, q)
  | none :: rest, heap, q => CollectLoop fuel now rest heap q
  | some h :: rest, heap, q =>
    if (heap h).HasValue then
      let name := (heap h).GetName
      let r := (heap h).GetAndReset
      let snapshot : MetricSnapshot := { name := name, value := r.1, timestamp := now }
      match Enqueue fuel q snapshot with
      | none => none
      | some (_, q') => CollectLoop fuel now rest (Function.update heap h r.2) q'
    else CollectLoop fuel now rest heap q

/-- The method `CollectMetrics`; `now` is the reading of the system clock. -/
def CollectMetrics (fuel now : Nat) (w : LoggerWorld) : Option LoggerWorld :=
  match CollectLoop fuel now w.metrics_ w.heap w.queue_ with
  | none => none
  | some (heap, q) => some { w with heap := heap, queue_ := q }

/-- The text services used by `WriteSnapshots`: `FormatTimestamp` (local time through
`std::localtime` and `std::put_time`) and `operator<<` of the stream for the two
alternatives of `MetricValue`. -/
structure Format where
  FormatTimestamp : Nat → String
  put_int64_t : Int → String
  put_double : Float → String

/-- The call `std::visit([&file](const auto& value) { file << value; }, snap.value)`:
the text it appends. -/
def Format.visit (fmt : Format) : MetricValue → String
  | .int64_t v => fmt.put_int64_t v
  | .double v => fmt.put_double v

/-- The loop `while (queue_.Dequeue(snapshot)) snapshots.push_back(std::move(snapshot))`;
the last argument bounds the number of iterations. -/
def DrainLoop (fuel : Nat) :
    MPMCBoundedQueue MetricSnapshot → MetricSnapshot → List MetricSnapshot → Nat →
      Option (MPMCBoundedQueue MetricSnapshot × List MetricSnapshot)
  | _, _, _, 0 => none
  | q, snapshot, snapshots, n + 1 =>
    match Dequeue fuel q snapshot with
    | none => none
    | some (true, snapshot', q') => DrainLoop fuel q' snapshot' (snapshots ++ [snapshot']) n
    | some (false, _, q') => some (q', snapshots)

/-- The `for` loop of `WriteSnapshots`: for each snapshot the four insertions
`file << " \"" << snap.name << "\" "` and the value. -/
def WriteLoop (fmt : Format) : List MetricSnapshot → String → String
  | [], file => file
  | snap :: rest, file =>
    WriteLoop fmt rest ((((file ++ " \"") ++ snap.name) ++ "\" ") ++ fmt.visit snap.value)

/-- The method `WriteSnapshots`: drain the queue, return if the batch is empty, else
insert the timestamp of `snapshots[0]`, the entries and a newline. -/
def WriteSnapshots (fmt : Format) (fuel : Nat) (w : LoggerWorld) : Option LoggerWorld :=
  match DrainLoop fuel w.queue_ default [] fuel with
  | none => none
  | some (q, snapshots) =>
    match snapshots with
    | [] => some { w with queue_ := q }
    | first :: _ =>
      let file1 := w.file ++ fmt.FormatTimestamp first.timestamp
      let file2 := WriteLoop fmt snapshots file1
      some { w with queue_ := q, file := file2 ++ "\n" }

/-- What application threads do to the logger and its metrics. -/
inductive AppCall where
  | Increment (h : Nat) (delta : Int)
  | Set (h : Nat) (value : Float)
  | RegisterMetric (metric : Option Nat)

/-- One call of an application thread, as a whole. `Increment` applies to a counter and
`Set` to a gauge (the handle types of the source allow nothing else). -/
def applyCall (w : LoggerWorld) : AppCall → LoggerWorld
  | .Increment h delta =>
    match w.heap h with
    | .counter c => { w with heap := Function.update w.heap h (.counter (c.Increment delta)) }
    | .gauge _ => w
  | .Set h value =>
    match w.heap h with
    | .counter _ => w
    | .gauge g => { w with heap := Function.update w.heap h (.gauge (g.Set value)) }
  | .RegisterMetric metric => RegisterMetric w metric

/-- One turn of the worker: the calls application threads made since the previous pass,
the value the worker then reads from `running_`, and the clock at its `CollectMetrics`. -/
structure Round where
  calls : List AppCall
  running : Bool
  now : Nat

/-- One collect-and-drain pass: `CollectMetrics(); WriteSnapshots(file);`. -/
def Pass (fmt : Format) (fuel now : Nat) (w : LoggerWorld) : Option LoggerWorld :=
  match CollectMetrics fuel now w with
  | none => none
  | some w1 => WriteSnapshots fmt fuel w1

/-- The `while (running_.load())` loop of `OutputLoop` followed by the final pass. Each
round gives the value read from the flag; when the rounds run out the worker is still in
the loop (`none`). -/
def WhileRunning (fmt : Format) (fuel : Nat) : List Round → LoggerWorld → Option LoggerWorld
  | [], _ => none
  | r :: rest, w =>
    let w1 := r.calls.foldl applyCall w
    if r.running then
      match Pass fmt fuel r.now w1 with
      | none => none
      | some w2 => WhileRunning fmt fuel rest w2
    else Pass fmt fuel r.now w1

/-- The method `OutputLoop`: `is_open` is the result of `file.is_open()`; when it is
false the worker returns at once. -/
def OutputLoop (fmt : Format) (fuel : Nat) (is_open : Bool) (rounds : List Round)
    (w : LoggerWorld) : Option LoggerWorld :=
  if !is_open then some w else WhileRunning fmt fuel rounds w

/-- The lifecycle fields of the logger: `running_`, whether `output_thread_` is joinable,
and how many times `join()` has been called. -/
structure Lifecycle where
  running_ : Bool
  joinable : Bool
  joins : Nat
deriving DecidableEq, Repr

/-- The lifecycle state after the constructor: `running_(true)` and a started thread. -/
def Lifecycle.new : Lifecycle :=
  { running_ := true, joinable := true, joins := 0 }

/-- The method `Stop`: `running_.compare_exchange_strong(expected = true, false)`; the
winner joins the worker if it is joinable. -/
def Stop (s : Lifecycle) : Lifecycle :=
  if s.running_ = true then
    let s1 := { s with running_ := false }
    if s1.joinable then { s1 with joinable := false, joins := s1.joins + 1 } else s1
  else s

/-- The destructor `~MetricsLogger`: it calls `Stop()`. -/
def Destroy (s : Lifecycle) : Lifecycle := Stop s


/-! ### What the passes of the worker are compared with -/

/-- The registered metrics `p1 .. pk` for which `HasValue()` is true when the scan
reaches them, in registration order (a handle registered twice is reached the second
time after its reset). -/
def pendingWhenReached : Heap → List (Option Nat) → List Nat
  | _, [] => []
  | heap, none :: rest => pendingWhenReached heap rest
  | heap, some h :: rest =>
    if (heap h).HasValue then
      h :: pendingWhenReached (Function.update heap h ((heap h).GetAndReset).2) rest
    else pendingWhenReached heap rest

/-- The snapshot of the metric at `h`: its name, the value it holds, and the timestamp. -/
def snapshotOf (heap : Heap) (now : Nat) (h : Nat) : MetricSnapshot :=
  { name := (heap h).GetName, value := ((heap h).GetAndReset).1, timestamp := now }

/-- The heap in which exactly the metrics at `pending` have been reset. -/
def resetPending (heap : Heap) (pending : List Nat) : Heap :=
  fun h => if h ∈ pending then ((heap h).GetAndReset).2 else heap h

/-- The text of one entry: a space, the quoted name, a space, the value. -/
def entryText (fmt : Format) (snap : MetricSnapshot) : String :=
  " \"" ++ snap.name ++ "\" " ++ fmt.visit snap.value

/-- The text of a batch: nothing for the empty batch, else the timestamp of the first
snapshot, the entries in order, and one newline. -/
def lineText (fmt : Format) : List MetricSnapshot → String
  | [] => ""
  | first :: rest =>
    fmt.FormatTimestamp first.timestamp
      ++ String.join ((first :: rest).map (entryText fmt)) ++ "\n"

/-- A pass in which nothing is dropped: every metric pending when reached is reset and
the line of their snapshots is appended to the file. The queue is not involved. -/
def passSpec (fmt : Format) (now : Nat) (metrics_ : List (Option Nat)) (heap : Heap)
    (file : String) : Heap × String :=
  let pending := pendingWhenReached heap metrics_
  (resetPending heap pending, file ++ lineText fmt (pending.map (snapshotOf heap now)))

/-- The rounds of the worker, every one with its pass (the flag values are not looked
at): the calls of the application threads, then `CollectMetrics(); WriteSnapshots(file)`. -/
def runPasses (fmt : Format) (fuel : Nat) : List Round → LoggerWorld → Option LoggerWorld
  | [], w => some w
  | r :: rest, w =>
    match Pass fmt fuel r.now (r.calls.foldl applyCall w) with
    | none => none
    | some w1 => runPasses fmt fuel rest w1

/-- The rounds of the worker with `passSpec` for each pass; the queue is left as it is. -/
def runPassesSpec (fmt : Format) : List Round → LoggerWorld → LoggerWorld
  | [], w => w
  | r :: rest, w =>
    let w1 := r.calls.foldl applyCall w
    let p := passSpec fmt r.now w1.metrics_ w1.heap w1.file
    runPassesSpec fmt rest { w1 with heap := p.1, file := p.2 }


/-- The metric objects of `TestLoggerBasic` after the first updates: the counter
`test_requests` at address 0 holding 42 and the gauge `test_cpu` at address 1 holding
0.85. -/
def exampleHeap : Heap := fun h =>
  if h = 0 then .counter { name_ := "test_requests", value_ := 42 }
  else .gauge { name_ := "test_cpu", value_ := 0.85, has_value_ := true }

/-- A logger with a fresh queue of capacity `2 ^ 12 = 4096` in which the counter has been
registered twice, with a null handle and the gauge in between. -/
def exampleWorld : LoggerWorld :=
  { metrics_ := [some 0, none, some 1, some 0]
    queue_ := MPMCBoundedQueue.new (2 ^ 12)
    heap := exampleHeap
    file := "" }


/-- Text services for the examples: ticks, integers and doubles through `toString`. -/
def exampleFormat : Format :=
  { FormatTimestamp := fun t => toString t
    put_int64_t := fun v => toString v
    put_double := fun v => toString v }

/-- Number of `RegisterMetric` calls in a call (0 or 1). -/
def AppCall.registers : AppCall → Nat
  | .RegisterMetric _ => 1
  | _ => 0

/-- Number of `RegisterMetric` calls made during the rounds. -/
def registrations (rounds : List Round) : Nat :=
  (rounds.map fun r => (r.calls.map AppCall.registers).sum).sum


/-- A logger with a fresh queue and one registered counter, at address 0, whose name
contains a newline character and whose sum is 1. -/
def newlineWorld : LoggerWorld :=
  { metrics_ := [some 0]
    queue_ := MPMCBoundedQueue.new (2 ^ 12)
    heap := fun _ => .counter { name_ := "a\nb", value_ := 1 }
    file := "" }

/-- The logger of `exampleWorld` with the counter `test_requests` as only registered
metric. -/
def counterWorld : LoggerWorld :=
  { exampleWorld with metrics_ := [some 0] }


/-- The queue of `TestQueueEnqueueDequeue` (capacity 2) when it holds 2, 3. -/
def fullQueue : MPMCBoundedQueue Nat :=
  { mask_ := 1
    head_ := 0
    tail_ := 2
    data_ := [{ val := 2, gen := 1 }, { val := 3, gen := 2 }] }


/-- Two states of the logger that differ at most in the queue. -/
def SameButQueue (w ws : LoggerWorld) : Prop :=
  w.metrics_ = ws.metrics_ ∧ w.heap = ws.heap ∧ w.file = ws.file


/-- The first rounds of `TestLoggerBasic`, in which the worker reads `running_` true:
registration of the counter (address 0) and of the gauge (address 1) with their first
updates, then a second batch of updates. -/
def examplePre : List Round :=
  [ { calls := [.RegisterMetric (some 0), .RegisterMetric (some 1), .Increment 0 42,
        .Set 1 0.85]
      running := true
      now := 100 },
    { calls := [.Increment 0 10, .Set 1 0.92]
      running := true
      now := 200 } ]

/-- The round of `TestLoggerBasic` in which the worker reads `running_` false. -/
def exampleLast : Round :=
  { calls := []
    running := false
    now := 300 }

/-- The rounds of `TestLoggerBasic`. -/
def exampleRounds : List Round := examplePre ++ [exampleLast]

/-- A counter, at address 0, that is registered and then incremented by 5 and by -5, all
before the worker reads `running_` false. -/
def cancellingRound : Round :=
  { calls := [.RegisterMetric (some 0), .Increment 0 5, .Increment 0 (-5)]
    running := false
    now := 0 }


/-- The call sequence `Enqueue(7); Dequeue(val);` repeated `n` times. -/
def enqueueDequeuePairs : Nat → List (Call Nat)
  | 0 => []
  | n + 1 => .Enqueue 7 :: .Dequeue :: enqueueDequeuePairs n

/-- The queue of capacity 2 after `n` successful `Enqueue`/`Dequeue` pairs (`n < 2 ^ 64`):
both cursors at `n`, the slot of position `n` free for `n`, the other slot free for
`n + 1`; `a` and `b` are the values left in the slots. -/
def afterPairs (n a b : Nat) : MPMCBoundedQueue Nat :=
  { mask_ := 1
    head_ := n
    tail_ := n
    data_ :=
      if n % 2 = 0 then [{ val := a, gen := n }, { val := b, gen := (n + 1) % SIZE_MOD }]
      else [{ val := a, gen := (n + 1) % SIZE_MOD }, { val := b, gen := n }] }

/-- The empty queue of capacity 2 whose cursors are both at `2 ^ 64 - 1`. -/
def wrappedEmptyQueue (a b : Nat) : MPMCBoundedQueue Nat :=
  { mask_ := 1
    head_ := 2 ^ 64 - 1
    tail_ := 2 ^ 64 - 1
    data_ := [{ val := a, gen := 0 }, { val := b, gen := 2 ^ 64 - 1 }] }

/-- The full queue of capacity 2 holding 7, 8 whose head is at `2 ^ 64 - 2` and whose tail
has wrapped to 0. -/
def wrappedFullQueue : MPMCBoundedQueue Nat :=
  { mask_ := 1
    head_ := 2 ^ 64 - 2
    tail_ := 0
    data_ := [{ val := 7, gen := 2 ^ 64 - 1 }, { val := 8, gen := 0 }] }


/-! ### What the specification says of a pass, by the members of the metric objects -/

/-- Specification: a metric has pending data when it is a counter whose running sum
`value_` is not zero, or a gauge whose flag `has_value_` is set. -/
def specHasPending : Metric → Bool
  | .counter c => decide (c.value_ ≠ 0)
  | .gauge g => g.has_value_

/-- Specification: a metric after its reset: a counter with running sum 0, a gauge with
its flag cleared and its stored value kept; the name stays. -/
def specAfterReset : Metric → Metric
  | .counter c => .counter { name_ := c.name_, value_ := 0 }
  | .gauge g => .gauge { name_ := g.name_, value_ := g.value_, has_value_ := false }

/-- Specification: the snapshot of a metric at the time `now`: the name the metric was
constructed with (member `name_`), the value it holds (the running sum of a counter, as
the `int64_t` alternative; the stored value of a gauge, as the `double` alternative), and
`now`. -/
def specSnapshot (now : Nat) : Metric → MetricSnapshot
  | .counter c => { name := c.name_, value := MetricValue.int64_t c.value_, timestamp := now }
  | .gauge g => { name := g.name_, value := MetricValue.double g.value_, timestamp := now }

/-- Specification: the registered metrics `p1 .. pk` that have pending data when the pass
reaches them, in registration order; null handles are skipped, and a handle registered
twice is reached the second time after its reset. -/
def specPending : Heap → List (Option Nat) → List Nat
  | _, [] => []
  | heap, none :: rest => specPending heap rest
  | heap, some h :: rest =>
    if specHasPending (heap h) then
      h :: specPending (Function.update heap h (specAfterReset (heap h))) rest
    else specPending heap rest

/-- Specification: the metric objects after a pass: exactly those at `pending` are reset. -/
def specReset (heap : Heap) (pending : List Nat) : Heap :=
  fun h => if h ∈ pending then specAfterReset (heap h) else heap h

/-- Specification: the text of one entry: a space, a double quote, the name, a double
quote, a space, and the value in integer rendering (`operator<<` for `int64_t`) if it is
the value of a counter, in floating rendering (`operator<<` for `double`) if it is the
value of a gauge. -/
def specEntry (fmt : Format) (snap : MetricSnapshot) : String :=
  " \"" ++ snap.name ++ "\" " ++
    (match snap.value with
     | MetricValue.int64_t v => fmt.put_int64_t v
     | MetricValue.double v => fmt.put_double v)

/-- Specification: the text of a batch: nothing for the empty batch, else the timestamp
of the first snapshot, the entries in order, and one newline. -/
def specLine (fmt : Format) : List MetricSnapshot → String
  | [] => ""
  | first :: rest =>
    fmt.FormatTimestamp first.timestamp
      ++ String.join ((first :: rest).map (specEntry fmt)) ++ "\n"

/-- Specification: a pass in which no snapshot is dropped: every metric with pending data
is reset and the line of all of them, in registration order, is appended to the file. -/
def specPassAll (fmt : Format) (now : Nat) (metrics_ : List (Option Nat)) (heap : Heap)
    (file : String) : Heap × String :=
  (specReset heap (specPending heap metrics_),
    file ++ specLine fmt ((specPending heap metrics_).map fun h => specSnapshot now (heap h)))

/-- Specification: a pass through a queue with `cap` free slots: every metric with pending
data is reset, and the line of the first `cap` of them is appended to the file; the
snapshots of the others are dropped. -/
def specPassUpTo (cap : Nat) (fmt : Format) (now : Nat) (metrics_ : List (Option Nat))
    (heap : Heap) (file : String) : Heap × String :=
  (specReset heap (specPending heap metrics_),
    file ++ specLine fmt
      (((specPending heap metrics_).take cap).map fun h => specSnapshot now (heap h)))

/-- Specification: the rounds of the worker when no snapshot is dropped: the calls of the
application threads, then `specPassAll`; the queue is left as it is. -/
def specRoundsAll (fmt : Format) : List Round → LoggerWorld → LoggerWorld
  | [], w => w
  | r :: rest, w =>
    let w1 := r.calls.foldl applyCall w
    let p := specPassAll fmt r.now w1.metrics_ w1.heap w1.file
    specRoundsAll fmt rest { w1 with heap := p.1, file := p.2 }

/-- Specification: the rounds of the worker with `specPassUpTo cap` for each pass; the
queue is left as it is. -/
def specRoundsUpTo (cap : Nat) (fmt : Format) : List Round → LoggerWorld → LoggerWorld
  | [], w => w
  | r :: rest, w =>
    let w1 := r.calls.foldl applyCall w
    let p := specPassUpTo cap fmt r.now w1.metrics_ w1.heap w1.file
    specRoundsUpTo cap fmt rest { w1 with heap := p.1, file := p.2 }


/-! ### The logger, its worker thread and its callers together -/

/-- Where the worker thread stands in `OutputLoop`: started by the constructor and not yet
past `std::ofstream file(...)`; at the test `running_.load()` of the `while` loop; or
returned. -/
inductive WorkerAt where
  | entry
  | loop
  | returned
deriving DecidableEq, Repr

/-- The logger as a whole: what the worker reads and writes, the lifecycle fields, the
position of the worker thread, and the number of collect-and-drain passes it has made. -/
structure Logger where
  world : LoggerWorld
  life : Lifecycle
  worker : WorkerAt
  passes : Nat

/-- The state after the constructor `MetricsLogger(filename, flush_interval)`:
`running_(true)` and `output_thread_ = std::thread(&MetricsLogger::OutputLoop, this)`. -/
def Logger.new (heap : Heap) (file : String) : Logger :=
  { world := LoggerWorld.new heap file
    life := Lifecycle.new
    worker := WorkerAt.entry
    passes := 0 }

/-- One step of the worker thread in `OutputLoop`. At the entry it opens the file and
returns at once if `file.is_open()` is false. At the loop test it reads `running_`: if
true it makes a pass (and sleeps) and is at the test again; if false it makes the final
pass and returns. `now` is the clock reading of the pass. -/
def workerStep (fmt : Format) (fuel : Nat) (is_open : Bool) (now : Nat) (s : Logger) :
    Option Logger :=
  match s.worker with
  | WorkerAt.entry =>
    if !is_open then some { s with worker := WorkerAt.returned }
    else some { s with worker := WorkerAt.loop }
  | WorkerAt.loop =>
    if s.life.running_ then
      match Pass fmt fuel now s.world with
      | none => none
      | some w => some { s with world := w, passes := s.passes + 1 }
    else
      match Pass fmt fuel now s.world with
      | none => none
      | some w => some { s with world := w, passes := s.passes + 1, worker := WorkerAt.returned }
  | WorkerAt.returned => some s

/-- The call `output_thread_.join()`: the caller waits while the worker runs on, until it
has returned. `n` bounds the number of worker steps waited for (`none`: the worker has
not returned within them). -/
def joinWorker (fmt : Format) (fuel : Nat) (is_open : Bool) (now : Nat) :
    Nat → Logger → Option Logger
  | 0, s => if s.worker = WorkerAt.returned then some s else none
  | n + 1, s =>
    if s.worker = WorkerAt.returned then some s
    else
      match workerStep fmt fuel is_open now s with
      | none => none
      | some s1 => joinWorker fmt fuel is_open now n s1

/-- The method `Stop` with the worker thread in view:
`running_.compare_exchange_strong(expected = true, false)`; the winner, if the thread is
joinable, waits in `join()` for the worker to return. -/
def Logger.Stop (fmt : Format) (fuel : Nat) (is_open : Bool) (now n : Nat) (s : Logger) :
    Option Logger :=
  if s.life.running_ = true then
    let s1 := { s with life := { s.life with running_ := false } }
    if s1.life.joinable then
      match joinWorker fmt fuel is_open now n s1 with
      | none => none
      | some s2 =>
        some { s2 with life := { s2.life with joinable := false, joins := s2.life.joins + 1 } }
    else some s1
  else some s

/-- What happens to a logger: a call of an application thread on a metric or on the
registry, a step of the worker thread, or a call of `Stop()` (the destructor makes the
same call). -/
inductive Event where
  | call (c : AppCall)
  | worker (now : Nat)
  | Stop (now : Nat)

/-- A run of the logger over a sequence of events. -/
def runEvents (fmt : Format) (fuel : Nat) (is_open : Bool) (n : Nat) :
    List Event → Logger → Option Logger
  | [], s => some s
  | Event.call c :: rest, s =>
    runEvents fmt fuel is_open n rest { s with world := applyCall s.world c }
  | Event.worker now :: rest, s =>
    match workerStep fmt fuel is_open now s with
    | none => none
    | some s1 => runEvents fmt fuel is_open n rest s1
  | Event.Stop now :: rest, s =>
    match Logger.Stop fmt fuel is_open now n s with
    | none => none
    | some s1 => runEvents fmt fuel is_open n rest s1

/-- The calls of the application threads in a sequence of events, in order. -/
def appCalls : List Event → List AppCall
  | [] => []
  | Event.call c :: rest => c :: appCalls rest
  | Event.worker _ :: rest => appCalls rest
  | Event.Stop _ :: rest => appCalls rest

/-- The events of rounds in which the worker is in its loop: for each round the calls of
the application threads, then one step of the worker. -/
def roundEvents : List Round → List Event
  | [] => []
  | r :: rest => r.calls.map Event.call ++ Event.worker r.now :: roundEvents rest

/-- A whole session: the worker enters `OutputLoop`; the rounds `pre` go by; the
application threads make the calls of `last`, and `Stop()` is called. -/
def sessionEvents (pre : List Round) (last : Round) : List Event :=
  Event.worker 0 :: (roundEvents pre ++ (last.calls.map Event.call ++ [Event.Stop last.now]))

/-- A run with a registered counter `stop_test_counter` (address 0) that is incremented
by 5 around a step of the worker, followed by `Stop()` and the destructor. -/
def stopTestEvents : List Event :=
  [Event.call (AppCall.RegisterMetric (some 0)), Event.call (AppCall.Increment 0 2),
   Event.worker 1, Event.call (AppCall.Increment 0 3), Event.Stop 2, Event.Stop 3]


/-! ## Theorems: the queue -/

theorem and_mask_eq_mod (p k : Nat) : p &&& (2 ^ k - 1) = p % 2 ^ k :=
  Nat.and_pow_two_sub_one_eq_mod p k

theorem mod_ne_of_lt_of_lt_add {N a b : Nat} (hab : a < b) (hb : b < a + N) :
    a % N ≠ b % N := by
  intro h
  have h1 : N ∣ b - a := (Nat.modEq_iff_dvd' hab.le).1 h
  have h2 : N ≤ b - a := Nat.le_of_dvd (by omega) h1
  omega

theorem getD_set_self {β : Type} (l : List β) (i : Nat) (e d : β) (hi : i < l.length) :
    (l.set i e).getD i d = e := by
  simp [List.getD_eq_getElem?_getD, hi]

theorem getD_set_other {β : Type} (l : List β) (i j : Nat) (e d : β) (hij : i ≠ j) :
    (l.set i e).getD j d = l.getD j d := by
  simp [List.getD_eq_getElem?_getD, List.getElem?_set_ne hij]

theorem new_mask (N : Nat) (h1 : 1 ≤ N) (h2 : N < SIZE_MOD) :
    (N + SIZE_MOD - 1) % SIZE_MOD = N - 1 := by
  unfold SIZE_MOD at *
  omega

theorem RingInv.fresh {α : Type} [Inhabited α] (N : Nat) (h1 : 1 ≤ N) (h2 : N < SIZE_MOD) :
    RingInv N (MPMCBoundedQueue.new N : MPMCBoundedQueue α) [] := by
  refine ⟨new_mask N h1 h2, by simp [MPMCBoundedQueue.new], rfl, Nat.zero_le _, ?_, ?_⟩
  · intro p _ hp
    simp [MPMCBoundedQueue.new] at hp
  · intro p _ hp
    have hpN : p < N := by simpa [MPMCBoundedQueue.new] using hp
    simp [MPMCBoundedQueue.slot, MPMCBoundedQueue.new, List.getD_eq_getElem?_getD,
      Nat.mod_eq_of_lt hpN, hpN]

theorem Enqueue_of_not_full {α : Type} [Inhabited α] (k : Nat) (q : MPMCBoundedQueue α)
    (l : List α) (h : RingInv (2 ^ k) q l) (hlen : l.length < 2 ^ k)
    (hb : q.tail_ + 1 < SIZE_MOD) (fuel : Nat) (value : α) :
    ∃ q', Enqueue (fuel + 1) q value = some (true, q') ∧ RingInv (2 ^ k) q' (l ++ [value]) ∧
      q'.head_ = q.head_ ∧ q'.tail_ = q.tail_ + 1 := by
  have hidx : q.tail_ &&& q.mask_ = q.tail_ % 2 ^ k := by
    rw [h.mask_eq]; exact and_mask_eq_mod _ _
  have hgen : (q.slot (q.tail_ % 2 ^ k)).gen = q.tail_ :=
    h.free q.tail_ le_rfl (by have := h.tail_eq; omega)
  have hwrap : (q.tail_ + 1) % SIZE_MOD = q.tail_ + 1 := Nat.mod_eq_of_lt hb
  have hlt : q.tail_ % 2 ^ k < q.data_.length := by
    rw [h.size_eq]; exact Nat.mod_lt _ (Nat.two_pow_pos k)
  refine ⟨{ q with
      tail_ := q.tail_ + 1
      data_ := q.data_.set (q.tail_ % 2 ^ k) { val := value, gen := q.tail_ + 1 } },
    ?_, ?_, rfl, rfl⟩
  · simp only [Enqueue, EnqueueImpl, EnqueueLoop, hidx, hgen, if_true, hwrap]
  · have htl := h.tail_eq
    refine ⟨h.mask_eq, by simpa using h.size_eq, by simp [htl]; omega, by simp; omega, ?_, ?_⟩
    · intro p hp1 hp2
      simp only at hp1 hp2 ⊢
      by_cases hpt : p = q.tail_
      · subst hpt
        simp only [MPMCBoundedQueue.slot, getD_set_self _ _ _ _ hlt, true_and]
        rw [List.getElem?_append_right (by omega)]
        simp [htl]
      · have hne : q.tail_ % 2 ^ k ≠ p % 2 ^ k :=
          fun e => mod_ne_of_lt_of_lt_add (show p < q.tail_ by omega) (by omega) e.symm
        have := h.filled p hp1 (by omega)
        simp only [MPMCBoundedQueue.slot] at this ⊢
        rw [getD_set_other _ _ _ _ _ hne]
        refine ⟨this.1, ?_⟩
        rw [List.getElem?_append_left (by omega)]
        exact this.2
    · intro p hp1 hp2
      simp only at hp1 hp2 ⊢
      have hne : q.tail_ % 2 ^ k ≠ p % 2 ^ k :=
        mod_ne_of_lt_of_lt_add (show q.tail_ < p by omega) (by omega)
      have := h.free p (by omega) hp2
      simp only [MPMCBoundedQueue.slot] at this ⊢
      rw [getD_set_other _ _ _ _ _ hne]
      exact this

theorem Enqueue_of_full {α : Type} [Inhabited α] (k : Nat) (hk : 1 ≤ k) (q : MPMCBoundedQueue α)
    (l : List α) (h : RingInv (2 ^ k) q l) (hlen : l.length = 2 ^ k) (fuel : Nat) (value : α) :
    Enqueue (fuel + 1) q value = some (false, q) := by
  have h2 : 2 ≤ 2 ^ k := by
    calc 2 = 2 ^ 1 := rfl
      _ ≤ 2 ^ k := Nat.pow_le_pow_right (by decide) hk
  have htl := h.tail_eq
  have hidx : q.tail_ &&& q.mask_ = q.head_ % 2 ^ k := by
    rw [h.mask_eq, and_mask_eq_mod, htl, hlen, Nat.add_mod_right]
  have hgen : (q.slot (q.head_ % 2 ^ k)).gen = q.head_ + 1 :=
    (h.filled q.head_ le_rfl (by omega)).1
  have hne : ¬ q.head_ + 1 = q.tail_ := by omega
  have hlt : q.head_ + 1 < q.tail_ := by omega
  simp only [Enqueue, EnqueueImpl, EnqueueLoop, hidx, hgen, hne, hlt, if_false, if_true]

theorem Dequeue_of_empty {α : Type} [Inhabited α] (k : Nat) (q : MPMCBoundedQueue α)
    (h : RingInv (2 ^ k) q []) (hb : q.head_ + 1 < SIZE_MOD) (fuel : Nat) (data : α) :
    Dequeue (fuel + 1) q data = some (false, data, q) := by
  have hidx : q.head_ &&& q.mask_ = q.head_ % 2 ^ k := by
    rw [h.mask_eq]; exact and_mask_eq_mod _ _
  have htl : q.tail_ = q.head_ := by simpa using h.tail_eq
  have hgen : (q.slot (q.head_ % 2 ^ k)).gen = q.head_ :=
    h.free q.head_ (by omega) (by have := Nat.two_pow_pos k; omega)
  have hwrap : (q.head_ + 1) % SIZE_MOD = q.head_ + 1 := Nat.mod_eq_of_lt hb
  have hne : ¬ q.head_ = q.head_ + 1 := by omega
  simp only [Dequeue, DequeueLoop, hidx, hgen, hwrap, hne, if_false, Nat.lt_succ_self, if_true]

theorem Dequeue_of_nonempty {α : Type} [Inhabited α] (k : Nat) (q : MPMCBoundedQueue α)
    (x : α) (xs : List α) (h : RingInv (2 ^ k) q (x :: xs))
    (hb : q.head_ + 2 ^ k < SIZE_MOD) (fuel : Nat) (data : α) :
    ∃ q', Dequeue (fuel + 1) q data = some (true, x, q') ∧ RingInv (2 ^ k) q' xs ∧
      q'.head_ = q.head_ + 1 ∧ q'.tail_ = q.tail_ := by
  have hpos := Nat.two_pow_pos k
  have hidx : q.head_ &&& q.mask_ = q.head_ % 2 ^ k := by
    rw [h.mask_eq]; exact and_mask_eq_mod _ _
  have htl : q.tail_ = q.head_ + (xs.length + 1) := by simpa using h.tail_eq
  have hcap : xs.length + 1 ≤ 2 ^ k := by simpa using h.le_cap
  have hfill := h.filled q.head_ le_rfl (by omega)
  have hgen : (q.slot (q.head_ % 2 ^ k)).gen = q.head_ + 1 := hfill.1
  have hval : (q.slot (q.head_ % 2 ^ k)).val = x := by
    have := hfill.2
    simpa using this.symm
  have hwrap : (q.head_ + 1) % SIZE_MOD = q.head_ + 1 := Nat.mod_eq_of_lt (by omega)
  have hwrap2 : (q.head_ + q.mask_ + 1) % SIZE_MOD = q.head_ + 2 ^ k := by
    rw [h.mask_eq]
    have : q.head_ + (2 ^ k - 1) + 1 = q.head_ + 2 ^ k := by omega
    rw [this]
    exact Nat.mod_eq_of_lt hb
  have hlt : q.head_ % 2 ^ k < q.data_.length := by
    rw [h.size_eq]; exact Nat.mod_lt _ hpos
  refine ⟨{ q with
      head_ := q.head_ + 1
      data_ := q.data_.set (q.head_ % 2 ^ k) { val := x, gen := q.head_ + 2 ^ k } },
    ?_, ?_, rfl, rfl⟩
  · simp only [Dequeue, DequeueLoop, hidx, hgen, hwrap, hwrap2, hval, if_true]
  · refine ⟨h.mask_eq, by simpa using h.size_eq, by simp [htl]; omega, by omega, ?_, ?_⟩
    · intro p hp1 hp2
      simp only at hp1 hp2 ⊢
      have hne : q.head_ % 2 ^ k ≠ p % 2 ^ k :=
        mod_ne_of_lt_of_lt_add (show q.head_ < p by omega) (by omega)
      have := h.filled p (by omega) hp2
      simp only [MPMCBoundedQueue.slot] at this ⊢
      rw [getD_set_other _ _ _ _ _ hne]
      refine ⟨this.1, ?_⟩
      have hsub : p - q.head_ = (p - (q.head_ + 1)) + 1 := by omega
      rw [hsub, List.getElem?_cons_succ] at this
      exact this.2
    · intro p hp1 hp2
      simp only at hp1 hp2 ⊢
      by_cases hpe : p = q.head_ + 2 ^ k
      · subst hpe
        simp only [MPMCBoundedQueue.slot, Nat.add_mod_right, getD_set_self _ _ _ _ hlt]
      · have hne : q.head_ % 2 ^ k ≠ p % 2 ^ k :=
          mod_ne_of_lt_of_lt_add (show q.head_ < p by omega) (by omega)
        have := h.free p hp1 (by omega)
        simp only [MPMCBoundedQueue.slot] at this ⊢
        rw [getD_set_other _ _ _ _ _ hne]
        exact this

/-- One call, from a state satisfying the invariant and with room before the cursors
overflow: the call returns within one loop iteration, replies as the bounded FIFO list
does, and re-establishes the invariant. -/
theorem doCall_refines {α : Type} [Inhabited α] (k : Nat) (hk1 : 1 ≤ k) (hk2 : k < 64)
    (fuel : Nat) (q : MPMCBoundedQueue α) (l : List α) (val : α) (n : Nat) (c : Call α)
    (h : RingInv (2 ^ k) q l) (hn : q.head_ + q.tail_ ≤ n) (hb : n + 1 < SIZE_MOD) :
    ∃ q', doCall (fuel + 1) q val c
        = some ((fifoCall (2 ^ k) l val c).1, q', (fifoCall (2 ^ k) l val c).2.2) ∧
      RingInv (2 ^ k) q' (fifoCall (2 ^ k) l val c).2.1 ∧
      q'.head_ + q'.tail_ ≤ n + 1 ∧
      q'.tail_ = q.tail_ + countEnqueued [(fifoCall (2 ^ k) l val c).1] ∧
      q'.head_ = q.head_ + countDequeued [(fifoCall (2 ^ k) l val c).1] := by
  have htl := h.tail_eq
  have hcap := h.le_cap
  have hpow : 2 ^ k ≤ 2 ^ 63 := Nat.pow_le_pow_right (by decide) (by omega)
  have hM : SIZE_MOD = 2 ^ 64 := rfl
  cases c with
  | Enqueue value =>
    by_cases hlen : l.length < 2 ^ k
    · obtain ⟨q', he, hinv, hh, ht⟩ :=
        Enqueue_of_not_full k q l h hlen (by omega) fuel value
      refine ⟨q', ?_, ?_, ?_, ?_, ?_⟩
      · simp [doCall, he, fifoCall, hlen]
      · simpa [fifoCall, hlen] using hinv
      · omega
      · simp [fifoCall, hlen, countEnqueued, ht]
      · simp [fifoCall, hlen, countDequeued, hh]
    · have he := Enqueue_of_full k hk1 q l h (by omega) fuel value
      refine ⟨q, ?_, ?_, ?_, ?_, ?_⟩
      · simp [doCall, he, fifoCall, hlen]
      · simpa [fifoCall, hlen] using h
      · omega
      · simp [fifoCall, hlen, countEnqueued]
      · simp [fifoCall, hlen, countDequeued]
  | Dequeue =>
    cases l with
    | nil =>
      have he := Dequeue_of_empty k q h (by omega) fuel val
      refine ⟨q, ?_, ?_, ?_, ?_, ?_⟩
      · simp [doCall, he, fifoCall]
      · simpa [fifoCall] using h
      · omega
      · simp [fifoCall, countEnqueued]
      · simp [fifoCall, countDequeued]
    | cons x xs =>
      obtain ⟨q', he, hinv, hh, ht⟩ :=
        Dequeue_of_nonempty k q x xs h (by omega) fuel val
      refine ⟨q', ?_, ?_, ?_, ?_, ?_⟩
      · simp [doCall, he, fifoCall]
      · simpa [fifoCall] using hinv
      · omega
      · simp [fifoCall, countEnqueued, ht]
      · simp [fifoCall, countDequeued, hh]

theorem countEnqueued_cons {α : Type} (r : Reply α) (rs : List (Reply α)) :
    countEnqueued (r :: rs) = countEnqueued [r] + countEnqueued rs := by
  cases r <;> simp [countEnqueued]

theorem countDequeued_cons {α : Type} (r : Reply α) (rs : List (Reply α)) :
    countDequeued (r :: rs) = countDequeued [r] + countDequeued rs := by
  cases r <;> simp [countDequeued]

/-- A sequence of calls, from a state satisfying the invariant: every call returns within
one loop iteration, the replies are those of the bounded FIFO list, the invariant holds at
the end, and the cursors count the successful calls. -/
theorem runCalls_refines {α : Type} [Inhabited α] (k : Nat) (hk1 : 1 ≤ k) (hk2 : k < 64)
    (fuel : Nat) (calls : List (Call α)) :
    ∀ (q : MPMCBoundedQueue α) (l : List α) (val : α) (n : Nat),
      RingInv (2 ^ k) q l → q.head_ + q.tail_ ≤ n → n + calls.length < SIZE_MOD →
      ∃ q', runCalls (fuel + 1) q val calls
          = some ((fifoRun (2 ^ k) l val calls).1, q', (fifoRun (2 ^ k) l val calls).2.2) ∧
        RingInv (2 ^ k) q' (fifoRun (2 ^ k) l val calls).2.1 ∧
        q'.head_ + q'.tail_ ≤ n + calls.length ∧
        q'.tail_ = q.tail_ + countEnqueued (fifoRun (2 ^ k) l val calls).1 ∧
        q'.head_ = q.head_ + countDequeued (fifoRun (2 ^ k) l val calls).1 := by
  induction calls with
  | nil =>
    intro q l val n h hn _
    exact ⟨q, rfl, h, by simpa using hn, by simp [fifoRun, countEnqueued],
      by simp [fifoRun, countDequeued]⟩
  | cons c cs ih =>
    intro q l val n h hn hb
    have hlen : (c :: cs).length = cs.length + 1 := rfl
    obtain ⟨q1, h1, hinv1, hn1, ht1, hh1⟩ :=
      doCall_refines k hk1 hk2 fuel q l val n c h hn (by omega)
    obtain ⟨q2, h2, hinv2, hn2, ht2, hh2⟩ :=
      ih q1 _ (fifoCall (2 ^ k) l val c).2.2 (n + 1) hinv1 hn1 (by omega)
    refine ⟨q2, ?_, ?_, ?_, ?_, ?_⟩
    · simp [runCalls, h1, h2, fifoRun]
    · simpa [fifoRun] using hinv2
    · omega
    · simp only [fifoRun]
      rw [countEnqueued_cons, ht2, ht1]
      omega
    · simp only [fifoRun]
      rw [countDequeued_cons, hh2, hh1]
      omega

theorem fuel_pos_eq (fuel : Nat) (h : 1 ≤ fuel) : fuel = (fuel - 1) + 1 := by omega

theorem two_pow_lt_SIZE_MOD (k : Nat) (hk : k < 64) : 2 ^ k < SIZE_MOD :=
  Nat.pow_lt_pow_right (by decide) hk

theorem runCalls_fresh_refines {α : Type} [Inhabited α] (k : Nat) (hk1 : 1 ≤ k) (hk2 : k < 64)
    (fuel : Nat) (hfuel : 1 ≤ fuel) (val : α) :
    ∀ calls : List (Call α), calls.length < 2 ^ 64 →
      (runCalls fuel (MPMCBoundedQueue.new (2 ^ k)) val calls).map Prod.fst
        = some (fifoRun (2 ^ k) [] val calls).1 := by
  intro calls hcalls
  obtain ⟨q', hrun, -⟩ := runCalls_refines k hk1 hk2 (fuel - 1) calls
    (MPMCBoundedQueue.new (2 ^ k)) [] val 0
    (RingInv.fresh (2 ^ k) (Nat.two_pow_pos k) (two_pow_lt_SIZE_MOD k hk2))
    (by simp [MPMCBoundedQueue.new]) (by simpa [SIZE_MOD] using hcalls)
  rw [fuel_pos_eq fuel hfuel, hrun]
  rfl

/-- C1: for every capacity `2 ^ k` with `1 ≤ k < 64` and every sequence of fewer than
`2 ^ 64` single-threaded `Enqueue`/`Dequeue` calls on a freshly constructed queue, every
call returns (any fuel of at least one loop iteration is enough) and the replies are exactly
those of the bounded FIFO list of capacity `2 ^ k`: `Enqueue` returns true and appends iff
fewer than `2 ^ k` elements are held, `Dequeue` returns true with the oldest element iff the
list is non-empty. In particular, when the capacity is at least 4, enqueuing `a, b, c` and
then dequeuing three times yields `a, b, c`. -/
theorem C1_queue_refines_bounded_fifo {α : Type} [Inhabited α] (k : Nat) (hk1 : 1 ≤ k)
    (hk2 : k < 64) (fuel : Nat) (hfuel : 1 ≤ fuel) (val : α) :
    (∀ calls : List (Call α), calls.length < 2 ^ 64 →
      (runCalls fuel (MPMCBoundedQueue.new (2 ^ k)) val calls).map Prod.fst
        = some (fifoRun (2 ^ k) [] val calls).1) ∧
    (2 ≤ k → ∀ a b c : α,
      (runCalls fuel (MPMCBoundedQueue.new (2 ^ k)) val
          [.Enqueue a, .Enqueue b, .Enqueue c, .Dequeue, .Dequeue, .Dequeue]).map Prod.fst
        = some [.Enqueue true, .Enqueue true, .Enqueue true,
            .Dequeue true a, .Dequeue true b, .Dequeue true c]) := by
  have main := runCalls_fresh_refines k hk1 hk2 fuel hfuel val
  refine ⟨main, ?_⟩
  intro hk a b c
  rw [main _ (by simp)]
  have h4 : 4 ≤ 2 ^ k := by
    calc 4 = 2 ^ 2 := rfl
      _ ≤ 2 ^ k := Nat.pow_le_pow_right (by decide) hk
  have h0 : 0 < 2 ^ k := by omega
  have h1 : 1 < 2 ^ k := by omega
  have h2 : 2 < 2 ^ k := by omega
  simp [fifoRun, fifoCall, h0, h1, h2]

/-- Instance of C1 at capacity 4: enqueuing 10, 20, 30 and dequeuing four times. -/
theorem C1_queue_refines_bounded_fifo_witness :
    (runCalls 1 (MPMCBoundedQueue.new 4) (0 : Nat)
        [.Enqueue 10, .Enqueue 20, .Enqueue 30, .Dequeue, .Dequeue, .Dequeue, .Dequeue]).map
        Prod.fst
      = some [.Enqueue true, .Enqueue true, .Enqueue true,
          .Dequeue true 10, .Dequeue true 20, .Dequeue true 30, .Dequeue false 30] :=
  ((C1_queue_refines_bounded_fifo 2 (by decide) (by decide) 1 (by decide) (0 : Nat)).1
    [.Enqueue 10, .Enqueue 20, .Enqueue 30, .Dequeue, .Dequeue, .Dequeue, .Dequeue]
    (by decide)).trans (by decide)

/-- C2 (as the code behaves at the accepted capacity 1): the construction check accepts
`Size = 1`, and on a fresh queue of capacity 1 the second consecutive `Enqueue` returns
true as well, overwriting the element accepted by the first; the claim says the
`(N+1)`-th call returns false. -/
theorem C2_capacity_one_second_Enqueue_succeeds :
    SizeCheck 1 = true ∧
    ∀ (fuel a b : Nat),
      runCalls (fuel + 1) (MPMCBoundedQueue.new 1) 0 [.Enqueue a, .Enqueue b]
        = some ([.Enqueue true, .Enqueue true],
            { mask_ := 0, head_ := 0, tail_ := 2, data_ := [{ val := b, gen := 2 }] }, 0) := by
  refine ⟨by decide, ?_⟩
  intro fuel a b
  simp [runCalls, doCall, Enqueue, EnqueueImpl, EnqueueLoop, MPMCBoundedQueue.new,
    MPMCBoundedQueue.slot, SIZE_MOD, List.range_succ]

theorem DequeueLoop_capacity_one_spins (b data : Nat) (fuel : Nat) :
    DequeueLoop data
      ({ mask_ := 0, head_ := 0, tail_ := 2, data_ := [{ val := b, gen := 2 }] } :
        MPMCBoundedQueue Nat) fuel 0 = none := by
  induction fuel with
  | zero => rfl
  | succ fuel ih =>
    unfold DequeueLoop
    simp only [MPMCBoundedQueue.slot, SIZE_MOD]
    simpa using ih

/-- C3 (as the code behaves at the accepted capacity 1): after two `Enqueue` calls on a
fresh queue of capacity 1, both returning true in their first iteration, a `Dequeue` call
takes the reload-and-retry branch in every iteration and never returns, whatever the fuel;
the claim says every call returns in its first iteration. -/
theorem C3_capacity_one_Dequeue_never_returns :
    ∃ q : MPMCBoundedQueue Nat,
      runCalls 1 (MPMCBoundedQueue.new 1) 0 [.Enqueue 7, .Enqueue 8]
        = some ([.Enqueue true, .Enqueue true], q, 0) ∧
      ∀ fuel data : Nat, Dequeue fuel q data = none :=
  ⟨{ mask_ := 0, head_ := 0, tail_ := 2, data_ := [{ val := 8, gen := 2 }] }, rfl,
    fun fuel data => DequeueLoop_capacity_one_spins 8 data fuel⟩

/-- C9: a freshly constructed queue of any capacity is `Empty()`; and for every capacity
`2 ^ k` with `1 ≤ k < 64`, in every state reached from construction by single-threaded
calls (no cursor overflow, the following `Dequeue` included), `Empty()` is true iff as many
`Enqueue` calls as `Dequeue` calls have returned true, and an immediately following
`Dequeue` returns the negation of `Empty()`. `Empty` is a function of the state only: it
changes nothing. -/
theorem C9_Empty_iff_balanced {α : Type} [Inhabited α] :
    (∀ Size : Nat, Empty (MPMCBoundedQueue.new Size : MPMCBoundedQueue α) = true) ∧
    ∀ (k : Nat), 1 ≤ k → k < 64 → ∀ (fuel : Nat), 1 ≤ fuel →
      ∀ (val : α) (calls : List (Call α)), calls.length + 1 < 2 ^ 64 →
      ∃ rs q v, runCalls fuel (MPMCBoundedQueue.new (2 ^ k)) val calls = some (rs, q, v) ∧
        (Empty q = true ↔ countEnqueued rs = countDequeued rs) ∧
        (Dequeue fuel q v).map Prod.fst = some (!Empty q) := by
  refine ⟨fun Size => by simp [Empty, MPMCBoundedQueue.new], ?_⟩
  intro k hk1 hk2 fuel hfuel val calls hcalls
  obtain ⟨q, hrun, hinv, hn, ht, hh⟩ := runCalls_refines k hk1 hk2 (fuel - 1) calls
    (MPMCBoundedQueue.new (2 ^ k)) [] val 0
    (RingInv.fresh (2 ^ k) (Nat.two_pow_pos k) (two_pow_lt_SIZE_MOD k hk2))
    (by simp [MPMCBoundedQueue.new]) (by simp only [SIZE_MOD]; omega)
  rw [← fuel_pos_eq fuel hfuel] at hrun
  refine ⟨_, q, _, hrun, ?_, ?_⟩
  · simp only [MPMCBoundedQueue.new, Nat.zero_add] at ht hh
    simp only [Empty, beq_iff_eq, ht, hh]
    exact eq_comm
  · have hpow : 2 ^ k ≤ 2 ^ 63 := Nat.pow_le_pow_right (by decide) (by omega)
    have hM : SIZE_MOD = 2 ^ 64 := rfl
    have htl := hinv.tail_eq
    rw [fuel_pos_eq fuel hfuel]
    generalize (fifoRun (2 ^ k) [] val calls).2.1 = l at hinv htl
    generalize (fifoRun (2 ^ k) [] val calls).2.2 = v
    cases l with
    | nil =>
      have he : Empty q = true := by simpa [Empty] using htl.symm
      rw [Dequeue_of_empty k q hinv (by omega) (fuel - 1) v, he]
      rfl
    | cons x xs =>
      have he : Empty q = false := by
        simp only [Empty, beq_eq_false_iff_ne, ne_eq, htl, List.length_cons]
        omega
      obtain ⟨q', hd, -⟩ := Dequeue_of_nonempty k q x xs hinv (by omega) (fuel - 1) v
      rw [hd, he]
      rfl

/-- Instance of C9 on the call sequence of `TestQueueEmpty` (capacity 4). -/
theorem C9_Empty_iff_balanced_witness :
    ∃ rs q v,
      runCalls 1 (MPMCBoundedQueue.new 4) (0 : Nat)
          [.Enqueue 1, .Dequeue, .Enqueue 1, .Enqueue 2, .Dequeue] = some (rs, q, v) ∧
        (Empty q = true ↔ countEnqueued rs = countDequeued rs) ∧
        (Dequeue 1 q v).map Prod.fst = some (!Empty q) :=
  C9_Empty_iff_balanced.2 2 (by decide) (by decide) 1 (by decide) (0 : Nat)
    [.Enqueue 1, .Dequeue, .Enqueue 1, .Enqueue 2, .Dequeue] (by decide)

theorem and_pred_eq_zero_iff (n : Nat) (hn : 0 < n) :
    n &&& (n - 1) = 0 ↔ ∃ k, n = 2 ^ k := by
  constructor
  · intro h
    obtain ⟨k, hlo, hhi⟩ : ∃ k, 2 ^ k ≤ n ∧ n < 2 ^ k * 2 :=
      ⟨n.log2, Nat.log2_self_le (by omega), by
        have := @Nat.lt_log2_self n
        rwa [Nat.pow_succ] at this⟩
    by_contra hne
    have hr : n ≠ 2 ^ k := fun e => hne ⟨_, e⟩
    obtain ⟨r, hr1, hr2, e1, e2⟩ :
        ∃ r, r < 2 ^ k ∧ r - 1 < 2 ^ k ∧ n = 2 ^ k + r ∧ n - 1 = 2 ^ k + (r - 1) :=
      ⟨n - 2 ^ k, by omega, by omega, by omega, by omega⟩
    have b3 : (n &&& (n - 1)).testBit k = true := by
      rw [Nat.testBit_and, e2, e1, Nat.testBit_two_pow_add_eq, Nat.testBit_two_pow_add_eq,
        Nat.testBit_lt_two_pow hr1, Nat.testBit_lt_two_pow hr2]
      rfl
    rw [h, Nat.zero_testBit] at b3
    exact Bool.false_ne_true b3
  · rintro ⟨k, rfl⟩
    rw [and_mask_eq_mod, Nat.mod_self]

/-- What the construction check accepts: a capacity (a `size_t` value) passes
`(Size & (Size - 1)) == 0` iff it is 0 or a power of two. -/
theorem SizeCheck_iff (Size : Nat) (h : Size < SIZE_MOD) :
    SizeCheck Size = true ↔ Size = 0 ∨ ∃ k, Size = 2 ^ k := by
  rcases Nat.eq_zero_or_pos Size with h0 | hpos
  · subst h0
    simp [SizeCheck]
  · have hm : (Size + SIZE_MOD - 1) % SIZE_MOD = Size - 1 := new_mask Size hpos h
    simp only [SizeCheck, hm, beq_iff_eq, and_pred_eq_zero_iff Size hpos]
    constructor
    · exact Or.inr
    · rintro (h0 | hk)
      · omega
      · exact hk

/-- C10 (as the code behaves at `Size = 0`): the construction check
`(Size & (Size - 1)) == 0` over `size_t` accepts `Size = 0`, which is not a power of two;
the claim says every value that is not a power of two is rejected. -/
theorem C10_SizeCheck_accepts_zero :
    SizeCheck 0 = true ∧ ¬ ∃ k : Nat, 0 = 2 ^ k := by
  refine ⟨by decide, ?_⟩
  rintro ⟨k, hk⟩
  have := Nat.two_pow_pos k
  omega

/-! ## Theorems: the metrics -/

theorem wrap64_add_wrap64 (a b : Int) : wrap64 (wrap64 a + b) = wrap64 (a + b) := by
  unfold wrap64
  omega

theorem wrap64_of_mem_range (x : Int) (h1 : -2 ^ 63 ≤ x) (h2 : x < 2 ^ 63) : wrap64 x = x := by
  unfold wrap64
  omega

theorem IncrementAll_value (deltas : List Int) :
    ∀ c : Counter, wrap64 c.value_ = c.value_ →
      (c.IncrementAll deltas).value_ = wrap64 (c.value_ + deltas.sum) := by
  induction deltas with
  | nil =>
    intro c hc
    simpa [Counter.IncrementAll] using hc.symm
  | cons d ds ih =>
    intro c hc
    have h := ih (c.Increment d) (by
      simp only [Counter.Increment]
      unfold wrap64
      omega)
    simp only [Counter.IncrementAll, List.foldl_cons, List.sum_cons] at h ⊢
    rw [h]
    simp only [Counter.Increment]
    rw [wrap64_add_wrap64, Int.add_assoc]

/-- C5: for every counter whose stored sum is 0 and every list of deltas, after the
`Increment` calls `GetAndReset` returns the integer-tagged signed 64-bit sum of the deltas
(wrapping modulo `2 ^ 64`, and the exact sum when it fits in 64 bits); right afterwards
`HasValue()` is false and a second `GetAndReset` returns 0. -/
theorem C5_Counter_GetAndReset_returns_sum (c : Counter) (hc : c.value_ = 0)
    (deltas : List Int) :
    ((c.IncrementAll deltas).GetAndReset).1 = MetricValue.int64_t (wrap64 deltas.sum) ∧
    (-2 ^ 63 ≤ deltas.sum → deltas.sum < 2 ^ 63 →
      ((c.IncrementAll deltas).GetAndReset).1 = MetricValue.int64_t deltas.sum) ∧
    ((c.IncrementAll deltas).GetAndReset).2.HasValue = false ∧
    (((c.IncrementAll deltas).GetAndReset).2.GetAndReset).1 = MetricValue.int64_t 0 := by
  have hv : (c.IncrementAll deltas).value_ = wrap64 deltas.sum := by
    rw [IncrementAll_value deltas c (by rw [hc]; rfl), hc, Int.zero_add]
  refine ⟨?_, ?_, ?_, ?_⟩
  · simp [Counter.GetAndReset, hv]
  · intro h1 h2
    simp [Counter.GetAndReset, hv, wrap64_of_mem_range _ h1 h2]
  · simp [Counter.GetAndReset, Counter.HasValue]
  · simp [Counter.GetAndReset]

/-- Instances of C5 from `TestCounter` and `TestCounterEdgeCases`: `Increment()` gives 1;
`Increment(5); Increment(3)` gives 8; `Increment(-5)` gives -5. -/
theorem C5_Counter_GetAndReset_returns_sum_witness :
    (((Counter.new "test_counter").Increment 1).GetAndReset).1 = MetricValue.int64_t 1 ∧
    ((((Counter.new "test_counter").Increment 5).Increment 3).GetAndReset).1
      = MetricValue.int64_t 8 ∧
    (((Counter.new "edge_counter").Increment (-5)).GetAndReset).1 = MetricValue.int64_t (-5) :=
  ⟨(C5_Counter_GetAndReset_returns_sum (Counter.new "test_counter") rfl [1]).2.1
      (by decide) (by decide),
    (C5_Counter_GetAndReset_returns_sum (Counter.new "test_counter") rfl [5, 3]).2.1
      (by decide) (by decide),
    (C5_Counter_GetAndReset_returns_sum (Counter.new "edge_counter") rfl [-5]).2.1
      (by decide) (by decide)⟩

/-- C6: for every counter and every list of deltas passed to `Increment` since
construction or the last `GetAndReset` (stored sum 0), `HasValue()` is true iff the running
sum (the signed 64-bit sum the counter keeps; the exact sum when it fits in 64 bits) is
nonzero. So `HasValue()` is false on a fresh counter, after `Increment(0)`, and after
`Increment(d); Increment(-d)` for every `d`. -/
theorem C6_Counter_HasValue_iff_sum_ne_zero :
    (∀ (c : Counter) (deltas : List Int), c.value_ = 0 →
      (((c.IncrementAll deltas).HasValue = true ↔ wrap64 deltas.sum ≠ 0) ∧
       (-2 ^ 63 ≤ deltas.sum → deltas.sum < 2 ^ 63 →
        ((c.IncrementAll deltas).HasValue = true ↔ deltas.sum ≠ 0)))) ∧
    (∀ name : String, (Counter.new name).HasValue = false) ∧
    (∀ c : Counter, ((c.GetAndReset).2).HasValue = false) ∧
    (∀ name : String, ((Counter.new name).Increment 0).HasValue = false) ∧
    (∀ (name : String) (d : Int),
      (((Counter.new name).Increment d).Increment (-d)).HasValue = false) := by
  have key : ∀ (c : Counter) (deltas : List Int), c.value_ = 0 →
      ((c.IncrementAll deltas).HasValue = true ↔ wrap64 deltas.sum ≠ 0) := by
    intro c deltas hc
    have hv : (c.IncrementAll deltas).value_ = wrap64 deltas.sum := by
      rw [IncrementAll_value deltas c (by rw [hc]; rfl), hc, Int.zero_add]
    simp [Counter.HasValue, hv]
  refine ⟨?_, ?_, ?_, ?_, ?_⟩
  · intro c deltas hc
    refine ⟨key c deltas hc, ?_⟩
    intro h1 h2
    rw [key c deltas hc, wrap64_of_mem_range _ h1 h2]
  · intro name
    simp [Counter.new, Counter.HasValue]
  · intro c
    simp [Counter.GetAndReset, Counter.HasValue]
  · intro name
    have := (key (Counter.new name) [0] rfl).not
    simpa [Counter.IncrementAll, wrap64] using this
  · intro name d
    have := (key (Counter.new name) [d, -d] rfl).not
    simpa [Counter.IncrementAll, wrap64] using this

/-- Instance of C6 on a fresh counter: deltas 5 and -5, then delta -5 alone. -/
theorem C6_Counter_HasValue_iff_sum_ne_zero_witness :
    ((((Counter.new "edge_counter").IncrementAll [5, -5]).HasValue = true
        ↔ wrap64 ([5, -5] : List Int).sum ≠ 0) ∧
      ((Counter.new "edge_counter").IncrementAll [-5]).HasValue = true) :=
  ⟨(C6_Counter_HasValue_iff_sum_ne_zero.1 (Counter.new "edge_counter") [5, -5] rfl).1,
    ((C6_Counter_HasValue_iff_sum_ne_zero.1 (Counter.new "edge_counter") [-5] rfl).2
      (by decide) (by decide)).2 (by decide)⟩

theorem runOps_conserves_sum (ops : List CounterOp) :
    ∀ c : Counter, ∃ vals : List Int,
      (c.runOps ops).1 = vals.map MetricValue.int64_t ∧
      (vals.sum + (c.runOps ops).2.value_) % 2 ^ 64
        = (c.value_ + (CounterOp.deltas ops).sum) % 2 ^ 64 := by
  induction ops with
  | nil =>
    intro c
    exact ⟨[], rfl, by simp [Counter.runOps, CounterOp.deltas]⟩
  | cons op ops ih =>
    intro c
    cases op with
    | Increment delta =>
      obtain ⟨vals, h1, h2⟩ := ih (c.Increment delta)
      have hv : (c.Increment delta).value_ = wrap64 (c.value_ + delta) := rfl
      have hrun : c.runOps (.Increment delta :: ops) = (c.Increment delta).runOps ops := rfl
      refine ⟨vals, by rw [hrun]; exact h1, ?_⟩
      rw [hrun]
      rw [hv] at h2
      generalize ((c.Increment delta).runOps ops).2.value_ = fin at h2 ⊢
      simp only [CounterOp.deltas, List.sum_cons]
      unfold wrap64 at h2
      omega
    | GetAndReset =>
      obtain ⟨vals, h1, h2⟩ := ih (c.GetAndReset).2
      have hv : (c.GetAndReset).2.value_ = 0 := rfl
      have hrun : c.runOps (.GetAndReset :: ops)
          = ((c.GetAndReset).1 :: ((c.GetAndReset).2.runOps ops).1,
              ((c.GetAndReset).2.runOps ops).2) := rfl
      refine ⟨c.value_ :: vals, by rw [hrun, h1]; rfl, ?_⟩
      rw [hrun]
      rw [hv] at h2
      generalize ((c.GetAndReset).2.runOps ops).2.value_ = fin at h2 ⊢
      simp only [CounterOp.deltas, List.sum_cons]
      omega

/-- C7: for every finite sequence of atomic counter operations (`Increment(d)` or
`GetAndReset`, in any order) on a fresh counter, every `GetAndReset` returns an
integer-tagged value, and the sum of the returned values plus the sum left stored equals
the sum of all deltas passed to `Increment`, modulo `2 ^ 64`. -/
theorem C7_Counter_resets_conserve_sum (name : String) (ops : List CounterOp) :
    ∃ vals : List Int,
      ((Counter.new name).runOps ops).1 = vals.map MetricValue.int64_t ∧
      (vals.sum + ((Counter.new name).runOps ops).2.value_) % 2 ^ 64
        = (CounterOp.deltas ops).sum % 2 ^ 64 := by
  obtain ⟨vals, h1, h2⟩ := runOps_conserves_sum ops (Counter.new name)
  refine ⟨vals, h1, ?_⟩
  simpa [Counter.new] using h2

theorem SetAll_eq (values : List Float) (h : values ≠ []) :
    ∀ g : Gauge, g.SetAll values
      = { name_ := g.name_, value_ := values.getLast h, has_value_ := true } := by
  induction values with
  | nil => exact absurd rfl h
  | cons v vs ih =>
    intro g
    cases vs with
    | nil => rfl
    | cons w ws =>
      have := ih (List.cons_ne_nil w ws) (g.Set v)
      simp only [Gauge.SetAll, List.foldl_cons] at this ⊢
      rw [this]
      simp [Gauge.Set]

/-- C8: `HasValue()` is false on a fresh gauge; for every gauge and every non-empty list
of values, after `Set(v1); ...; Set(vk)` `HasValue()` is true and `GetAndReset` returns
exactly `vk`, floating-tagged; after that `GetAndReset`, `HasValue()` is false, and it is
true again after the next `Set`. -/
theorem C8_Gauge_last_write_wins :
    (∀ (name : String) (uninit : Float), (Gauge.new name uninit).HasValue = false) ∧
    ∀ (g : Gauge) (values : List Float) (h : values ≠ []),
      (g.SetAll values).HasValue = true ∧
      ((g.SetAll values).GetAndReset).1 = MetricValue.double (values.getLast h) ∧
      ((g.SetAll values).GetAndReset).2.HasValue = false ∧
      ∀ v : Float, (((g.SetAll values).GetAndReset).2.Set v).HasValue = true := by
  refine ⟨fun _ _ => rfl, ?_⟩
  intro g values h
  rw [SetAll_eq values h g]
  exact ⟨rfl, rfl, rfl, fun _ => rfl⟩

/-- Instance of C8 from `TestGauge` and `TestGaugeEdgeCases`: `Set(2.71); Set(1.41)`
reports 1.41, and `Set(0.0)` is reported once. -/
theorem C8_Gauge_last_write_wins_witness :
    ((((Gauge.new "test_gauge" 0.0).Set 2.71).Set 1.41).GetAndReset).1
        = MetricValue.double 1.41 ∧
    ((Gauge.new "edge_gauge" 0.0).Set 0.0).HasValue = true ∧
    (((Gauge.new "edge_gauge" 0.0).Set 0.0).GetAndReset).1 = MetricValue.double 0.0 ∧
    (((Gauge.new "edge_gauge" 0.0).Set 0.0).GetAndReset).2.HasValue = false :=
  ⟨(C8_Gauge_last_write_wins.2 (Gauge.new "test_gauge" 0.0) [2.71, 1.41] (by simp)).2.1,
    (C8_Gauge_last_write_wins.2 (Gauge.new "edge_gauge" 0.0) [0.0] (by simp)).1,
    (C8_Gauge_last_write_wins.2 (Gauge.new "edge_gauge" 0.0) [0.0] (by simp)).2.1,
    (C8_Gauge_last_write_wins.2 (Gauge.new "edge_gauge" 0.0) [0.0] (by simp)).2.2.1⟩

/-! ## Supporting theorems: capacities `2 ^ k` with `1 ≤ k` -/

theorem fifoRun_append {α : Type} (N : Nat) (cs1 cs2 : List (Call α)) :
    ∀ (l : List α) (val : α),
      (fifoRun N l val (cs1 ++ cs2)).1
        = (fifoRun N l val cs1).1
          ++ (fifoRun N (fifoRun N l val cs1).2.1 (fifoRun N l val cs1).2.2 cs2).1 := by
  induction cs1 with
  | nil => intro l val; rfl
  | cons c cs ih =>
    intro l val
    simp [fifoRun, ih]

theorem fifoRun_enqueues {α : Type} (N : Nat) (vs : List α) :
    ∀ (l : List α) (val : α), l.length + vs.length ≤ N →
      fifoRun N l val (vs.map Call.Enqueue)
        = (vs.map (fun _ => Reply.Enqueue true), l ++ vs, val) := by
  induction vs with
  | nil => intro l val _; simp [fifoRun]
  | cons v vs ih =>
    intro l val h
    have hlt : l.length < N := by simp at h; omega
    have := ih (l ++ [v]) val (by simp at h ⊢; omega)
    simp [fifoRun, fifoCall, hlt, this]

/-- For every capacity `N = 2 ^ k` with `1 ≤ k < 64`: on a fresh queue the first `N`
consecutive `Enqueue` calls return true and the next one returns false; after one
`Dequeue` (which yields the first element) the next `Enqueue` returns true and the one
after it returns false. -/
theorem Enqueue_exactly_capacity {α : Type} [Inhabited α] (k : Nat) (hk1 : 1 ≤ k)
    (hk2 : k < 64) (fuel : Nat) (hfuel : 1 ≤ fuel) (val x : α) (xs : List α)
    (hlen : (x :: xs).length = 2 ^ k) (a b c : α) :
    (runCalls fuel (MPMCBoundedQueue.new (2 ^ k)) val
        ((x :: xs).map Call.Enqueue
          ++ [.Enqueue a, .Dequeue, .Enqueue b, .Enqueue c])).map Prod.fst
      = some ((x :: xs).map (fun _ => Reply.Enqueue true)
          ++ [.Enqueue false, .Dequeue true x, .Enqueue true, .Enqueue false]) := by
  have hpow : 2 ^ k ≤ 2 ^ 63 := Nat.pow_le_pow_right (by decide) (by omega)
  have hcalls : ((x :: xs).map Call.Enqueue
      ++ [Call.Enqueue a, Call.Dequeue, Call.Enqueue b, Call.Enqueue c]).length < 2 ^ 64 := by
    simp only [List.length_append, List.length_map, hlen]
    simp only [List.length_cons, List.length_nil]
    omega
  rw [(runCalls_fresh_refines k hk1 hk2 fuel hfuel val) _ hcalls, fifoRun_append,
    fifoRun_enqueues (2 ^ k) (x :: xs) [] val (by simp only [List.length_nil]; omega)]
  have hxs : xs.length + 1 = 2 ^ k := by simpa using hlen
  have h1 : ¬ (xs.length + 1 < 2 ^ k) := by omega
  have h2 : xs.length < 2 ^ k := by omega
  simp [fifoRun, fifoCall, h1, h2]

/-- For every capacity `2 ^ k` with `1 ≤ k < 64` and every state reached from construction
by single-threaded calls (no cursor overflow, the next call included), one loop iteration
is enough for `Enqueue` and for `Dequeue`: both return with fuel 1, `Enqueue` returns
false exactly when the ring holds `2 ^ k` elements and `Dequeue` returns false exactly when
it holds none. -/
theorem calls_return_in_first_iteration {α : Type} [Inhabited α] (k : Nat) (hk1 : 1 ≤ k)
    (hk2 : k < 64) (val : α) (calls : List (Call α)) (hcalls : calls.length + 1 < 2 ^ 64)
    (value data : α) :
    ∃ rs q v, runCalls 1 (MPMCBoundedQueue.new (2 ^ k)) val calls = some (rs, q, v) ∧
      (Enqueue 1 q value).map Prod.fst
        = some (decide (countEnqueued rs - countDequeued rs < 2 ^ k)) ∧
      (Dequeue 1 q data).map Prod.fst
        = some (decide (countEnqueued rs - countDequeued rs ≠ 0)) := by
  obtain ⟨q, hrun, hinv, hn, ht, hh⟩ := runCalls_refines k hk1 hk2 0 calls
    (MPMCBoundedQueue.new (2 ^ k)) [] val 0
    (RingInv.fresh (2 ^ k) (Nat.two_pow_pos k) (two_pow_lt_SIZE_MOD k hk2))
    (by simp [MPMCBoundedQueue.new]) (by simp only [SIZE_MOD]; omega)
  refine ⟨_, q, _, hrun, ?_, ?_⟩
  · have h := doCall_refines k hk1 hk2 0 q _ val _ (.Enqueue value) hinv hn
      (by simp only [SIZE_MOD]; omega)
    obtain ⟨q', hd, -⟩ := h
    have htl := hinv.tail_eq
    simp only [MPMCBoundedQueue.new, Nat.zero_add] at ht hh
    have hl : countEnqueued (fifoRun (2 ^ k) [] val calls).1
        - countDequeued (fifoRun (2 ^ k) [] val calls).1
        = (fifoRun (2 ^ k) [] val calls).2.1.length := by omega
    rw [hl]
    simp only [doCall] at hd
    cases he : Enqueue (0 + 1) q value with
    | none => simp [he] at hd
    | some r =>
      simp only [he, Option.some.injEq, Prod.mk.injEq] at hd
      simp only [Option.map_some']
      by_cases hlt : (fifoRun (2 ^ k) [] val calls).2.1.length < 2 ^ k
      · simpa [fifoCall, hlt] using hd.1
      · simpa [fifoCall, hlt] using hd.1
  · have h := doCall_refines k hk1 hk2 0 q _ data _ .Dequeue hinv hn
      (by simp only [SIZE_MOD]; omega)
    obtain ⟨q', hd, -⟩ := h
    have htl := hinv.tail_eq
    simp only [MPMCBoundedQueue.new, Nat.zero_add] at ht hh
    have hl : countEnqueued (fifoRun (2 ^ k) [] val calls).1
        - countDequeued (fifoRun (2 ^ k) [] val calls).1
        = (fifoRun (2 ^ k) [] val calls).2.1.length := by omega
    rw [hl]
    simp only [doCall] at hd
    cases he : Dequeue (0 + 1) q data with
    | none => simp [he] at hd
    | some r =>
      simp only [he, Option.some.injEq, Prod.mk.injEq] at hd
      simp only [Option.map_some']
      cases hlst : (fifoRun (2 ^ k) [] val calls).2.1 with
      | nil =>
        have h3 : r.1 = false ∧ r.2.1 = data := by simpa [fifoCall, hlst] using hd.1
        simp [h3.1]
      | cons y ys =>
        have h3 : r.1 = true ∧ r.2.1 = y := by simpa [fifoCall, hlst] using hd.1
        simp [h3.1]

/-! ## Theorems: the logger -/

theorem Metric.HasValue_GetAndReset (m : Metric) : ((m.GetAndReset).2).HasValue = false := by
  cases m with
  | counter c => simp [Metric.GetAndReset, Metric.HasValue, Counter.GetAndReset, Counter.HasValue]
  | gauge g => simp [Metric.GetAndReset, Metric.HasValue, Gauge.GetAndReset, Gauge.HasValue]

theorem pendingWhenReached_HasValue (ms : List (Option Nat)) :
    ∀ (heap : Heap) (h : Nat), h ∈ pendingWhenReached heap ms → (heap h).HasValue = true := by
  induction ms with
  | nil => intro heap h hm; simp [pendingWhenReached] at hm
  | cons m ms ih =>
    intro heap h hm
    cases m with
    | none => exact ih heap h (by simpa [pendingWhenReached] using hm)
    | some a =>
      by_cases ha : (heap a).HasValue = true
      · simp only [pendingWhenReached, ha, if_true, List.mem_cons] at hm
        rcases hm with rfl | hm
        · exact ha
        · have h1 := ih _ h hm
          by_cases hha : h = a
          · subst hha
            rw [Function.update_same, Metric.HasValue_GetAndReset] at h1
            exact absurd h1 (by simp)
          · rwa [Function.update_noteq hha] at h1
      · have ha' : (heap a).HasValue = false := by simpa using ha
        simp only [pendingWhenReached, ha', Bool.false_eq_true, if_false] at hm
        exact ih heap h hm

theorem pendingWhenReached_mem (ms : List (Option Nat)) :
    ∀ (heap : Heap) (h : Nat),
      h ∈ pendingWhenReached heap ms ↔ some h ∈ ms ∧ (heap h).HasValue = true := by
  induction ms with
  | nil => intro heap h; simp [pendingWhenReached]
  | cons m ms ih =>
    intro heap h
    cases m with
    | none => simp [pendingWhenReached, ih]
    | some a =>
      by_cases ha : (heap a).HasValue = true
      · simp only [pendingWhenReached, ha, if_true, List.mem_cons, ih, Option.some.injEq]
        by_cases hha : h = a
        · subst hha
          simp [ha]
        · simp [hha, Function.update_noteq hha]
      · have ha' : (heap a).HasValue = false := by simpa using ha
        simp only [pendingWhenReached, ha', Bool.false_eq_true, if_false, List.mem_cons, ih,
          Option.some.injEq]
        constructor
        · rintro ⟨h1, h2⟩
          exact ⟨Or.inr h1, h2⟩
        · rintro ⟨h1 | h1, h2⟩
          · subst h1
            exact absurd h2 ha
          · exact ⟨h1, h2⟩

theorem pendingWhenReached_nodup (ms : List (Option Nat)) :
    ∀ heap : Heap, (pendingWhenReached heap ms).Nodup := by
  induction ms with
  | nil => intro heap; simp [pendingWhenReached]
  | cons m ms ih =>
    intro heap
    cases m with
    | none => simpa [pendingWhenReached] using ih heap
    | some a =>
      by_cases ha : (heap a).HasValue = true
      · simp only [pendingWhenReached, ha, if_true, List.nodup_cons]
        refine ⟨?_, ih _⟩
        intro hm
        have := pendingWhenReached_HasValue ms _ a hm
        rw [Function.update_same, Metric.HasValue_GetAndReset] at this
        exact absurd this (by simp)
      · have ha' : (heap a).HasValue = false := by simpa using ha
        simpa [pendingWhenReached, ha'] using ih heap

theorem pendingWhenReached_sublist (ms : List (Option Nat)) :
    ∀ heap : Heap, (pendingWhenReached heap ms).Sublist ms.reduceOption := by
  induction ms with
  | nil => intro heap; simp [pendingWhenReached]
  | cons m ms ih =>
    intro heap
    cases m with
    | none => simpa [pendingWhenReached, List.reduceOption_cons_of_none] using ih heap
    | some a =>
      rw [List.reduceOption_cons_of_some]
      by_cases ha : (heap a).HasValue = true
      · simp only [pendingWhenReached, ha, if_true]
        exact (ih _).cons₂ a
      · have ha' : (heap a).HasValue = false := by simpa using ha
        simp only [pendingWhenReached, ha', Bool.false_eq_true, if_false]
        exact (ih heap).cons a

theorem pendingWhenReached_of_nodup (ms : List (Option Nat)) :
    ∀ heap : Heap, ms.reduceOption.Nodup →
      pendingWhenReached heap ms = ms.reduceOption.filter (fun h => (heap h).HasValue) := by
  induction ms with
  | nil => intro heap _; simp [pendingWhenReached]
  | cons m ms ih =>
    intro heap hnd
    cases m with
    | none =>
      rw [List.reduceOption_cons_of_none] at hnd ⊢
      simpa [pendingWhenReached] using ih heap hnd
    | some a =>
      rw [List.reduceOption_cons_of_some] at hnd ⊢
      have hnd' := (List.nodup_cons.1 hnd)
      have hcongr : ∀ heap' : Heap, (∀ h, h ≠ a → heap' h = heap h) →
          ms.reduceOption.filter (fun h => (heap' h).HasValue)
            = ms.reduceOption.filter (fun h => (heap h).HasValue) := by
        intro heap' hh
        apply List.filter_congr
        intro h hm
        rw [hh h (fun e => hnd'.1 (e ▸ hm))]
      by_cases ha : (heap a).HasValue = true
      · simp only [pendingWhenReached, ha, if_true, List.filter_cons_of_pos]
        rw [ih _ hnd'.2, hcongr _ (fun h hne => Function.update_noteq hne _ _)]
      · have ha' : (heap a).HasValue = false := by simpa using ha
        simp only [pendingWhenReached, ha', Bool.false_eq_true, if_false]
        rw [List.filter_cons_of_neg (by simpa using ha')]
        exact ih heap hnd'.2

theorem resetPending_cons_update (heap : Heap) (a : Nat) (pending : List Nat)
    (hp : ∀ h ∈ pending, h ≠ a) :
    resetPending (Function.update heap a ((heap a).GetAndReset).2) pending
      = resetPending heap (a :: pending) := by
  funext h
  by_cases hha : h = a
  · subst hha
    have : h ∉ pending := fun hm => hp h hm rfl
    simp [resetPending, this]
  · simp [resetPending, hha, Function.update_noteq hha]

theorem map_snapshotOf_update (heap : Heap) (a : Nat) (m : Metric) (now : Nat)
    (pending : List Nat) (hp : ∀ h ∈ pending, h ≠ a) :
    pending.map (snapshotOf (Function.update heap a m) now)
      = pending.map (snapshotOf heap now) := by
  apply List.map_congr_left
  intro h hm
  simp [snapshotOf, Function.update_noteq (hp h hm)]

/-- The scan of `CollectMetrics` from a queue holding `l` (capacity `2 ^ k`, no cursor
overflow during the scan): it returns, every metric pending when reached is reset, and
the queue gains the snapshots of the first pending metrics that fit. -/
theorem CollectLoop_spec (k : Nat) (hk : 1 ≤ k) (fuel now : Nat) (ms : List (Option Nat)) :
    ∀ (heap : Heap) (q : MPMCBoundedQueue MetricSnapshot) (l : List MetricSnapshot),
      RingInv (2 ^ k) q l → q.head_ + 2 ^ k < SIZE_MOD →
      ∃ q', CollectLoop (fuel + 1) now ms heap q
          = some (resetPending heap (pendingWhenReached heap ms), q') ∧
        RingInv (2 ^ k) q'
          (l ++ ((pendingWhenReached heap ms).map (snapshotOf heap now)).take
            (2 ^ k - l.length)) ∧
        q'.head_ = q.head_ := by
  induction ms with
  | nil =>
    intro heap q l h _
    refine ⟨q, ?_, by simpa [pendingWhenReached] using h, rfl⟩
    simp only [CollectLoop, pendingWhenReached]
    congr 2
  | cons m ms ih =>
    intro heap q l h hb
    cases m with
    | none => simpa [CollectLoop, pendingWhenReached] using ih heap q l h hb
    | some a =>
      rcases Bool.eq_false_or_eq_true ((heap a).HasValue) with ha | ha
      · have hne : ∀ h' ∈ pendingWhenReached
            (Function.update heap a ((heap a).GetAndReset).2) ms, h' ≠ a := by
          intro h' hm e
          subst e
          have := pendingWhenReached_HasValue ms _ h' hm
          rw [Function.update_same, Metric.HasValue_GetAndReset] at this
          exact absurd this (by simp)
        have htl := h.tail_eq
        have hcap := h.le_cap
        by_cases hlen : l.length < 2 ^ k
        · obtain ⟨q1, he, hinv1, hh1, -⟩ := Enqueue_of_not_full k q l h hlen (by omega) fuel
            (snapshotOf heap now a)
          obtain ⟨q', hrun, hinv', hh'⟩ := ih (Function.update heap a ((heap a).GetAndReset).2)
            q1 (l ++ [snapshotOf heap now a]) hinv1 (by omega)
          refine ⟨q', ?_, ?_, by omega⟩
          · simp only [CollectLoop, ha, if_true, pendingWhenReached]
            have he' : Enqueue (fuel + 1) q
                { name := (heap a).GetName, value := ((heap a).GetAndReset).1,
                  timestamp := now } = some (true, q1) := he
            simp only [he', hrun, resetPending_cons_update heap a _ hne]
          · simp only [pendingWhenReached, ha, if_true, List.map_cons]
            rw [map_snapshotOf_update heap a _ now _ hne] at hinv'
            have e1 : 2 ^ k - l.length = (2 ^ k - (l ++ [snapshotOf heap now a]).length) + 1 := by
              simp only [List.length_append, List.length_singleton]
              omega
            rw [e1, List.take_succ_cons]
            simpa [List.append_assoc] using hinv'
        · have he := Enqueue_of_full k hk q l h (by omega) fuel (snapshotOf heap now a)
          obtain ⟨q', hrun, hinv', hh'⟩ := ih (Function.update heap a ((heap a).GetAndReset).2)
            q l h hb
          refine ⟨q', ?_, ?_, hh'⟩
          · simp only [CollectLoop, ha, if_true, pendingWhenReached]
            have he' : Enqueue (fuel + 1) q
                { name := (heap a).GetName, value := ((heap a).GetAndReset).1,
                  timestamp := now } = some (false, q) := he
            simp only [he', hrun, resetPending_cons_update heap a _ hne]
          · have e0 : 2 ^ k - l.length = 0 := by omega
            rw [e0, List.take_zero] at hinv' ⊢
            exact hinv'
      · simpa [CollectLoop, pendingWhenReached, ha] using ih heap q l h hb

theorem Metric.HasValue_eq_spec (m : Metric) : m.HasValue = specHasPending m := by
  cases m with
  | counter c =>
    by_cases h : c.value_ = 0 <;>
      simp [Metric.HasValue, Counter.HasValue, specHasPending, h]
  | gauge g => rfl

theorem Metric.GetAndReset_eq_spec (m : Metric) : (m.GetAndReset).2 = specAfterReset m := by
  cases m <;> rfl

theorem snapshotOf_eq_spec (heap : Heap) (now h : Nat) :
    snapshotOf heap now h = specSnapshot now (heap h) := by
  unfold snapshotOf
  cases heap h <;> rfl

theorem pendingWhenReached_eq_spec (ms : List (Option Nat)) :
    ∀ heap : Heap, pendingWhenReached heap ms = specPending heap ms := by
  induction ms with
  | nil => intro heap; rfl
  | cons m ms ih =>
    intro heap
    cases m with
    | none => simpa [pendingWhenReached, specPending] using ih heap
    | some a =>
      simp only [pendingWhenReached, specPending, Metric.HasValue_eq_spec,
        Metric.GetAndReset_eq_spec, ih]

theorem resetPending_eq_spec (heap : Heap) (pending : List Nat) :
    resetPending heap pending = specReset heap pending := by
  funext h
  simp only [resetPending, specReset, Metric.GetAndReset_eq_spec]

theorem map_snapshotOf_eq_spec (heap : Heap) (now : Nat) (hs : List Nat) :
    hs.map (snapshotOf heap now) = hs.map fun h => specSnapshot now (heap h) :=
  List.map_congr_left fun h _ => snapshotOf_eq_spec heap now h

theorem IncrementAll_name (deltas : List Int) :
    ∀ c : Counter, (c.IncrementAll deltas).name_ = c.name_ := by
  induction deltas with
  | nil => intro c; rfl
  | cons d ds ih =>
    intro c
    have := ih (c.Increment d)
    simpa [Counter.IncrementAll, Counter.Increment] using this

theorem SetAll_name (values : List Float) :
    ∀ g : Gauge, (g.SetAll values).name_ = g.name_ := by
  induction values with
  | nil => intro g; rfl
  | cons v vs ih =>
    intro g
    have := ih (g.Set v)
    simpa [Gauge.SetAll, Gauge.Set] using this

/-- C11: one `CollectMetrics` pass with no concurrent metric updates, on any registry and
on a queue of capacity `2 ^ k` holding `l` (so with `f = 2 ^ k - l.length` free slots; no
cursor overflow during the pass). With `p1 .. pn` the registered metrics that have
pending data when reached (`HasValue()` true: a counter whose sum is not zero, a gauge
whose flag is set), in registration order: the pass returns; the queue gains exactly the
snapshots of the first `min(n, f)` of them, in order, each with the name the metric was
constructed with (member `name_`), the value held before the reset (the sum of the
counter, integer-tagged; the stored value of the gauge, floating-tagged) and the one
timestamp `now`; every `pi` is reset (counter sum 0, gauge flag cleared, `HasValue()`
false afterwards), also those whose snapshot was dropped; every other metric is left as
it was. The `pi` are the registered handles with pending data, each once, in
registration order (for a registry without repeated handles: the registry filtered by
pending data). The name of a counter or gauge is the constructor argument, whatever
updates it has received. For every metric object the virtual calls `HasValue()`,
`GetAndReset()` and `GetName()` give what is specified here by its members. -/
theorem C11_CollectMetrics_pass (k : Nat) (hk : 1 ≤ k) (fuel : Nat) (hfuel : 1 ≤ fuel)
    (now : Nat) (w : LoggerWorld) (l : List MetricSnapshot)
    (hinv : RingInv (2 ^ k) w.queue_ l) (hb : w.queue_.head_ + 2 ^ k < SIZE_MOD) :
    ∃ w', CollectMetrics fuel now w = some w' ∧
      w'.metrics_ = w.metrics_ ∧ w'.file = w.file ∧
      RingInv (2 ^ k) w'.queue_
        (l ++ ((specPending w.heap w.metrics_).take (2 ^ k - l.length)).map
          (fun h => specSnapshot now (w.heap h))) ∧
      (∀ h ∈ specPending w.heap w.metrics_,
        (w.heap h).HasValue = true ∧ w'.heap h = specAfterReset (w.heap h) ∧
        w'.heap h = ((w.heap h).GetAndReset).2 ∧ (w'.heap h).HasValue = false) ∧
      (∀ h, h ∉ specPending w.heap w.metrics_ → w'.heap h = w.heap h) ∧
      (∀ h, h ∈ specPending w.heap w.metrics_
        ↔ some h ∈ w.metrics_ ∧ specHasPending (w.heap h) = true) ∧
      (∀ h, h ∈ specPending w.heap w.metrics_
        ↔ some h ∈ w.metrics_ ∧ (w.heap h).HasValue = true) ∧
      (specPending w.heap w.metrics_).Nodup ∧
      (specPending w.heap w.metrics_).Sublist w.metrics_.reduceOption ∧
      (w.metrics_.reduceOption.Nodup →
        specPending w.heap w.metrics_
          = w.metrics_.reduceOption.filter (fun h => specHasPending (w.heap h))) ∧
      (∀ (name : String) (deltas : List Int),
        specSnapshot now (.counter ((Counter.new name).IncrementAll deltas))
          = { name := name, value := MetricValue.int64_t (wrap64 deltas.sum),
              timestamp := now }) ∧
      (∀ (name : String) (uninit : Float) (values : List Float) (hne : values ≠ []),
        specSnapshot now (.gauge ((Gauge.new name uninit).SetAll values))
          = { name := name, value := MetricValue.double (values.getLast hne),
              timestamp := now }) ∧
      (∀ m : Metric, m.HasValue = specHasPending m ∧
        (m.GetAndReset).2 = specAfterReset m ∧
        ({ name := m.GetName, value := (m.GetAndReset).1, timestamp := now } : MetricSnapshot)
          = specSnapshot now m) := by
  have hcode : ∀ m : Metric, m.HasValue = specHasPending m ∧
      (m.GetAndReset).2 = specAfterReset m ∧
      ({ name := m.GetName, value := (m.GetAndReset).1, timestamp := now } : MetricSnapshot)
        = specSnapshot now m := by
    intro m
    cases m with
    | counter c =>
      refine ⟨?_, rfl, rfl⟩
      by_cases h : c.value_ = 0 <;>
        simp [Metric.HasValue, Counter.HasValue, specHasPending, h]
    | gauge g => exact ⟨rfl, rfl, rfl⟩
  obtain ⟨q', hrun, hinv', -⟩ :=
    CollectLoop_spec k hk (fuel - 1) now w.metrics_ w.heap w.queue_ l hinv hb
  rw [← fuel_pos_eq fuel hfuel] at hrun
  have hmem := pendingWhenReached_mem w.metrics_ w.heap
  have hnd := pendingWhenReached_nodup w.metrics_ w.heap
  have hsub := pendingWhenReached_sublist w.metrics_ w.heap
  have hfil := pendingWhenReached_of_nodup w.metrics_ w.heap
  rw [pendingWhenReached_eq_spec] at hrun hinv' hmem hnd hsub hfil
  rw [resetPending_eq_spec] at hrun
  rw [map_snapshotOf_eq_spec] at hinv'
  refine ⟨⟨w.metrics_, q', specReset w.heap (specPending w.heap w.metrics_), w.file⟩,
    ?_, rfl, rfl, ?_, ?_, ?_, ?_, hmem, hnd, hsub, ?_, ?_, ?_, hcode⟩
  · simp only [CollectMetrics, hrun]
  · rw [List.map_take]
    exact hinv'
  · intro h hm
    have e : specReset w.heap (specPending w.heap w.metrics_) h
        = specAfterReset (w.heap h) := by simp [specReset, hm]
    refine ⟨((hmem h).1 hm).2, e, ?_, ?_⟩
    · rw [Metric.GetAndReset_eq_spec]
      exact e
    · show (specReset w.heap _ h).HasValue = false
      rw [e, ← Metric.GetAndReset_eq_spec]
      exact Metric.HasValue_GetAndReset _
  · intro h hm
    simp [specReset, hm]
  · intro h
    rw [hmem h, Metric.HasValue_eq_spec]
  · intro hnodup
    rw [hfil hnodup]
    apply List.filter_congr
    intro h _
    rw [Metric.HasValue_eq_spec]
  · intro name deltas
    have hv := IncrementAll_value deltas (Counter.new name) rfl
    have hn := IncrementAll_name deltas (Counter.new name)
    simp only [Counter.new, Int.zero_add] at hv hn
    simp only [specSnapshot, Counter.new, hv, hn]
  · intro name uninit values hne
    rw [SetAll_eq values hne]
    rfl

/-- Instance of C11 on `exampleWorld`, clock reading 7: the pass returns and the fresh
queue of capacity 4096 holds the snapshot of the counter `test_requests` (42, as an
integer) and then that of the gauge `test_cpu` (0.85, as a double). -/
theorem C11_CollectMetrics_pass_witness :
    ∃ w', CollectMetrics 1 7 exampleWorld = some w' ∧
      RingInv (2 ^ 12) w'.queue_
        [{ name := "test_requests", value := MetricValue.int64_t 42, timestamp := 7 },
         { name := "test_cpu", value := MetricValue.double 0.85, timestamp := 7 }] := by
  obtain ⟨w', h1, -, -, h2, -⟩ := C11_CollectMetrics_pass 12 (by decide) 1 (by decide) 7
    exampleWorld []
    (RingInv.fresh (2 ^ 12) (by decide) (by decide))
    (by decide)
  refine ⟨w', h1, ?_⟩
  have hp : specPending exampleWorld.heap exampleWorld.metrics_ = [0, 1] := by
    simp [exampleWorld, exampleHeap, specPending, specHasPending, specAfterReset,
      Function.update]
  rw [hp] at h2
  simpa [exampleWorld, exampleHeap, specSnapshot] using h2

theorem exampleWorld_pending :
    pendingWhenReached exampleWorld.heap exampleWorld.metrics_ = [0, 1] := by
  simp [exampleWorld, exampleHeap, pendingWhenReached, Metric.HasValue, Counter.HasValue,
    Gauge.HasValue, Metric.GetAndReset, Counter.GetAndReset, Function.update]

theorem join_cons_eq (x : String) (xs : List String) :
    String.join (x :: xs) = x ++ String.join xs := by
  apply String.ext
  simp [String.data_join]

theorem WriteLoop_eq (fmt : Format) (snapshots : List MetricSnapshot) :
    ∀ file : String,
      WriteLoop fmt snapshots file = file ++ String.join (snapshots.map (entryText fmt)) := by
  induction snapshots with
  | nil => intro file; simp [WriteLoop, String.join]
  | cons snap rest ih =>
    intro file
    simp only [WriteLoop, ih, List.map_cons, join_cons_eq, entryText, String.append_assoc]

/-- The drain loop of `WriteSnapshots` from a queue holding `l` (capacity `2 ^ k`, no
cursor overflow): with more iterations than elements it returns, its batch is `l` in
order after what was collected before, and the queue is left empty. -/
theorem DrainLoop_spec (k : Nat) (fuel : Nat) (l : List MetricSnapshot) :
    ∀ (q : MPMCBoundedQueue MetricSnapshot) (snapshot : MetricSnapshot)
      (snapshots : List MetricSnapshot) (n : Nat),
      RingInv (2 ^ k) q l → q.tail_ + 2 ^ k < SIZE_MOD → l.length < n →
      ∃ q', DrainLoop (fuel + 1) q snapshot snapshots n = some (q', snapshots ++ l) ∧
        RingInv (2 ^ k) q' [] ∧ q'.head_ = q.tail_ ∧ q'.tail_ = q.tail_ := by
  induction l with
  | nil =>
    intro q snapshot snapshots n h hb hn
    have hpos := Nat.two_pow_pos k
    have htl : q.tail_ = q.head_ := by simpa using h.tail_eq
    obtain ⟨n', rfl⟩ : ∃ n', n = n' + 1 := ⟨n - 1, by omega⟩
    have he := Dequeue_of_empty k q h (by omega) fuel snapshot
    refine ⟨q, ?_, h, htl.symm, rfl⟩
    simp only [DrainLoop, he, List.append_nil]
  | cons x xs ih =>
    intro q snapshot snapshots n h hb hn
    have htl : q.tail_ = q.head_ + (xs.length + 1) := by simpa using h.tail_eq
    obtain ⟨n', rfl⟩ : ∃ n', n = n' + 1 := ⟨n - 1, by simp at hn; omega⟩
    obtain ⟨q1, he, hinv1, hh1, ht1⟩ := Dequeue_of_nonempty k q x xs h (by omega) fuel snapshot
    obtain ⟨q', hrun, hinv', hh', ht'⟩ := ih q1 x (snapshots ++ [x]) n' hinv1 (by omega)
      (by simp at hn; omega)
    refine ⟨q', ?_, hinv', by omega, by omega⟩
    simp only [DrainLoop, he, hrun, List.append_assoc, List.singleton_append]

theorem WriteSnapshots_spec (fmt : Format) (k : Nat) (fuel : Nat) (w : LoggerWorld)
    (l : List MetricSnapshot) (hinv : RingInv (2 ^ k) w.queue_ l)
    (hb : w.queue_.tail_ + 2 ^ k < SIZE_MOD) (hfuel : l.length < fuel) :
    ∃ q', DrainLoop fuel w.queue_ default [] fuel = some (q', l) ∧
      WriteSnapshots fmt fuel w
        = some ⟨w.metrics_, q', w.heap, w.file ++ lineText fmt l⟩ ∧
      RingInv (2 ^ k) q' [] ∧ q'.head_ = w.queue_.tail_ ∧ q'.tail_ = w.queue_.tail_ := by
  obtain ⟨q', hrun, hinv', hh', ht'⟩ :=
    DrainLoop_spec k (fuel - 1) l w.queue_ default [] fuel hinv hb hfuel
  rw [← fuel_pos_eq fuel (by omega), List.nil_append] at hrun
  refine ⟨q', hrun, ?_, hinv', hh', ht'⟩
  cases l with
  | nil => simp [WriteSnapshots, hrun, lineText]
  | cons first rest =>
    simp only [WriteSnapshots, hrun, lineText, WriteLoop_eq, String.append_assoc]

theorem entryText_eq_spec (fmt : Format) (snap : MetricSnapshot) :
    entryText fmt snap = specEntry fmt snap := by
  unfold entryText specEntry
  cases snap.value <;> rfl

theorem lineText_eq_spec (fmt : Format) (l : List MetricSnapshot) :
    lineText fmt l = specLine fmt l := by
  cases l with
  | nil => rfl
  | cons first rest =>
    have e : entryText fmt = specEntry fmt := funext (entryText_eq_spec fmt)
    simp only [lineText, specLine, e]

/-- C12: for every content `s1 .. sk` of the queue (capacity `2 ^ k'`, no cursor overflow
during the drain), `WriteSnapshots` returns, its drain loop dequeues all `k` snapshots in
FIFO order, and the queue is left empty. For `k = 0` nothing is appended to the file;
for `k ≥ 1` exactly the text `FormatTimestamp(s1.timestamp)`, then for each `si` in order
a space, a double quote, the name, a double quote, a space and the rendering of the
value, then one newline. The rendering is `operator<<` for `int64_t` when the value is
integer-tagged and `operator<<` for `double` when it is floating-tagged; the value of a
counter (what `Counter::GetAndReset` returns) is so rendered as an integer and the value
of a gauge as a double. Only the timestamp of the first snapshot is printed. -/
theorem C12_WriteSnapshots_drains_and_writes (fmt : Format) (k : Nat) (fuel : Nat)
    (w : LoggerWorld) (l : List MetricSnapshot) (hinv : RingInv (2 ^ k) w.queue_ l)
    (hb : w.queue_.tail_ + 2 ^ k < SIZE_MOD) (hfuel : l.length < fuel) :
    (∃ w', WriteSnapshots fmt fuel w = some w' ∧
      DrainLoop fuel w.queue_ default [] fuel = some (w'.queue_, l) ∧
      RingInv (2 ^ k) w'.queue_ [] ∧ Empty w'.queue_ = true ∧
      w'.metrics_ = w.metrics_ ∧ w'.heap = w.heap ∧
      (l = [] → w'.file = w.file) ∧
      (∀ s1 rest, l = s1 :: rest →
        w'.file = w.file ++ (fmt.FormatTimestamp s1.timestamp
          ++ String.join (l.map fun si => " \"" ++ si.name ++ "\" " ++
              (match si.value with
               | MetricValue.int64_t v => fmt.put_int64_t v
               | MetricValue.double v => fmt.put_double v))
          ++ "\n"))) ∧
    (∀ (c : Counter) (now : Nat) (file : String),
      WriteLoop fmt [{ name := c.GetName, value := (c.GetAndReset).1, timestamp := now }] file
        = file ++ " \"" ++ c.name_ ++ "\" " ++ fmt.put_int64_t c.value_) ∧
    (∀ (g : Gauge) (now : Nat) (file : String),
      WriteLoop fmt [{ name := g.GetName, value := (g.GetAndReset).1, timestamp := now }] file
        = file ++ " \"" ++ g.name_ ++ "\" " ++ fmt.put_double g.value_) := by
  obtain ⟨q', hdrain, hrun, hinv', hh', ht'⟩ := WriteSnapshots_spec fmt k fuel w l hinv hb hfuel
  rw [lineText_eq_spec] at hrun
  refine ⟨⟨_, hrun, hdrain, hinv', ?_, rfl, rfl, ?_, ?_⟩, fun _ _ _ => rfl, fun _ _ _ => rfl⟩
  · simp [Empty, hh', ht']
  · rintro rfl
    simp [specLine]
  · rintro s1 rest rfl
    rfl

/-- Instance of C12: after the collect pass on `exampleWorld` at clock reading 7,
`WriteSnapshots` drains the two snapshots and appends their line: the timestamp, the
counter `test_requests` with 42 rendered as an integer, the gauge `test_cpu` with 0.85
rendered as a double, and a newline. -/
theorem C12_WriteSnapshots_drains_and_writes_witness :
    ∃ w1 w2, CollectMetrics 1 7 exampleWorld = some w1 ∧
      WriteSnapshots exampleFormat 4097 w1 = some w2 ∧
      Empty w2.queue_ = true ∧
      w2.file = "7 \"test_requests\" 42 \"test_cpu\" " ++ exampleFormat.put_double 0.85
        ++ "\n" := by
  obtain ⟨q1, hrun, hinv, hh⟩ := CollectLoop_spec 12 (by decide) 0 7 exampleWorld.metrics_
    exampleWorld.heap exampleWorld.queue_ [] (RingInv.fresh (2 ^ 12) (by decide) (by decide))
    (by decide)
  rw [exampleWorld_pending] at hinv
  have hl : ([] : List MetricSnapshot)
      ++ (List.map (snapshotOf exampleWorld.heap 7) [0, 1]).take (2 ^ 12 - ([] : List MetricSnapshot).length)
      = [{ name := "test_requests", value := MetricValue.int64_t 42, timestamp := 7 },
         { name := "test_cpu", value := MetricValue.double 0.85, timestamp := 7 }] := by
    simp [exampleWorld, exampleHeap, snapshotOf_eq_spec, specSnapshot]
  rw [hl] at hinv
  have htl := hinv.tail_eq
  have hh0 : q1.head_ = 0 := hh
  obtain ⟨w2, h2, -, -, he, -, -, -, hfile⟩ :=
    (C12_WriteSnapshots_drains_and_writes exampleFormat 12 4097
      ⟨exampleWorld.metrics_, q1, resetPending exampleWorld.heap [0, 1], exampleWorld.file⟩
      [{ name := "test_requests", value := MetricValue.int64_t 42, timestamp := 7 },
       { name := "test_cpu", value := MetricValue.double 0.85, timestamp := 7 }] hinv
      (by simp only [htl, hh0, SIZE_MOD]; decide) (by decide)).1
  refine ⟨_, w2, ?_, h2, he, ?_⟩
  · simp only [CollectMetrics, hrun, exampleWorld_pending]
  · rw [hfile _ _ rfl]
    have e7 : exampleFormat.FormatTimestamp 7 = "7" := by decide
    have e42 : exampleFormat.put_int64_t 42 = "42" := by decide
    simp only [List.map_cons, List.map_nil, join_cons_eq, e7, e42, exampleWorld]
    apply String.ext
    simp only [String.data_append, List.append_assoc, String.join]
    rfl

/-- One pass from an empty queue of capacity `2 ^ k` (no cursor overflow during the
pass) in which at most `2 ^ k` metrics are pending when reached: the pass returns, does
what `passSpec` says, and leaves the queue empty. -/
theorem Pass_spec (fmt : Format) (k : Nat) (hk : 1 ≤ k) (fuel now : Nat) (w : LoggerWorld)
    (hinv : RingInv (2 ^ k) w.queue_ [])
    (hpend : (pendingWhenReached w.heap w.metrics_).length ≤ 2 ^ k)
    (hb : w.queue_.tail_ + 2 * 2 ^ k < SIZE_MOD)
    (hfuel : (pendingWhenReached w.heap w.metrics_).length < fuel) :
    ∃ q', Pass fmt fuel now w
        = some ⟨w.metrics_, q', (passSpec fmt now w.metrics_ w.heap w.file).1,
            (passSpec fmt now w.metrics_ w.heap w.file).2⟩ ∧
      RingInv (2 ^ k) q' [] ∧ q'.head_ = q'.tail_ ∧
      q'.tail_ = w.queue_.tail_ + (pendingWhenReached w.heap w.metrics_).length := by
  have htl : w.queue_.tail_ = w.queue_.head_ := by simpa using hinv.tail_eq
  obtain ⟨q1, hrun, hinv1, hh1⟩ := CollectLoop_spec k hk (fuel - 1) now w.metrics_ w.heap
    w.queue_ [] hinv (by omega)
  rw [← fuel_pos_eq fuel (by omega)] at hrun
  have hl : ([] : List MetricSnapshot)
      ++ ((pendingWhenReached w.heap w.metrics_).map (snapshotOf w.heap now)).take
          (2 ^ k - ([] : List MetricSnapshot).length)
      = (pendingWhenReached w.heap w.metrics_).map (snapshotOf w.heap now) := by
    rw [List.nil_append, List.take_of_length_le]
    simpa using hpend
  rw [hl] at hinv1
  have htl1 : q1.tail_ = q1.head_ + (pendingWhenReached w.heap w.metrics_).length := by
    simpa using hinv1.tail_eq
  obtain ⟨q', -, hw, hinv', hh', ht'⟩ := WriteSnapshots_spec fmt k fuel
    ⟨w.metrics_, q1, resetPending w.heap (pendingWhenReached w.heap w.metrics_), w.file⟩
    _ hinv1 (by show q1.tail_ + 2 ^ k < SIZE_MOD; omega) (by simpa using hfuel)
  refine ⟨q', ?_, hinv', by rw [hh', ht'], ?_⟩
  · simp only [Pass, CollectMetrics, hrun, hw, passSpec]
  · rw [ht']
    show q1.tail_ = _
    omega

theorem count_newline_join (ss : List String)
    (h : ∀ s ∈ ss, '\n' ∉ s.data) : (String.join ss).data.count '\n' = 0 := by
  induction ss with
  | nil => rfl
  | cons s ss ih =>
    rw [join_cons_eq, String.data_append, List.count_append,
      ih (fun t ht => h t (List.mem_cons_of_mem _ ht)),
      List.count_eq_zero.2 (h s (List.mem_cons_self _ _))]

theorem count_newline_entryText (fmt : Format) (snap : MetricSnapshot)
    (hname : '\n' ∉ snap.name.data) (hval : '\n' ∉ (fmt.visit snap.value).data) :
    '\n' ∉ (entryText fmt snap).data := by
  simp only [entryText, String.data_append, List.mem_append, not_or]
  exact ⟨⟨⟨by decide, hname⟩, by decide⟩, hval⟩

/-- The line of a non-empty batch whose names and renderings contain no newline
character: exactly one newline character, in last position. -/
theorem lineText_one_newline (fmt : Format) (l : List MetricSnapshot) (hne : l ≠ [])
    (hts : ∀ s ∈ l, '\n' ∉ (fmt.FormatTimestamp s.timestamp).data)
    (hnames : ∀ s ∈ l, '\n' ∉ s.name.data)
    (hvals : ∀ s ∈ l, '\n' ∉ (fmt.visit s.value).data) :
    (lineText fmt l).data.count '\n' = 1 ∧ (lineText fmt l).data.getLast? = some '\n' := by
  cases l with
  | nil => exact absurd rfl hne
  | cons first rest =>
    have h1 : (fmt.FormatTimestamp first.timestamp).data.count '\n' = 0 :=
      List.count_eq_zero.2 (hts first (List.mem_cons_self _ _))
    have h2 : (String.join ((first :: rest).map (entryText fmt))).data.count '\n' = 0 := by
      apply count_newline_join
      intro s hs
      obtain ⟨snap, hsnap, rfl⟩ := List.mem_map.1 hs
      exact count_newline_entryText fmt snap (hnames snap hsnap) (hvals snap hsnap)
    have hd : (lineText fmt (first :: rest)).data
        = ((fmt.FormatTimestamp first.timestamp).data
            ++ (String.join ((first :: rest).map (entryText fmt))).data) ++ ['\n'] := by
      simp only [lineText, String.data_append]
    rw [hd]
    refine ⟨?_, List.getLast?_concat _⟩
    rw [List.count_append, List.count_append, h1, h2]
    rfl

/-- Counterexample to C13 as stated: with one registered counter named `"a\nb"` the text
appended by one flush cycle is `0 "a\nb" 1\n`, which contains two newline characters. -/
theorem C13_name_with_newline_gives_two_lines :
    ∃ w', Pass exampleFormat 2 0 newlineWorld = some w' ∧
      w'.file = newlineWorld.file ++ "0 \"a\nb\" 1\n" ∧
      ("0 \"a\nb\" 1\n" : String).data.count '\n' = 2 := by
  have hp : pendingWhenReached newlineWorld.heap newlineWorld.metrics_ = [0] := by
    simp [newlineWorld, pendingWhenReached, Metric.HasValue, Counter.HasValue]
  obtain ⟨q', hrun, -⟩ := Pass_spec exampleFormat 12 (by decide) 2 0 newlineWorld
    (RingInv.fresh (2 ^ 12) (by decide) (by decide)) (by rw [hp]; decide) (by decide)
    (by rw [hp]; decide)
  refine ⟨_, hrun, ?_, by decide⟩
  simp only [passSpec, hp]
  decide

/-- C13 (amended): for every flush cycle whose drained batch is non-empty and in which no
name contains a newline character (nor does the rendering of a timestamp or a value),
the text appended to the log is exactly one line: it contains exactly one newline
character and that character is its last one; so the cycle adds one to the number of
newline characters of the log. -/
theorem C13_one_line_per_cycle (fmt : Format) (k : Nat) (fuel : Nat) (w : LoggerWorld)
    (l : List MetricSnapshot) (hinv : RingInv (2 ^ k) w.queue_ l)
    (hb : w.queue_.tail_ + 2 ^ k < SIZE_MOD) (hfuel : l.length < fuel) (hne : l ≠ [])
    (hts : ∀ s ∈ l, '\n' ∉ (fmt.FormatTimestamp s.timestamp).data)
    (hnames : ∀ s ∈ l, '\n' ∉ s.name.data)
    (hvals : ∀ s ∈ l, '\n' ∉ (fmt.visit s.value).data) :
    ∃ w' text, WriteSnapshots fmt fuel w = some w' ∧ w'.file = w.file ++ text ∧
      text.data.count '\n' = 1 ∧ text.data.getLast? = some '\n' ∧
      w'.file.data.count '\n' = w.file.data.count '\n' + 1 := by
  obtain ⟨q', -, hrun, -⟩ := WriteSnapshots_spec fmt k fuel w l hinv hb hfuel
  obtain ⟨h1, h2⟩ := lineText_one_newline fmt l hne hts hnames hvals
  refine ⟨_, lineText fmt l, hrun, rfl, h1, h2, ?_⟩
  simp only [String.data_append, List.count_append, h1]

/-- Instance of C13 (amended): the cycle of `counterWorld` appends one line. -/
theorem C13_one_line_per_cycle_witness :
    ∃ w1 w2 text, CollectMetrics 1 7 counterWorld = some w1 ∧
      WriteSnapshots exampleFormat 2 w1 = some w2 ∧ w2.file = w1.file ++ text ∧
      text.data.count '\n' = 1 ∧ text.data.getLast? = some '\n' := by
  have hp : pendingWhenReached counterWorld.heap counterWorld.metrics_ = [0] := by
    simp [counterWorld, exampleWorld, exampleHeap, pendingWhenReached, Metric.HasValue,
      Counter.HasValue]
  obtain ⟨q1, hrun, hinv, hh⟩ := CollectLoop_spec 12 (by decide) 0 7 counterWorld.metrics_
    counterWorld.heap counterWorld.queue_ [] (RingInv.fresh (2 ^ 12) (by decide) (by decide))
    (by decide)
  rw [hp] at hinv hrun
  have hl : ([] : List MetricSnapshot)
      ++ (List.map (snapshotOf counterWorld.heap 7) [0]).take
          (2 ^ 12 - ([] : List MetricSnapshot).length)
      = [⟨"test_requests", MetricValue.int64_t 42, 7⟩] := by
    simp [counterWorld, exampleWorld, exampleHeap, snapshotOf, Metric.GetName,
      Counter.GetName, Metric.GetAndReset, Counter.GetAndReset]
  rw [hl] at hinv
  have htl := hinv.tail_eq
  have hh0 : q1.head_ = 0 := hh
  obtain ⟨w2, text, h2, h3, h4, h5, -⟩ := C13_one_line_per_cycle exampleFormat 12 2
    ⟨counterWorld.metrics_, q1, resetPending counterWorld.heap [0], counterWorld.file⟩
    [⟨"test_requests", MetricValue.int64_t 42, 7⟩] hinv
    (by simp only [htl, hh0, SIZE_MOD]; decide) (by decide) (by simp)
    (by simp [exampleFormat]; decide) (by simp)
    (by simp [exampleFormat, Format.visit]; decide)
  refine ⟨_, w2, text, ?_, h2, h3, h4, h5⟩
  simp only [CollectMetrics, hrun]

/-- C14: `Stop()` is idempotent on the lifecycle state. From a constructed logger the
first `Stop()` clears `running_` and joins the worker once; a `Stop()` that finds
`running_` false changes nothing, so every later `Stop()`, the one of the destructor
included, leaves the state of the first: `Stop(); Stop()` equals `Stop()`, and over any
number of calls the worker is joined at most once. -/
theorem C14_Stop_idempotent :
    (∀ s : Lifecycle, Stop (Stop s) = Stop s) ∧
    Stop Lifecycle.new = { running_ := false, joinable := false, joins := 1 } ∧
    (∀ s : Lifecycle, s.running_ = false → Stop s = s) ∧
    (∀ n : Nat, (Stop^[n + 1]) Lifecycle.new = Stop Lifecycle.new) ∧
    (∀ n : Nat, Destroy ((Stop^[n]) Lifecycle.new) = Stop Lifecycle.new) ∧
    (∀ n : Nat, ((Stop^[n]) Lifecycle.new).joins ≤ 1) := by
  have hfix : ∀ s : Lifecycle, s.running_ = false → Stop s = s := by
    intro s hs
    simp [Stop, hs]
  have hrun : ∀ s : Lifecycle, (Stop s).running_ = false := by
    intro s
    by_cases h1 : s.running_ = true <;> by_cases h2 : s.joinable = true <;>
      simp [Stop, h1, h2]
  have hidem : ∀ s : Lifecycle, Stop (Stop s) = Stop s := fun s => hfix _ (hrun s)
  have hiter : ∀ n : Nat, (Stop^[n + 1]) Lifecycle.new = Stop Lifecycle.new := by
    intro n
    induction n with
    | zero => rfl
    | succ n ih => rw [Function.iterate_succ_apply', ih, hidem]
  refine ⟨hidem, rfl, hfix, hiter, ?_, ?_⟩
  · intro n
    cases n with
    | zero => rfl
    | succ n => rw [hiter]; exact hidem _
  · intro n
    cases n with
    | zero => simp [Lifecycle.new]
    | succ n => rw [hiter]; simp [Stop, Lifecycle.new]

/-- Instance of C14: the second `Stop()` of `TestLoggerStopStart` changes nothing. -/
theorem C14_Stop_idempotent_witness :
    (Stop Lifecycle.new).running_ = false ∧ Stop (Stop Lifecycle.new) = Stop Lifecycle.new :=
  ⟨rfl, C14_Stop_idempotent.2.2.1 (Stop Lifecycle.new) rfl⟩

theorem EnqueueLoop_false {α : Type} [Inhabited α] (value : α) (q : MPMCBoundedQueue α)
    (fuel : Nat) :
    ∀ (tail_pos : Nat) (q' : MPMCBoundedQueue α),
      EnqueueLoop value q fuel tail_pos = some (false, q') → q' = q := by
  induction fuel with
  | zero => intro tail_pos q' h; simp [EnqueueLoop] at h
  | succ fuel ih =>
    intro tail_pos q' h
    unfold EnqueueLoop at h
    simp only at h
    split_ifs at h with h1 h2 h3
    · simp at h
    · exact ih _ _ h
    · simp only [Option.some.injEq, Prod.mk.injEq, true_and] at h
      exact h.symm
    · exact ih _ _ h

theorem DequeueLoop_false {α : Type} [Inhabited α] (data : α) (q : MPMCBoundedQueue α)
    (fuel : Nat) :
    ∀ (head_pos : Nat) (data' : α) (q' : MPMCBoundedQueue α),
      DequeueLoop data q fuel head_pos = some (false, data', q') → q' = q ∧ data' = data := by
  induction fuel with
  | zero => intro head_pos data' q' h; simp [DequeueLoop] at h
  | succ fuel ih =>
    intro head_pos data' q' h
    unfold DequeueLoop at h
    simp only at h
    split_ifs at h with h1 h2 h3
    · simp at h
    · exact ih _ _ _ h
    · simp only [Option.some.injEq, Prod.mk.injEq, true_and] at h
      exact ⟨h.2.symm, h.1.symm⟩
    · exact ih _ _ _ h

/-- C17: a failed queue operation leaves everything unchanged, in every queue state and
for every fuel: if `Enqueue` returns false the queue (head, tail, every slot) is as before
the call; if `Dequeue` returns false the queue is as before and the caller's output
variable keeps its value. On a queue of capacity 2 holding 2, 3 the rejected `Enqueue(4)`
does not disturb the later dequeues, 2 then 3. -/
theorem C17_failed_call_changes_nothing {α : Type} [Inhabited α] :
    (∀ (fuel : Nat) (q q' : MPMCBoundedQueue α) (value : α),
      Enqueue fuel q value = some (false, q') → q' = q) ∧
    (∀ (fuel : Nat) (q q' : MPMCBoundedQueue α) (data data' : α),
      Dequeue fuel q data = some (false, data', q') → q' = q ∧ data' = data) ∧
    (runCalls 1 (MPMCBoundedQueue.new 2) (0 : Nat)
        [.Enqueue 2, .Enqueue 3, .Enqueue 4, .Dequeue, .Dequeue]).map Prod.fst
      = some [.Enqueue true, .Enqueue true, .Enqueue false,
          .Dequeue true 2, .Dequeue true 3] :=
  ⟨fun fuel q q' value h => EnqueueLoop_false value q fuel _ q' h,
    fun fuel q q' data data' h => DequeueLoop_false data q fuel _ data' q' h,
    by decide⟩

/-- Instance of C17: the full queue of `TestQueueEnqueueDequeue` (capacity 2 holding 2, 3)
rejects `Enqueue(4)` and is unchanged. -/
theorem C17_failed_call_changes_nothing_witness :
    (runCalls 1 (MPMCBoundedQueue.new 2) (0 : Nat) [.Enqueue 2, .Enqueue 3]).map
        (fun r => r.2.1) = some fullQueue ∧
    Enqueue 1 fullQueue 4 = some (false, fullQueue) ∧ fullQueue = fullQueue :=
  ⟨by decide, by decide, C17_failed_call_changes_nothing.1 1 _ _ 4 (by decide)⟩

theorem Set_steps_eq (g : Gauge) (value : Float) (val : Option Float) :
    (Set_steps value).foldl GaugeStep.run (g, val) = (g.Set value, val) := rfl

theorem GetAndReset_steps_eq (g : Gauge) :
    GetAndReset_steps.foldl GaugeStep.run (g, none) = ((g.GetAndReset).2, some g.value_) ∧
    (g.GetAndReset).1 = MetricValue.double g.value_ :=
  ⟨rfl, rfl⟩

/-- C18: `Set(v)` is the two atomic steps store-value, set-flag and `GetAndReset` the two
atomic steps load-value, clear-flag (run in program order they are the calls). On a gauge
holding a pending value `u` there is an interleaving of one `Set(v)` with one
`GetAndReset` after which `GetAndReset` has returned `u`, the gauge stores `v` and
`HasValue()` is false: the load, then both steps of `Set`, then the clearing store. -/
theorem C18_Set_GetAndReset_race (name : String) (u v : Float) :
    (∀ (g : Gauge) (value : Float),
      (Set_steps value).foldl GaugeStep.run (g, none) = (g.Set value, none)) ∧
    (∀ g : Gauge,
      GetAndReset_steps.foldl GaugeStep.run (g, none)
        = ((g.GetAndReset).2, some g.value_)) ∧
    ∃ steps, Interleaving (Set_steps v) GetAndReset_steps steps ∧
      steps.foldl GaugeStep.run
          (({ name_ := name, value_ := u, has_value_ := true } : Gauge), none)
        = ({ name_ := name, value_ := v, has_value_ := false }, some u) ∧
      (({ name_ := name, value_ := v, has_value_ := false } : Gauge)).HasValue = false := by
  refine ⟨fun _ _ => rfl, fun _ => rfl, ?_⟩
  refine ⟨[.GetAndReset_load_value, .Set_store_value v, .Set_store_has_value,
    .GetAndReset_store_has_value], ?_, rfl, rfl⟩
  exact Interleaving.right _ (Interleaving.left _ (Interleaving.left _
    (Interleaving.right _ Interleaving.nil)))

theorem applyCall_same (w ws : LoggerWorld) (c : AppCall) (h : SameButQueue w ws) :
    SameButQueue (applyCall w c) (applyCall ws c) ∧ (applyCall w c).queue_ = w.queue_ ∧
      (applyCall w c).metrics_.length = w.metrics_.length + c.registers := by
  obtain ⟨h1, h2, h3⟩ := h
  cases c with
  | Increment a delta =>
    simp only [applyCall, ← h2, AppCall.registers]
    cases w.heap a <;> exact ⟨⟨h1, by simp [h2], h3⟩, rfl, rfl⟩
  | Set a value =>
    simp only [applyCall, ← h2, AppCall.registers]
    cases w.heap a <;> exact ⟨⟨h1, by simp [h2], h3⟩, rfl, rfl⟩
  | RegisterMetric metric =>
    exact ⟨⟨by simp [applyCall, RegisterMetric, h1], h2, h3⟩, rfl,
      by simp [applyCall, RegisterMetric, AppCall.registers]⟩

theorem applyCalls_same (calls : List AppCall) :
    ∀ (w ws : LoggerWorld), SameButQueue w ws →
      SameButQueue (calls.foldl applyCall w) (calls.foldl applyCall ws) ∧
      (calls.foldl applyCall w).queue_ = w.queue_ ∧
      (calls.foldl applyCall w).metrics_.length
        = w.metrics_.length + (calls.map AppCall.registers).sum := by
  induction calls with
  | nil => intro w ws h; exact ⟨h, rfl, rfl⟩
  | cons c cs ih =>
    intro w ws h
    obtain ⟨h1, h2, h3⟩ := applyCall_same w ws c h
    obtain ⟨h4, h5, h6⟩ := ih _ _ h1
    refine ⟨h4, by rw [List.foldl_cons, h5, h2], ?_⟩
    rw [List.foldl_cons, h6, h3, List.map_cons, List.sum_cons]
    omega

theorem pendingWhenReached_length_le (heap : Heap) (ms : List (Option Nat)) :
    (pendingWhenReached heap ms).length ≤ ms.length :=
  (pendingWhenReached_sublist ms heap).length_le.trans (List.reduceOption_length_le ms)

/-- The rounds of the worker from an empty queue of capacity 4096, with at most 4096
registered handles throughout and no cursor overflow: every pass returns, the queue is
empty after every pass, and the metrics and the file are those of `runPassesSpec`. -/
theorem runPasses_spec (fmt : Format) (fuel : Nat) (hfuel : 4096 < fuel)
    (rounds : List Round) :
    ∀ (w ws : LoggerWorld), SameButQueue w ws → RingInv (2 ^ 12) w.queue_ [] →
      w.metrics_.length + registrations rounds ≤ 4096 →
      w.queue_.tail_ + (rounds.length + 1) * 4096 < SIZE_MOD →
      ∃ w', runPasses fmt fuel rounds w = some w' ∧
        SameButQueue w' (runPassesSpec fmt rounds ws) ∧ RingInv (2 ^ 12) w'.queue_ [] ∧
        w'.queue_.tail_ ≤ w.queue_.tail_ + rounds.length * 4096 := by
  induction rounds with
  | nil =>
    intro w ws h hinv _ _
    exact ⟨w, rfl, h, hinv, by simp⟩
  | cons r rest ih =>
    intro w ws h hinv hreg hb
    have hregs : registrations (r :: rest)
        = (r.calls.map AppCall.registers).sum + registrations rest := by
      simp [registrations]
    obtain ⟨⟨h1, h2, h3⟩, hq, hlen⟩ := applyCalls_same r.calls w ws h
    have hp := pendingWhenReached_length_le (r.calls.foldl applyCall w).heap
      (r.calls.foldl applyCall w).metrics_
    have hlen' : (r :: rest).length = rest.length + 1 := rfl
    have e12 : (2 : Nat) ^ 12 = 4096 := by norm_num
    obtain ⟨q', hpass, hinv', hh', ht'⟩ := Pass_spec fmt 12 (by decide) fuel r.now
      (r.calls.foldl applyCall w) (by rw [hq]; exact hinv) (by omega)
      (by rw [hq]; omega) (by omega)
    rw [hq] at ht'
    obtain ⟨w', hrun, hsame, hinv'', htail⟩ := ih
      ⟨(r.calls.foldl applyCall w).metrics_, q',
        (passSpec fmt r.now (r.calls.foldl applyCall w).metrics_
          (r.calls.foldl applyCall w).heap (r.calls.foldl applyCall w).file).1,
        (passSpec fmt r.now (r.calls.foldl applyCall w).metrics_
          (r.calls.foldl applyCall w).heap (r.calls.foldl applyCall w).file).2⟩
      { (r.calls.foldl applyCall ws) with
        heap := (passSpec fmt r.now (r.calls.foldl applyCall ws).metrics_
          (r.calls.foldl applyCall ws).heap (r.calls.foldl applyCall ws).file).1
        file := (passSpec fmt r.now (r.calls.foldl applyCall ws).metrics_
          (r.calls.foldl applyCall ws).heap (r.calls.foldl applyCall ws).file).2 }
      ⟨h1, by simp only [h1, h2, h3], by simp only [h1, h2, h3]⟩ hinv'
      (by simp only; omega) (by simp only; omega)
    refine ⟨w', ?_, ?_, hinv'', ?_⟩
    · simp only [runPasses, hpass, hrun]
    · simpa only [runPassesSpec] using hsame
    · simp only at htail
      omega

/-- The loop of `OutputLoop` on rounds whose flag readings are true up to a first false
one: one pass per round up to and including that one; the later rounds play no part. -/
theorem WhileRunning_eq_runPasses (fmt : Format) (fuel : Nat) (pre : List Round)
    (last : Round) (post : List Round) (hpre : ∀ r ∈ pre, r.running = true)
    (hlast : last.running = false) :
    ∀ w : LoggerWorld,
      WhileRunning fmt fuel (pre ++ last :: post) w = runPasses fmt fuel (pre ++ [last]) w := by
  induction pre with
  | nil =>
    intro w
    simp only [List.nil_append, WhileRunning, hlast, runPasses]
    cases Pass fmt fuel last.now (List.foldl applyCall w last.calls) <;> simp
  | cons r rest ih =>
    intro w
    have hr : r.running = true := hpre r (List.mem_cons_self _ _)
    have ih' := ih (fun x hx => hpre x (List.mem_cons_of_mem _ hx))
    simp only [List.cons_append, WhileRunning, hr, if_true, runPasses]
    cases Pass fmt fuel r.now (List.foldl applyCall w r.calls) with
    | none => rfl
    | some w1 => exact ih' w1

theorem registrations_append (a b : List Round) :
    registrations (a ++ b) = registrations a + registrations b := by
  simp [registrations]

theorem runPasses_append (fmt : Format) (fuel : Nat) (a b : List Round) :
    ∀ w : LoggerWorld,
      runPasses fmt fuel (a ++ b) w = (runPasses fmt fuel a w).bind (runPasses fmt fuel b) := by
  induction a with
  | nil => intro w; rfl
  | cons r rest ih =>
    intro w
    simp only [List.cons_append, runPasses]
    cases Pass fmt fuel r.now (List.foldl applyCall w r.calls) with
    | none => rfl
    | some w1 => exact ih w1

theorem passSpec_no_pending (fmt : Format) (now : Nat) (ms : List (Option Nat)) (heap : Heap)
    (file : String) (h : Nat) (hreg : some h ∈ ms) :
    ((passSpec fmt now ms heap file).1 h).HasValue = false := by
  simp only [passSpec, resetPending]
  split_ifs with hm
  · exact Metric.HasValue_GetAndReset _
  · rw [pendingWhenReached_mem] at hm
    simpa [hreg] using hm

/-- One pass from an empty queue of capacity `2 ^ k` (no cursor overflow during the
pass), whatever the number of pending metrics: the pass returns, does what
`specPassUpTo (2 ^ k)` says, and leaves the queue empty. -/
theorem Pass_upTo (fmt : Format) (k : Nat) (hk : 1 ≤ k) (fuel now : Nat) (w : LoggerWorld)
    (hinv : RingInv (2 ^ k) w.queue_ [])
    (hb : w.queue_.tail_ + 2 * 2 ^ k < SIZE_MOD) (hfuel : 2 ^ k < fuel) :
    ∃ q', Pass fmt fuel now w
        = some ⟨w.metrics_, q', (specPassUpTo (2 ^ k) fmt now w.metrics_ w.heap w.file).1,
            (specPassUpTo (2 ^ k) fmt now w.metrics_ w.heap w.file).2⟩ ∧
      RingInv (2 ^ k) q' [] ∧ q'.head_ = q'.tail_ ∧
      q'.tail_ = w.queue_.tail_ + min (specPending w.heap w.metrics_).length (2 ^ k) := by
  have htl : w.queue_.tail_ = w.queue_.head_ := by simpa using hinv.tail_eq
  obtain ⟨q1, hrun, hinv1, hh1⟩ := CollectLoop_spec k hk (fuel - 1) now w.metrics_ w.heap
    w.queue_ [] hinv (by omega)
  rw [← fuel_pos_eq fuel (by omega)] at hrun
  rw [pendingWhenReached_eq_spec, resetPending_eq_spec] at hrun
  rw [pendingWhenReached_eq_spec, map_snapshotOf_eq_spec] at hinv1
  simp only [List.nil_append, List.length_nil, Nat.sub_zero, ← List.map_take] at hinv1
  have hlen : (((specPending w.heap w.metrics_).take (2 ^ k)).map
      fun h => specSnapshot now (w.heap h)).length
        = min (specPending w.heap w.metrics_).length (2 ^ k) := by
    simp [List.length_take, Nat.min_comm]
  have htl1 : q1.tail_ = q1.head_ + min (specPending w.heap w.metrics_).length (2 ^ k) := by
    rw [← hlen]
    exact hinv1.tail_eq
  obtain ⟨q', -, hw, hinv', hh', ht'⟩ := WriteSnapshots_spec fmt k fuel
    ⟨w.metrics_, q1, specReset w.heap (specPending w.heap w.metrics_), w.file⟩
    _ hinv1 (by show q1.tail_ + 2 ^ k < SIZE_MOD; omega) (by rw [hlen]; omega)
  rw [lineText_eq_spec] at hw
  refine ⟨q', ?_, hinv', by rw [hh', ht'], ?_⟩
  · simp only [Pass, CollectMetrics, hrun, hw, specPassUpTo]
  · rw [ht']
    show q1.tail_ = _
    omega

theorem specPending_length_le (heap : Heap) (ms : List (Option Nat)) :
    (specPending heap ms).length ≤ ms.length := by
  rw [← pendingWhenReached_eq_spec]
  exact pendingWhenReached_length_le heap ms

theorem specPassUpTo_eq_All (cap : Nat) (fmt : Format) (now : Nat) (ms : List (Option Nat))
    (heap : Heap) (file : String) (h : (specPending heap ms).length ≤ cap) :
    specPassUpTo cap fmt now ms heap file = specPassAll fmt now ms heap file := by
  simp only [specPassUpTo, specPassAll, List.take_of_length_le h]

/-- The rounds of the worker from an empty queue of capacity 4096 with no cursor
overflow, whatever the size of the registry: every pass returns, the queue is empty after
every pass, and the metrics and the file are those of `specRoundsUpTo 4096`. -/
theorem runPasses_upTo (fmt : Format) (fuel : Nat) (hfuel : 4096 < fuel)
    (rounds : List Round) :
    ∀ (w ws : LoggerWorld), SameButQueue w ws → RingInv (2 ^ 12) w.queue_ [] →
      w.queue_.tail_ + (rounds.length + 1) * 4096 < SIZE_MOD →
      ∃ w', runPasses fmt fuel rounds w = some w' ∧
        SameButQueue w' (specRoundsUpTo 4096 fmt rounds ws) ∧ RingInv (2 ^ 12) w'.queue_ [] ∧
        w'.queue_.tail_ ≤ w.queue_.tail_ + rounds.length * 4096 := by
  induction rounds with
  | nil =>
    intro w ws h hinv _
    exact ⟨w, rfl, h, hinv, by simp⟩
  | cons r rest ih =>
    intro w ws h hinv hb
    obtain ⟨⟨h1, h2, h3⟩, hq, -⟩ := applyCalls_same r.calls w ws h
    have hlen' : (r :: rest).length = rest.length + 1 := rfl
    have e12 : (2 : Nat) ^ 12 = 4096 := by norm_num
    obtain ⟨q', hpass, hinv', hh', ht'⟩ := Pass_upTo fmt 12 (by decide) fuel r.now
      (r.calls.foldl applyCall w) (by rw [hq]; exact hinv)
      (by rw [hq]; omega) (by omega)
    rw [hq] at ht'
    rw [e12] at hpass
    obtain ⟨w', hrun, hsame, hinv'', htail⟩ := ih
      ⟨(r.calls.foldl applyCall w).metrics_, q',
        (specPassUpTo 4096 fmt r.now (r.calls.foldl applyCall w).metrics_
          (r.calls.foldl applyCall w).heap (r.calls.foldl applyCall w).file).1,
        (specPassUpTo 4096 fmt r.now (r.calls.foldl applyCall w).metrics_
          (r.calls.foldl applyCall w).heap (r.calls.foldl applyCall w).file).2⟩
      { (r.calls.foldl applyCall ws) with
        heap := (specPassUpTo 4096 fmt r.now (r.calls.foldl applyCall ws).metrics_
          (r.calls.foldl applyCall ws).heap (r.calls.foldl applyCall ws).file).1
        file := (specPassUpTo 4096 fmt r.now (r.calls.foldl applyCall ws).metrics_
          (r.calls.foldl applyCall ws).heap (r.calls.foldl applyCall ws).file).2 }
      ⟨h1, by simp only [h1, h2, h3], by simp only [h1, h2, h3]⟩ hinv'
      (by simp only; omega)
    refine ⟨w', ?_, ?_, hinv'', ?_⟩
    · simp only [runPasses, hpass, hrun]
    · simpa only [specRoundsUpTo] using hsame
    · simp only at htail
      omega

/-- With at most `cap` registered handles throughout the rounds, `specRoundsUpTo cap`
drops nothing: it is `specRoundsAll`. -/
theorem specRoundsUpTo_eq_All (cap : Nat) (fmt : Format) (rounds : List Round) :
    ∀ ws : LoggerWorld, ws.metrics_.length + registrations rounds ≤ cap →
      specRoundsUpTo cap fmt rounds ws = specRoundsAll fmt rounds ws := by
  induction rounds with
  | nil => intro ws _; rfl
  | cons r rest ih =>
    intro ws hreg
    have hregs : registrations (r :: rest)
        = (r.calls.map AppCall.registers).sum + registrations rest := by
      simp [registrations]
    obtain ⟨-, -, hlen⟩ := applyCalls_same r.calls ws ws ⟨rfl, rfl, rfl⟩
    have hp := specPending_length_le (r.calls.foldl applyCall ws).heap
      (r.calls.foldl applyCall ws).metrics_
    simp only [specRoundsUpTo, specRoundsAll]
    rw [specPassUpTo_eq_All cap fmt r.now _ _ _ (by omega)]
    exact ih _ (by simp only; omega)

/-- C19: in the worker every pass is `CollectMetrics` followed by `WriteSnapshots` on the
queue of capacity 4096 that only the worker touches. From the constructed logger, for
every sequence of rounds and every size of the registry (no cursor overflow): every pass
returns and leaves the queue empty, so the queue is empty at the start of every collect
pass; each pass resets every metric with pending data and writes the line of the first
4096 of them, in registration order. When at most 4096 handles are registered no snapshot
is ever dropped: each pass writes exactly the metrics that had pending data at
collection, in registration order. For a single pass from an empty queue (which it
leaves empty again, so passes chain): the line holds all pending metrics whenever at most
4096 are pending, so a snapshot is dropped only if more than 4096 metrics are pending in
that same pass; with more than 4096 pending exactly the first 4096 are written. The
passes of `OutputLoop` with the sink open are these rounds, up to and including the first
one that reads the flag false. Pending data, reset, snapshot and entry text are specified
by the members of the metric objects, and are what `HasValue()`, `GetAndReset()`,
`GetName()` and the write loop give. -/
theorem C19_queue_empty_at_every_pass (fmt : Format) (fuel : Nat) (hfuel : 4096 < fuel)
    (heap : Heap) (file : String) (rounds : List Round)
    (hb : (rounds.length + 1) * 4096 < 2 ^ 64) :
    (∃ w', runPasses fmt fuel rounds (LoggerWorld.new heap file) = some w' ∧
      Empty w'.queue_ = true ∧ RingInv 4096 w'.queue_ [] ∧
      SameButQueue w' (specRoundsUpTo 4096 fmt rounds (LoggerWorld.new heap file)) ∧
      (registrations rounds ≤ 4096 →
        SameButQueue w' (specRoundsAll fmt rounds (LoggerWorld.new heap file)))) ∧
    (∀ (pre : List Round) (r : Round) (post : List Round), rounds = pre ++ r :: post →
      ∃ w1, runPasses fmt fuel pre (LoggerWorld.new heap file) = some w1 ∧
        Empty w1.queue_ = true ∧
        Empty (r.calls.foldl applyCall w1).queue_ = true ∧
        RingInv 4096 (r.calls.foldl applyCall w1).queue_ [] ∧
        runPasses fmt fuel rounds (LoggerWorld.new heap file)
          = (Pass fmt fuel r.now (r.calls.foldl applyCall w1)).bind
              (runPasses fmt fuel post)) ∧
    (∀ (w : LoggerWorld) (now : Nat), RingInv 4096 w.queue_ [] →
      w.queue_.tail_ + 2 * 4096 < 2 ^ 64 →
      ∃ w', Pass fmt fuel now w = some w' ∧
        Empty w'.queue_ = true ∧ RingInv 4096 w'.queue_ [] ∧
        w'.queue_.tail_
          = w.queue_.tail_ + min (specPending w.heap w.metrics_).length 4096 ∧
        w'.metrics_ = w.metrics_ ∧
        w'.heap = specReset w.heap (specPending w.heap w.metrics_) ∧
        w'.file = w.file ++ specLine fmt
          (((specPending w.heap w.metrics_).take 4096).map
            fun h => specSnapshot now (w.heap h)) ∧
        ((specPending w.heap w.metrics_).length ≤ 4096 →
          w'.file = w.file ++ specLine fmt
            ((specPending w.heap w.metrics_).map fun h => specSnapshot now (w.heap h))) ∧
        (w.metrics_.length ≤ 4096 → (specPending w.heap w.metrics_).length ≤ 4096)) ∧
    (∀ (pre : List Round) (last : Round) (post : List Round) (w : LoggerWorld),
      (∀ r ∈ pre, r.running = true) → last.running = false →
      OutputLoop fmt fuel true (pre ++ last :: post) w
        = runPasses fmt fuel (pre ++ [last]) w) ∧
    (∀ (m : Metric) (now : Nat) (text : String), m.HasValue = specHasPending m ∧
      (m.GetAndReset).2 = specAfterReset m ∧
      ({ name := m.GetName, value := (m.GetAndReset).1, timestamp := now } : MetricSnapshot)
        = specSnapshot now m ∧
      WriteLoop fmt [specSnapshot now m] text = text ++ specEntry fmt (specSnapshot now m)) := by
  have e12 : (2 : Nat) ^ 12 = 4096 := by norm_num
  refine ⟨?_, ?_, ?_, ?_, ?_⟩
  · obtain ⟨w', hrun, hsame, hinv, -⟩ := runPasses_upTo fmt fuel hfuel rounds
      (LoggerWorld.new heap file) (LoggerWorld.new heap file) ⟨rfl, rfl, rfl⟩
      (RingInv.fresh (2 ^ 12) (by decide) (by decide))
      (by simpa [LoggerWorld.new, MPMCBoundedQueue.new, SIZE_MOD] using hb)
    have htl : w'.queue_.tail_ = w'.queue_.head_ := by simpa using hinv.tail_eq
    refine ⟨w', hrun, by simp [Empty, htl], by rw [← e12]; exact hinv, hsame, ?_⟩
    intro hreg
    rw [← specRoundsUpTo_eq_All 4096 fmt rounds (LoggerWorld.new heap file)
      (by simpa [LoggerWorld.new] using hreg)]
    exact hsame
  · intro pre r post hrounds
    have hlen : rounds.length = pre.length + (post.length + 1) := by
      rw [hrounds, List.length_append, List.length_cons]
    obtain ⟨w1, hrun, -, hinv, -⟩ := runPasses_upTo fmt fuel hfuel pre
      (LoggerWorld.new heap file) (LoggerWorld.new heap file) ⟨rfl, rfl, rfl⟩
      (RingInv.fresh (2 ^ 12) (by decide) (by decide))
      (by
        simp only [LoggerWorld.new, MPMCBoundedQueue.new, SIZE_MOD]
        have : (pre.length + 1) * 4096 ≤ (rounds.length + 1) * 4096 :=
          Nat.mul_le_mul_right _ (by omega)
        omega)
    obtain ⟨-, hq, -⟩ := applyCalls_same r.calls w1 w1 ⟨rfl, rfl, rfl⟩
    have htl : w1.queue_.tail_ = w1.queue_.head_ := by simpa using hinv.tail_eq
    refine ⟨w1, hrun, by simp [Empty, htl], by rw [hq]; simp [Empty, htl],
      by rw [hq, ← e12]; exact hinv, ?_⟩
    rw [hrounds, runPasses_append, hrun]
    simp only [Option.bind, runPasses]
    cases Pass fmt fuel r.now (List.foldl applyCall w1 r.calls) <;> rfl
  · intro w now hinv hbw
    rw [← e12] at hinv
    obtain ⟨q', hpass, hinv', hh', ht'⟩ := Pass_upTo fmt 12 (by decide) fuel now w hinv
      (by simp only [SIZE_MOD]; omega) (by omega)
    rw [e12] at hpass ht' hinv'
    refine ⟨_, hpass, by simp [Empty, hh'], hinv', ht', rfl, rfl, rfl, ?_, ?_⟩
    · intro hle
      show w.file ++ _ = _
      rw [List.take_of_length_le hle]
    · intro hle
      exact (specPending_length_le w.heap w.metrics_).trans hle
  · intro pre last post w hpre hlast
    simp only [OutputLoop, Bool.not_true, Bool.false_eq_true, if_false]
    exact WhileRunning_eq_runPasses fmt fuel pre last post hpre hlast w
  · intro m now text
    cases m with
    | counter c =>
      refine ⟨?_, rfl, rfl, ?_⟩
      · by_cases h : c.value_ = 0 <;>
          simp [Metric.HasValue, Counter.HasValue, specHasPending, h]
      · simp only [WriteLoop, specEntry, specSnapshot, Format.visit, String.append_assoc]
    | gauge g =>
      refine ⟨rfl, rfl, rfl, ?_⟩
      simp only [WriteLoop, specEntry, specSnapshot, Format.visit, String.append_assoc]

/-- The text that `specRoundsAll` gives for the rounds of `TestLoggerBasic`: one line per
pass with pending data, the counter rendered as an integer and the gauge as a double. -/
theorem exampleRounds_specRoundsAll_file :
    (specRoundsAll exampleFormat exampleRounds (LoggerWorld.new exampleHeap "")).file
      = "100 \"test_requests\" 84 \"test_cpu\" " ++ exampleFormat.put_double 0.85 ++ "\n"
        ++ "200 \"test_requests\" 10 \"test_cpu\" " ++ exampleFormat.put_double 0.92
        ++ "\n" := by
  have e100 : exampleFormat.FormatTimestamp 100 = "100" := by decide
  have e200 : exampleFormat.FormatTimestamp 200 = "200" := by decide
  have e84 : exampleFormat.put_int64_t 84 = "84" := by decide
  have e10 : exampleFormat.put_int64_t 10 = "10" := by decide
  simp [exampleRounds, examplePre, exampleLast, specRoundsAll, specPassAll, applyCall,
    RegisterMetric, LoggerWorld.new, exampleHeap, Counter.Increment, Gauge.Set, wrap64,
    specPending, specHasPending, specAfterReset, specReset, specSnapshot, specLine, specEntry,
    Function.update, join_cons_eq, e100, e200, e84, e10]
  apply String.ext
  simp only [String.data_append, List.append_assoc, String.join]
  rfl

/-- Instance of C19 on the rounds of `TestLoggerBasic` (the counter at 42 and the gauge at
0.85 to begin with): the three passes return, the queue is empty after them, and the file
holds the line of the first pass (counter 84, gauge 0.85) and that of the second (counter
10, gauge 0.92); the third pass finds nothing pending and writes nothing. -/
theorem C19_queue_empty_at_every_pass_witness :
    ∃ w', runPasses exampleFormat 4097 exampleRounds (LoggerWorld.new exampleHeap "") = some w' ∧
      Empty w'.queue_ = true ∧ RingInv 4096 w'.queue_ [] ∧
      w'.file
        = "100 \"test_requests\" 84 \"test_cpu\" " ++ exampleFormat.put_double 0.85 ++ "\n"
          ++ "200 \"test_requests\" 10 \"test_cpu\" " ++ exampleFormat.put_double 0.92
          ++ "\n" := by
  obtain ⟨w', h1, h2, h3, -, h5⟩ :=
    (C19_queue_empty_at_every_pass exampleFormat 4097 (by decide) exampleHeap "" exampleRounds
      (by decide)).1
  refine ⟨w', h1, h2, h3, ?_⟩
  rw [(h5 (by decide)).2.2]
  exact exampleRounds_specRoundsAll_file

theorem runPassesSpec_metrics_length (fmt : Format) (rounds : List Round) :
    ∀ ws : LoggerWorld,
      (runPassesSpec fmt rounds ws).metrics_.length
        = ws.metrics_.length + registrations rounds := by
  induction rounds with
  | nil => intro ws; simp [runPassesSpec, registrations]
  | cons r rest ih =>
    intro ws
    obtain ⟨-, -, hlen⟩ := applyCalls_same r.calls ws ws ⟨rfl, rfl, rfl⟩
    simp only [runPassesSpec]
    rw [ih]
    simp only [hlen, registrations, List.map_cons, List.sum_cons]
    omega

theorem OutputLoop_single (fmt : Format) (fuel : Nat) (r : Round) (hr : r.running = false)
    (w : LoggerWorld) :
    OutputLoop fmt fuel true [r] w = Pass fmt fuel r.now (r.calls.foldl applyCall w) := by
  simp [OutputLoop, WhileRunning, hr]

/-- Counterexample to C15 as stated: a registered counter is incremented by 5 and then by
-5, both calls complete before the worker reads `running_` false; the worker makes its
final pass and exits, and nothing has been written: the file is still empty and the
counter has no pending data. -/
theorem C15_cancelled_updates_are_not_written :
    ∃ w', OutputLoop exampleFormat 4097 true [cancellingRound]
        (LoggerWorld.new (fun _ => .counter (Counter.new "stop_test_counter")) "") = some w' ∧
      w'.metrics_ = [some 0] ∧ w'.file = "" ∧ (w'.heap 0).HasValue = false := by
  have hw : cancellingRound.calls.foldl applyCall
      (LoggerWorld.new (fun _ => .counter (Counter.new "stop_test_counter")) "")
      = ⟨[some 0], MPMCBoundedQueue.new 4096,
          Function.update (Function.update
            (fun _ => Metric.counter (Counter.new "stop_test_counter")) 0
            (.counter ⟨"stop_test_counter", 5⟩)) 0 (.counter ⟨"stop_test_counter", 0⟩), ""⟩ := by
    simp [cancellingRound, applyCall, RegisterMetric, LoggerWorld.new, Counter.new,
      Counter.Increment, wrap64]
  have hp : ∀ heap : Heap, heap 0 = .counter ⟨"stop_test_counter", 0⟩ →
      pendingWhenReached heap [some 0] = [] := by
    intro heap h0
    simp [pendingWhenReached, h0, Metric.HasValue, Counter.HasValue]
  obtain ⟨q', hpass, -⟩ := Pass_spec exampleFormat 12 (by decide) 4097 0
    (cancellingRound.calls.foldl applyCall
      (LoggerWorld.new (fun _ => .counter (Counter.new "stop_test_counter")) ""))
    (by rw [hw]; exact RingInv.fresh (2 ^ 12) (by decide) (by decide))
    (by rw [hw]; rw [hp _ (by simp)]; decide)
    (by rw [hw]; decide)
    (by rw [hw]; rw [hp _ (by simp)]; decide)
  have hout : OutputLoop exampleFormat 4097 true [cancellingRound]
      (LoggerWorld.new (fun _ => .counter (Counter.new "stop_test_counter")) "")
      = Pass exampleFormat 4097 0 (cancellingRound.calls.foldl applyCall
          (LoggerWorld.new (fun _ => .counter (Counter.new "stop_test_counter")) "")) :=
    OutputLoop_single exampleFormat 4097 cancellingRound rfl _
  rw [hout, hpass, hw]
  simp only [passSpec]
  rw [hp _ (by simp)]
  exact ⟨_, rfl, rfl, rfl, by simp [resetPending, Metric.HasValue, Counter.HasValue]⟩

/-- C15 (amended): with the sink open and flag readings that are true up to a first false
one, the worker runs one pass for each true reading and exactly one more after the first
false reading, then exits; what happens in later rounds plays no part in its result, so
an update made after the worker has exited never appears in the output. With calls of
the application threads atomic with respect to passes, at most 4096 registrations and no
cursor overflow, the passes all return, and the final pass writes the line of all data
pending when it starts (in particular what the updates of the last round, made before
the flag was read false, left pending); after it no registered metric has pending data.
Updates that leave no pending data are not written. -/
theorem C15_final_pass_after_flag_cleared (fmt : Format) (fuel : Nat) (hfuel : 4096 < fuel)
    (heap : Heap) (file : String) (pre : List Round) (last : Round) (post : List Round)
    (hpre : ∀ r ∈ pre, r.running = true) (hlast : last.running = false)
    (hreg : registrations (pre ++ [last]) ≤ 4096)
    (hb : (pre.length + 2) * 4096 < 2 ^ 64) :
    OutputLoop fmt fuel true (pre ++ last :: post) (LoggerWorld.new heap file)
      = runPasses fmt fuel (pre ++ [last]) (LoggerWorld.new heap file) ∧
    (∀ post' : List Round,
      OutputLoop fmt fuel true (pre ++ last :: post') (LoggerWorld.new heap file)
        = OutputLoop fmt fuel true (pre ++ last :: post) (LoggerWorld.new heap file)) ∧
    ∃ w1 w', runPasses fmt fuel pre (LoggerWorld.new heap file) = some w1 ∧
      Pass fmt fuel last.now (last.calls.foldl applyCall w1) = some w' ∧
      OutputLoop fmt fuel true (pre ++ last :: post) (LoggerWorld.new heap file) = some w' ∧
      w'.file = (last.calls.foldl applyCall w1).file
        ++ lineText fmt
          ((pendingWhenReached (last.calls.foldl applyCall w1).heap
              (last.calls.foldl applyCall w1).metrics_).map
            (snapshotOf (last.calls.foldl applyCall w1).heap last.now)) ∧
      (∀ h, some h ∈ w'.metrics_ → (w'.heap h).HasValue = false) := by
  have hloop : ∀ post' : List Round,
      OutputLoop fmt fuel true (pre ++ last :: post') (LoggerWorld.new heap file)
        = runPasses fmt fuel (pre ++ [last]) (LoggerWorld.new heap file) := by
    intro post'
    simp only [OutputLoop, Bool.not_true, Bool.false_eq_true, if_false]
    exact WhileRunning_eq_runPasses fmt fuel pre last post' hpre hlast _
  refine ⟨hloop post, fun post' => (hloop post').trans (hloop post).symm, ?_⟩
  rw [registrations_append] at hreg
  obtain ⟨w1, hrun1, hsame1, hinv1, htail1⟩ := runPasses_spec fmt fuel hfuel pre
    (LoggerWorld.new heap file) (LoggerWorld.new heap file) ⟨rfl, rfl, rfl⟩
    (RingInv.fresh (2 ^ 12) (by decide) (by decide))
    (by simp only [LoggerWorld.new, List.length_nil]; omega)
    (by simp only [LoggerWorld.new, MPMCBoundedQueue.new, SIZE_MOD]; omega)
  have hlen1 : w1.metrics_.length = registrations pre := by
    rw [hsame1.1, runPassesSpec_metrics_length]
    simp [LoggerWorld.new]
  obtain ⟨-, hq, hlen⟩ := applyCalls_same last.calls w1 w1 ⟨rfl, rfl, rfl⟩
  have hregl : registrations [last] = (last.calls.map AppCall.registers).sum := by
    simp [registrations]
  have hp := pendingWhenReached_length_le (last.calls.foldl applyCall w1).heap
    (last.calls.foldl applyCall w1).metrics_
  have e12 : (2 : Nat) ^ 12 = 4096 := by norm_num
  simp only [LoggerWorld.new, MPMCBoundedQueue.new] at htail1
  obtain ⟨q', hpass, -⟩ := Pass_spec fmt 12 (by decide) fuel last.now
    (last.calls.foldl applyCall w1) (by rw [hq]; exact hinv1) (by omega)
    (by rw [hq]; simp only [SIZE_MOD]; omega) (by omega)
  refine ⟨w1, _, hrun1, hpass, ?_, rfl, ?_⟩
  · rw [hloop post, runPasses_append, hrun1]
    simp only [Option.bind, runPasses, hpass]
  · intro h hh
    exact passSpec_no_pending fmt last.now (last.calls.foldl applyCall w1).metrics_
      (last.calls.foldl applyCall w1).heap (last.calls.foldl applyCall w1).file h hh

/-- Instance of C15 (amended) on the rounds of `TestLoggerBasic`: the worker exits after
its third pass and no registered metric has pending data. -/
theorem C15_final_pass_after_flag_cleared_witness :
    ∃ w', OutputLoop exampleFormat 4097 true (examplePre ++ exampleLast :: [])
        (LoggerWorld.new exampleHeap "") = some w' ∧
      (∀ h, some h ∈ w'.metrics_ → (w'.heap h).HasValue = false) := by
  obtain ⟨-, -, w1, w', -, -, h1, -, h2⟩ := C15_final_pass_after_flag_cleared exampleFormat
    4097 (by decide) exampleHeap "" examplePre exampleLast []
    (by
      intro r hr
      simp only [examplePre, List.mem_cons, List.mem_singleton, List.not_mem_nil, or_false] at hr
      rcases hr with rfl | rfl <;> rfl)
    rfl (by decide) (by decide)
  exact ⟨w', h1, h2⟩

/-! ## Theorems: cursor wraparound -/

theorem runCalls_append {α : Type} [Inhabited α] (fuel : Nat) (xs ys : List (Call α)) :
    ∀ (q : MPMCBoundedQueue α) (val : α) (rs : List (Reply α)) (q' : MPMCBoundedQueue α)
      (val' : α), runCalls fuel q val xs = some (rs, q', val') →
      runCalls fuel q val (xs ++ ys)
        = (runCalls fuel q' val' ys).map fun r => (rs ++ r.1, r.2) := by
  induction xs with
  | nil =>
    intro q val rs q' val' h
    simp only [runCalls, Option.some.injEq, Prod.mk.injEq] at h
    obtain ⟨rfl, rfl, rfl⟩ := h
    cases hr : runCalls fuel q val ys with
    | none => simp [hr]
    | some r => simp [hr]
  | cons c cs ih =>
    intro q val rs q' val' h
    simp only [runCalls] at h
    cases hc : doCall fuel q val c with
    | none => simp [hc] at h
    | some r1 =>
      obtain ⟨r, q1, v1⟩ := r1
      simp only [hc] at h
      cases hcs : runCalls fuel q1 v1 cs with
      | none => simp [hcs] at h
      | some r2 =>
        obtain ⟨rs2, q2, v2⟩ := r2
        simp only [hcs, Option.some.injEq, Prod.mk.injEq] at h
        obtain ⟨rfl, rfl, rfl⟩ := h
        have e := ih q1 v1 rs2 q2 v2 hcs
        simp only [List.cons_append, runCalls, hc, List.append_eq, e]
        cases runCalls fuel q2 v2 ys with
        | none => rfl
        | some r3 => rfl

theorem afterPairs_step (n a b val : Nat) (hn : n + 1 < SIZE_MOD) :
    ∃ a' b', runCalls 1 (afterPairs n a b) val [.Enqueue 7, .Dequeue]
      = some ([.Enqueue true, .Dequeue true 7], afterPairs (n + 1) a' b', 7) := by
  have hidx : n &&& 1 = n % 2 := Nat.and_one_is_mod n
  have hw : (n + 1) % SIZE_MOD = n + 1 := Nat.mod_eq_of_lt hn
  rcases Nat.mod_two_eq_zero_or_one n with h0 | h1
  · have h2 : (n + 1) % 2 = 1 := by omega
    refine ⟨7, b, ?_⟩
    simp [runCalls, doCall, Enqueue, EnqueueImpl, EnqueueLoop, Dequeue, DequeueLoop,
      afterPairs, MPMCBoundedQueue.slot, hidx, h0, h2, hw]
  · have h2 : (n + 1) % 2 = 0 := by omega
    refine ⟨a, 7, ?_⟩
    simp [runCalls, doCall, Enqueue, EnqueueImpl, EnqueueLoop, Dequeue, DequeueLoop,
      afterPairs, MPMCBoundedQueue.slot, hidx, h1, h2, hw]

/-- The queue of capacity 2 after `m` more `Enqueue`/`Dequeue` pairs, while the cursors
stay below `2 ^ 64`: all calls succeed. -/
theorem afterPairs_reach (m : Nat) :
    ∀ (n a b val : Nat), n + m < SIZE_MOD →
      ∃ a' b' rs v, runCalls 1 (afterPairs n a b) val (enqueueDequeuePairs m)
          = some (rs, afterPairs (n + m) a' b', v) ∧
        countEnqueued rs = m ∧ countDequeued rs = m := by
  induction m with
  | zero =>
    intro n a b val _
    exact ⟨a, b, [], val, rfl, rfl, rfl⟩
  | succ m ih =>
    intro n a b val hn
    obtain ⟨a1, b1, h1⟩ := afterPairs_step n a b val (by omega)
    obtain ⟨a2, b2, rs, v, h2, h3, h4⟩ := ih (n + 1) a1 b1 7 (by omega)
    have happ := runCalls_append 1 [.Enqueue 7, .Dequeue] (enqueueDequeuePairs m) _ _ _ _ _ h1
    refine ⟨a2, b2, [.Enqueue true, .Dequeue true 7] ++ rs, v, ?_, ?_, ?_⟩
    · have e : n + (m + 1) = n + 1 + m := by omega
      rw [e]
      simpa [enqueueDequeuePairs, h2] using happ
    · simp [countEnqueued, h3]
      omega
    · simp [countDequeued, h4]
      omega

theorem new_two_eq_afterPairs :
    (MPMCBoundedQueue.new 2 : MPMCBoundedQueue Nat) = afterPairs 0 0 0 := by
  decide

theorem afterPairs_last (a b : Nat) : afterPairs (2 ^ 64 - 1) a b = wrappedEmptyQueue a b := by
  simp [afterPairs, wrappedEmptyQueue, SIZE_MOD]

/-- A `Dequeue` loop whose slot has a generation that is neither equal to nor below
`head_ + 1` (as a `size_t`) reloads the same head for ever. -/
theorem DequeueLoop_spins {α : Type} [Inhabited α] (data : α) (q : MPMCBoundedQueue α)
    (h1 : (q.slot (q.head_ &&& q.mask_)).gen ≠ (q.head_ + 1) % SIZE_MOD)
    (h2 : ¬ (q.slot (q.head_ &&& q.mask_)).gen < (q.head_ + 1) % SIZE_MOD) (fuel : Nat) :
    DequeueLoop data q fuel q.head_ = none := by
  induction fuel with
  | zero => rfl
  | succ fuel ih =>
    unfold DequeueLoop
    simp only [h1, h2, if_false]
    exact ih

/-- An `Enqueue` loop whose slot has a generation that is neither equal to nor below
`tail_` reloads the same tail for ever. -/
theorem EnqueueLoop_spins {α : Type} [Inhabited α] (value : α) (q : MPMCBoundedQueue α)
    (h1 : (q.slot (q.tail_ &&& q.mask_)).gen ≠ q.tail_)
    (h2 : ¬ (q.slot (q.tail_ &&& q.mask_)).gen < q.tail_) (fuel : Nat) :
    EnqueueLoop value q fuel q.tail_ = none := by
  induction fuel with
  | zero => rfl
  | succ fuel ih =>
    unfold EnqueueLoop
    simp only [h1, h2, if_false]
    exact ih

theorem afterPairs_two_enqueues (n a b val : Nat) (h0 : n % 2 = 0) (h1 : n + 1 < SIZE_MOD)
    (h2 : (n + 1 + 1) % SIZE_MOD = 0) :
    runCalls 1 (afterPairs n a b) val [.Enqueue 7, .Enqueue 8]
      = some ([.Enqueue true, .Enqueue true],
          ⟨1, n, 0, [{ val := 7, gen := n + 1 }, { val := 8, gen := 0 }]⟩, val) := by
  have hidx : n &&& 1 = n % 2 := Nat.and_one_is_mod n
  have hidx1 : (n + 1) &&& 1 = (n + 1) % 2 := Nat.and_one_is_mod (n + 1)
  have h3 : (n + 1) % 2 = 1 := by omega
  have hw : (n + 1) % SIZE_MOD = n + 1 := Nat.mod_eq_of_lt h1
  simp [runCalls, doCall, Enqueue, EnqueueImpl, EnqueueLoop, afterPairs,
    MPMCBoundedQueue.slot, hidx, hidx1, h0, h3, hw, h2]

theorem wrappedFullQueue_eq :
    (⟨1, 2 ^ 64 - 2, 0, [{ val := 7, gen := 2 ^ 64 - 2 + 1 }, { val := 8, gen := 0 }]⟩ :
      MPMCBoundedQueue Nat) = wrappedFullQueue := by
  simp [wrappedFullQueue]

theorem wrappedFullQueue_dequeues :
    (runCalls 1 wrappedFullQueue 0 [.Dequeue, .Dequeue]).map Prod.fst
      = some [.Dequeue true 7, .Dequeue true 8] := by
  simp [runCalls, doCall, Dequeue, DequeueLoop, wrappedFullQueue, MPMCBoundedQueue.slot,
    SIZE_MOD]

theorem countEnqueued_append_two {α : Type} (rs : List (Reply α)) :
    countEnqueued (rs ++ [Reply.Enqueue true, Reply.Enqueue true]) = countEnqueued rs + 2 := by
  induction rs with
  | nil => rfl
  | cons r rs ih =>
    rw [List.cons_append, countEnqueued_cons, ih, countEnqueued_cons r rs]
    omega

theorem countDequeued_append_two {α : Type} (rs : List (Reply α)) :
    countDequeued (rs ++ [Reply.Enqueue true, Reply.Enqueue true]) = countDequeued rs := by
  induction rs with
  | nil => rfl
  | cons r rs ih =>
    rw [List.cons_append, countDequeued_cons, ih, countDequeued_cons r rs]

theorem wrappedEmptyQueue_reached :
    ∃ a b rs v,
      runCalls 1 (MPMCBoundedQueue.new 2) 0 (enqueueDequeuePairs (2 ^ 64 - 1))
        = some (rs, wrappedEmptyQueue a b, v) ∧
      countEnqueued rs = countDequeued rs := by
  obtain ⟨a, b, rs, v, h1, h2, h3⟩ := afterPairs_reach (2 ^ 64 - 1) 0 0 0 0 (by decide)
  rw [Nat.zero_add, afterPairs_last, ← new_two_eq_afterPairs] at h1
  exact ⟨a, b, rs, v, h1, by rw [h2, h3]⟩

theorem wrappedFullQueue_reached :
    ∃ rs v,
      runCalls 1 (MPMCBoundedQueue.new 2) 0
          (enqueueDequeuePairs (2 ^ 64 - 2) ++ [.Enqueue 7, .Enqueue 8])
        = some (rs, wrappedFullQueue, v) ∧
      countEnqueued rs = countDequeued rs + 2 := by
  obtain ⟨a, b, rs, v, h1, h2, h3⟩ := afterPairs_reach (2 ^ 64 - 2) 0 0 0 0 (by decide)
  rw [Nat.zero_add, ← new_two_eq_afterPairs] at h1
  have h4 := runCalls_append 1 (enqueueDequeuePairs (2 ^ 64 - 2)) [.Enqueue 7, .Enqueue 8]
    _ _ _ _ _ h1
  rw [afterPairs_two_enqueues (2 ^ 64 - 2) a b v (by decide) (by decide) (by decide),
    wrappedFullQueue_eq, Option.map_some'] at h4
  exact ⟨rs ++ [Reply.Enqueue true, Reply.Enqueue true], v, h4,
    by rw [countEnqueued_append_two, countDequeued_append_two, h2, h3]⟩

/-- C20 (as the code behaves at wraparound, capacity 2): after `2 ^ 64 - 1` successful
`Enqueue`/`Dequeue` pairs on a fresh queue the buffer is empty with both cursors at
`2 ^ 64 - 1`, and `Dequeue` never returns (the empty test `generation < head_pos + 1`
compares with the wrapped value 0); after `2 ^ 64 - 2` pairs and two more `Enqueue`
calls the buffer is full with the tail wrapped to 0, and `Enqueue` never returns (the
full test `generation < tail_pos` compares with 0), while the two elements can still be
dequeued in order. The claim says both calls terminate returning false. -/
theorem C20_wraparound_calls_never_return :
    (∃ a b rs v,
      runCalls 1 (MPMCBoundedQueue.new 2) 0 (enqueueDequeuePairs (2 ^ 64 - 1))
        = some (rs, wrappedEmptyQueue a b, v) ∧
      countEnqueued rs = countDequeued rs ∧ Empty (wrappedEmptyQueue a b) = true ∧
      ∀ fuel data : Nat, Dequeue fuel (wrappedEmptyQueue a b) data = none) ∧
    (∃ rs v,
      runCalls 1 (MPMCBoundedQueue.new 2) 0
          (enqueueDequeuePairs (2 ^ 64 - 2) ++ [.Enqueue 7, .Enqueue 8])
        = some (rs, wrappedFullQueue, v) ∧
      countEnqueued rs = countDequeued rs + 2 ∧
      (∀ fuel value : Nat, Enqueue fuel wrappedFullQueue value = none) ∧
      (runCalls 1 wrappedFullQueue 0 [.Dequeue, .Dequeue]).map Prod.fst
        = some [.Dequeue true 7, .Dequeue true 8]) := by
  constructor
  · obtain ⟨a, b, rs, v, h1, h2⟩ := wrappedEmptyQueue_reached
    refine ⟨a, b, rs, v, h1, h2, by simp [Empty, wrappedEmptyQueue], ?_⟩
    intro fuel data
    exact DequeueLoop_spins data (wrappedEmptyQueue a b)
      (by simp [wrappedEmptyQueue, MPMCBoundedQueue.slot, SIZE_MOD])
      (by simp [wrappedEmptyQueue, MPMCBoundedQueue.slot, SIZE_MOD]) fuel
  · obtain ⟨rs, v, h1, h2⟩ := wrappedFullQueue_reached
    refine ⟨rs, v, h1, h2, ?_, wrappedFullQueue_dequeues⟩
    intro fuel value
    exact EnqueueLoop_spins value wrappedFullQueue
      (by simp [wrappedFullQueue, MPMCBoundedQueue.slot])
      (by simp [wrappedFullQueue, MPMCBoundedQueue.slot]) fuel

/-! ## Theorems: the representation invariant of the ring -/

/-- The invariant `RingInv` in terms of positions and of the index `p & mask_` the code
uses: the cursors are ordered, filled positions carry generation `p + 1`, free positions
carry generation `p`. -/
theorem RingInv.positions {α : Type} [Inhabited α] (k : Nat) (q : MPMCBoundedQueue α)
    (l : List α) (h : RingInv (2 ^ k) q l) :
    q.mask_ = 2 ^ k - 1 ∧ q.head_ ≤ q.tail_ ∧ q.tail_ ≤ q.head_ + 2 ^ k ∧
    (∀ p, q.head_ ≤ p → p < q.tail_ → (q.slot (p &&& q.mask_)).gen = p + 1) ∧
    (∀ p, q.tail_ ≤ p → p < q.head_ + 2 ^ k → (q.slot (p &&& q.mask_)).gen = p) := by
  have htl := h.tail_eq
  have hcap := h.le_cap
  refine ⟨h.mask_eq, by omega, by omega, ?_, ?_⟩
  · intro p hp1 hp2
    rw [h.mask_eq, and_mask_eq_mod]
    exact (h.filled p hp1 hp2).1
  · intro p hp1 hp2
    rw [h.mask_eq, and_mask_eq_mod]
    exact h.free p hp1 hp2

/-- A successful `Dequeue` from a state satisfying the invariant (no overflow of the stored
generation): the slot of the old head is left at generation `head_ + mask_ + 1`, the next
position that falls on this slot. -/
theorem Dequeue_success_generation {α : Type} [Inhabited α] (k : Nat)
    (q : MPMCBoundedQueue α) (l : List α) (h : RingInv (2 ^ k) q l)
    (hb : q.head_ + 2 ^ k < SIZE_MOD) (fuel : Nat) (data : α) :
    (q.head_ < q.tail_ → ∃ data' q', Dequeue (fuel + 1) q data = some (true, data', q')) ∧
    ∀ data' q', Dequeue (fuel + 1) q data = some (true, data', q') →
      (q'.slot (q.head_ &&& q.mask_)).gen = q.head_ + q.mask_ + 1 ∧
      (q.head_ + q.mask_ + 1) &&& q.mask_ = q.head_ &&& q.mask_ ∧
      q'.head_ = q.head_ + 1 ∧ q'.tail_ = q.tail_ ∧
      q'.tail_ ≤ q.head_ + q.mask_ + 1 ∧ q.head_ + q.mask_ + 1 < q'.head_ + 2 ^ k := by
  have hpos := Nat.two_pow_pos k
  have htl := h.tail_eq
  have hcap := h.le_cap
  have hmask : q.head_ + q.mask_ + 1 = q.head_ + 2 ^ k := by rw [h.mask_eq]; omega
  cases l with
  | nil =>
    have he := Dequeue_of_empty k q h (by omega) fuel data
    refine ⟨fun hlt => absurd hlt (by simp at htl; omega), ?_⟩
    intro data' q' hd
    rw [he] at hd
    simp at hd
  | cons x xs =>
    obtain ⟨q1, he, hinv1, hh1, ht1⟩ := Dequeue_of_nonempty k q x xs h hb fuel data
    refine ⟨fun _ => ⟨x, q1, he⟩, ?_⟩
    intro data' q' hd
    rw [he] at hd
    simp only [Option.some.injEq, Prod.mk.injEq, true_and] at hd
    obtain ⟨-, rfl⟩ := hd
    simp only [List.length_cons] at htl hcap
    refine ⟨?_, ?_, hh1, ht1, by omega, by omega⟩
    · have hfree := hinv1.free (q.head_ + 2 ^ k) (by omega) (by omega)
      rw [Nat.add_mod_right] at hfree
      rw [hmask, h.mask_eq, and_mask_eq_mod]
      exact hfree
    · rw [hmask, h.mask_eq, and_mask_eq_mod, and_mask_eq_mod, Nat.add_mod_right]

/-- One call from a state satisfying the invariant, when neither the tail nor the
generation stored by a successful `Dequeue` overflows in this call: the call returns
within one loop iteration, replies as the bounded FIFO list does and re-establishes the
invariant; the cursors count the successful calls. -/
theorem doCall_refines_of_counts {α : Type} [Inhabited α] (k : Nat) (hk1 : 1 ≤ k)
    (fuel : Nat) (q : MPMCBoundedQueue α) (l : List α) (val : α) (c : Call α)
    (h : RingInv (2 ^ k) q l)
    (hE : q.tail_ + countEnqueued [(fifoCall (2 ^ k) l val c).1] < SIZE_MOD)
    (hD : q.head_ + countDequeued [(fifoCall (2 ^ k) l val c).1] + 2 ^ k ≤ SIZE_MOD) :
    ∃ q', doCall (fuel + 1) q val c
        = some ((fifoCall (2 ^ k) l val c).1, q', (fifoCall (2 ^ k) l val c).2.2) ∧
      RingInv (2 ^ k) q' (fifoCall (2 ^ k) l val c).2.1 ∧
      q'.tail_ = q.tail_ + countEnqueued [(fifoCall (2 ^ k) l val c).1] ∧
      q'.head_ = q.head_ + countDequeued [(fifoCall (2 ^ k) l val c).1] := by
  have htl := h.tail_eq
  have hcap := h.le_cap
  have h2 : 2 ≤ 2 ^ k := by
    calc 2 = 2 ^ 1 := rfl
      _ ≤ 2 ^ k := Nat.pow_le_pow_right (by decide) hk1
  cases c with
  | Enqueue value =>
    by_cases hlen : l.length < 2 ^ k
    · simp only [fifoCall, hlen, if_true, countEnqueued, countDequeued] at hE hD ⊢
      obtain ⟨q', he, hinv, hh, ht⟩ :=
        Enqueue_of_not_full k q l h hlen (by omega) fuel value
      exact ⟨q', by simp [doCall, he], hinv, by omega, by omega⟩
    · simp only [fifoCall, hlen, if_false, countEnqueued, countDequeued] at hE hD ⊢
      have he := Enqueue_of_full k hk1 q l h (by omega) fuel value
      exact ⟨q, by simp [doCall, he], h, by simp, by simp⟩
  | Dequeue =>
    cases l with
    | nil =>
      simp only [fifoCall, countEnqueued, countDequeued] at hE hD ⊢
      have he := Dequeue_of_empty k q h (by omega) fuel val
      exact ⟨q, by simp [doCall, he], h, by simp, by simp⟩
    | cons x xs =>
      simp only [fifoCall, countEnqueued, countDequeued] at hE hD ⊢
      obtain ⟨q', he, hinv, hh, ht⟩ :=
        Dequeue_of_nonempty k q x xs h (by simp at hD; omega) fuel val
      exact ⟨q', by simp [doCall, he], hinv, by simp [ht], by simp [hh]⟩

/-- A sequence of calls of any length from a state satisfying the invariant, when at the
end the tail has not overflowed and no stored generation has: every call returns within
one loop iteration, the replies are those of the bounded FIFO list, and the invariant
holds at the end. -/
theorem runCalls_refines_of_counts {α : Type} [Inhabited α] (k : Nat) (hk1 : 1 ≤ k)
    (fuel : Nat) (calls : List (Call α)) :
    ∀ (q : MPMCBoundedQueue α) (l : List α) (val : α),
      RingInv (2 ^ k) q l →
      q.tail_ + countEnqueued (fifoRun (2 ^ k) l val calls).1 < SIZE_MOD →
      q.head_ + countDequeued (fifoRun (2 ^ k) l val calls).1 + 2 ^ k ≤ SIZE_MOD →
      ∃ q', runCalls (fuel + 1) q val calls
          = some ((fifoRun (2 ^ k) l val calls).1, q', (fifoRun (2 ^ k) l val calls).2.2) ∧
        RingInv (2 ^ k) q' (fifoRun (2 ^ k) l val calls).2.1 ∧
        q'.tail_ = q.tail_ + countEnqueued (fifoRun (2 ^ k) l val calls).1 ∧
        q'.head_ = q.head_ + countDequeued (fifoRun (2 ^ k) l val calls).1 := by
  induction calls with
  | nil =>
    intro q l val h _ _
    exact ⟨q, rfl, h, by simp [fifoRun, countEnqueued], by simp [fifoRun, countDequeued]⟩
  | cons c cs ih =>
    intro q l val h hE hD
    simp only [fifoRun] at hE hD ⊢
    rw [countEnqueued_cons] at hE ⊢
    rw [countDequeued_cons] at hD ⊢
    obtain ⟨q1, h1, hinv1, ht1, hh1⟩ :=
      doCall_refines_of_counts k hk1 fuel q l val c h (by omega) (by omega)
    obtain ⟨q2, h2, hinv2, ht2, hh2⟩ :=
      ih q1 _ (fifoCall (2 ^ k) l val c).2.2 hinv1 (by omega) (by omega)
    exact ⟨q2, by simp [runCalls, h1, h2], hinv2, by omega, by omega⟩

/-- C21: for every capacity `N = 2 ^ k` with `1 ≤ k < 64`, the freshly constructed queue
has `head_ = tail_ = 0` and slot `i` at generation `i`, and every state reached from it
by fewer than `2 ^ 64` single-threaded calls (so no cursor overflows) satisfies
`head_ ≤ tail_ ≤ head_ + N`, every position `p` with `head_ ≤ p < tail_` has its slot
(index `p & mask_`) at generation `p + 1`, and every position `p` with
`tail_ ≤ p < head_ + N` has its slot at generation `p`. From such a state `Dequeue`
succeeds when `head_ < tail_`, and a successful `Dequeue` at head `h` leaves that slot at
generation `h + mask_ + 1`: the next position on the same slot, now in the free range,
hence the value `tail_` has when the slot is next filled. The invariant also holds after
any number of calls, as long as the numbers `E` and `D` of successful `Enqueue` and
`Dequeue` calls satisfy `E < 2 ^ 64` and `D + N ≤ 2 ^ 64` (neither a cursor nor a stored
generation has overflowed); then `tail_ = E` and `head_ = D`. -/
theorem C21_ring_representation_invariant {α : Type} [Inhabited α] (k : Nat) (hk1 : 1 ≤ k)
    (hk2 : k < 64) (fuel : Nat) (hfuel : 1 ≤ fuel) (val : α) :
    ((MPMCBoundedQueue.new (2 ^ k) : MPMCBoundedQueue α).head_ = 0 ∧
      (MPMCBoundedQueue.new (2 ^ k) : MPMCBoundedQueue α).tail_ = 0 ∧
      (MPMCBoundedQueue.new (2 ^ k) : MPMCBoundedQueue α).mask_ = 2 ^ k - 1 ∧
      ∀ i, i < 2 ^ k → ((MPMCBoundedQueue.new (2 ^ k) : MPMCBoundedQueue α).slot i).gen = i) ∧
    (∀ calls : List (Call α), calls.length < 2 ^ 64 →
      ∃ rs q v, runCalls fuel (MPMCBoundedQueue.new (2 ^ k)) val calls = some (rs, q, v) ∧
        q.mask_ = 2 ^ k - 1 ∧ q.head_ ≤ q.tail_ ∧ q.tail_ ≤ q.head_ + 2 ^ k ∧
        (∀ p, q.head_ ≤ p → p < q.tail_ → (q.slot (p &&& q.mask_)).gen = p + 1) ∧
        (∀ p, q.tail_ ≤ p → p < q.head_ + 2 ^ k → (q.slot (p &&& q.mask_)).gen = p)) ∧
    (∀ calls : List (Call α), calls.length + 1 < 2 ^ 64 →
      ∃ rs q v, runCalls fuel (MPMCBoundedQueue.new (2 ^ k)) val calls = some (rs, q, v) ∧
        (q.head_ < q.tail_ → ∃ data' q', Dequeue fuel q v = some (true, data', q')) ∧
        ∀ data' q', Dequeue fuel q v = some (true, data', q') →
          (q'.slot (q.head_ &&& q.mask_)).gen = q.head_ + q.mask_ + 1 ∧
          (q.head_ + q.mask_ + 1) &&& q.mask_ = q.head_ &&& q.mask_ ∧
          q'.head_ = q.head_ + 1 ∧ q'.tail_ = q.tail_ ∧
          q'.tail_ ≤ q.head_ + q.mask_ + 1 ∧ q.head_ + q.mask_ + 1 < q'.head_ + 2 ^ k) ∧
    (∀ calls : List (Call α),
      countEnqueued (fifoRun (2 ^ k) [] val calls).1 < 2 ^ 64 →
      countDequeued (fifoRun (2 ^ k) [] val calls).1 + 2 ^ k ≤ 2 ^ 64 →
      ∃ q v, runCalls fuel (MPMCBoundedQueue.new (2 ^ k)) val calls
          = some ((fifoRun (2 ^ k) [] val calls).1, q, v) ∧
        q.tail_ = countEnqueued (fifoRun (2 ^ k) [] val calls).1 ∧
        q.head_ = countDequeued (fifoRun (2 ^ k) [] val calls).1 ∧
        q.mask_ = 2 ^ k - 1 ∧ q.head_ ≤ q.tail_ ∧ q.tail_ ≤ q.head_ + 2 ^ k ∧
        (∀ p, q.head_ ≤ p → p < q.tail_ → (q.slot (p &&& q.mask_)).gen = p + 1) ∧
        (∀ p, q.tail_ ≤ p → p < q.head_ + 2 ^ k → (q.slot (p &&& q.mask_)).gen = p)) := by
  have hfresh : RingInv (2 ^ k) (MPMCBoundedQueue.new (2 ^ k) : MPMCBoundedQueue α) [] :=
    RingInv.fresh (2 ^ k) (Nat.two_pow_pos k) (two_pow_lt_SIZE_MOD k hk2)
  have hpow : 2 ^ k ≤ 2 ^ 63 := Nat.pow_le_pow_right (by decide) (by omega)
  refine ⟨⟨rfl, rfl, hfresh.mask_eq, ?_⟩, ?_, ?_, ?_⟩
  · intro i hi
    have := hfresh.free i (Nat.zero_le _) (by simpa [MPMCBoundedQueue.new] using hi)
    rwa [Nat.mod_eq_of_lt hi] at this
  · intro calls hcalls
    obtain ⟨q, hrun, hinv, -⟩ := runCalls_refines k hk1 hk2 (fuel - 1) calls
      (MPMCBoundedQueue.new (2 ^ k)) [] val 0 hfresh (by simp [MPMCBoundedQueue.new])
      (by simpa [SIZE_MOD] using hcalls)
    rw [← fuel_pos_eq fuel hfuel] at hrun
    exact ⟨_, q, _, hrun, RingInv.positions k q _ hinv⟩
  · intro calls hcalls
    obtain ⟨q, hrun, hinv, hn, -⟩ := runCalls_refines k hk1 hk2 (fuel - 1) calls
      (MPMCBoundedQueue.new (2 ^ k)) [] val 0 hfresh (by simp [MPMCBoundedQueue.new])
      (by simp only [SIZE_MOD]; omega)
    rw [← fuel_pos_eq fuel hfuel] at hrun
    have htl := hinv.tail_eq
    have hd := Dequeue_success_generation k q _ hinv (by simp only [SIZE_MOD]; omega)
      (fuel - 1) (fifoRun (2 ^ k) [] val calls).2.2
    rw [← fuel_pos_eq fuel hfuel] at hd
    exact ⟨_, q, _, hrun, hd⟩
  · intro calls hE hD
    obtain ⟨q, hrun, hinv, ht, hh⟩ := runCalls_refines_of_counts k hk1 (fuel - 1) calls
      (MPMCBoundedQueue.new (2 ^ k)) [] val hfresh
      (by simpa [MPMCBoundedQueue.new, SIZE_MOD] using hE)
      (by simpa [MPMCBoundedQueue.new, SIZE_MOD] using hD)
    rw [← fuel_pos_eq fuel hfuel] at hrun
    simp only [MPMCBoundedQueue.new, Nat.zero_add] at ht hh
    exact ⟨q, _, hrun, ht, hh, RingInv.positions k q _ hinv⟩

/-- Instance of C21 at capacity 4: after `Enqueue(1); Enqueue(2); Dequeue; Enqueue(3)` the
cursors are ordered, the filled positions carry `p + 1` and the free ones `p`. -/
theorem C21_ring_representation_invariant_witness :
    ∃ rs q v,
      runCalls 1 (MPMCBoundedQueue.new (2 ^ 2)) (0 : Nat)
          [.Enqueue 1, .Enqueue 2, .Dequeue, .Enqueue 3] = some (rs, q, v) ∧
        q.mask_ = 2 ^ 2 - 1 ∧ q.head_ ≤ q.tail_ ∧ q.tail_ ≤ q.head_ + 2 ^ 2 ∧
        (∀ p, q.head_ ≤ p → p < q.tail_ → (q.slot (p &&& q.mask_)).gen = p + 1) ∧
        (∀ p, q.tail_ ≤ p → p < q.head_ + 2 ^ 2 → (q.slot (p &&& q.mask_)).gen = p) :=
  (C21_ring_representation_invariant 2 (by decide) (by decide) 1 (by decide) (0 : Nat)).2.1
    [.Enqueue 1, .Enqueue 2, .Dequeue, .Enqueue 3] (by decide)

/-! ## Theorems: a sink that cannot be opened -/

theorem CollectMetrics_metrics (fuel now : Nat) (w w' : LoggerWorld)
    (h : CollectMetrics fuel now w = some w') : w'.metrics_ = w.metrics_ := by
  unfold CollectMetrics at h
  split at h
  · exact absurd h (by simp)
  · injection h with h
    subst h
    rfl

theorem WriteSnapshots_metrics (fmt : Format) (fuel : Nat) (w w' : LoggerWorld)
    (h : WriteSnapshots fmt fuel w = some w') : w'.metrics_ = w.metrics_ := by
  unfold WriteSnapshots at h
  split at h
  · exact absurd h (by simp)
  · split at h <;>
    · injection h with h
      subst h
      rfl

theorem Pass_metrics (fmt : Format) (fuel now : Nat) (w w' : LoggerWorld)
    (h : Pass fmt fuel now w = some w') : w'.metrics_ = w.metrics_ := by
  unfold Pass at h
  split at h
  · exact absurd h (by simp)
  · rename_i w1 h1
    rw [WriteSnapshots_metrics fmt fuel w1 w' h, CollectMetrics_metrics fuel now w w1 h1]

/-- A step of the worker changes neither the lifecycle fields nor the registry. -/
theorem workerStep_frame (fmt : Format) (fuel : Nat) (is_open : Bool) (now : Nat)
    (s s' : Logger) (h : workerStep fmt fuel is_open now s = some s') :
    s'.life = s.life ∧ s'.world.metrics_ = s.world.metrics_ := by
  unfold workerStep at h
  split at h
  · split at h <;>
    · injection h with h
      subst h
      exact ⟨rfl, rfl⟩
  · split at h
    · split at h
      · exact absurd h (by simp)
      · rename_i w hw
        injection h with h
        subst h
        exact ⟨rfl, Pass_metrics fmt fuel now _ _ hw⟩
    · split at h
      · exact absurd h (by simp)
      · rename_i w hw
        injection h with h
        subst h
        exact ⟨rfl, Pass_metrics fmt fuel now _ _ hw⟩
  · injection h with h
    subst h
    exact ⟨rfl, rfl⟩

theorem joinWorker_frame (fmt : Format) (fuel : Nat) (is_open : Bool) (now : Nat) (n : Nat) :
    ∀ (s s' : Logger), joinWorker fmt fuel is_open now n s = some s' →
      s'.life = s.life ∧ s'.world.metrics_ = s.world.metrics_ ∧
      s'.worker = WorkerAt.returned := by
  induction n with
  | zero =>
    intro s s' h
    unfold joinWorker at h
    split at h
    · rename_i hr
      injection h with h
      subst h
      exact ⟨rfl, rfl, hr⟩
    · exact absurd h (by simp)
  | succ n ih =>
    intro s s' h
    unfold joinWorker at h
    split at h
    · rename_i hr
      injection h with h
      subst h
      exact ⟨rfl, rfl, hr⟩
    · split at h
      · exact absurd h (by simp)
      · rename_i s1 h1
        obtain ⟨e1, e2⟩ := workerStep_frame fmt fuel is_open now s s1 h1
        obtain ⟨e3, e4, e5⟩ := ih s1 s' h
        exact ⟨e3.trans e1, e4.trans e2, e5⟩

/-- The effect of `Stop()` on the lifecycle fields is that of `Stop` on them alone, when
the call returns; the registry is not changed. -/
theorem LoggerStop_frame (fmt : Format) (fuel : Nat) (is_open : Bool) (now n : Nat)
    (s s' : Logger) (h : Logger.Stop fmt fuel is_open now n s = some s') :
    s'.life = Stop s.life ∧ s'.world.metrics_ = s.world.metrics_ := by
  unfold Logger.Stop at h
  by_cases hr : s.life.running_ = true
  · by_cases hj : s.life.joinable = true
    · simp only [hr, hj, if_true] at h
      split at h
      · exact absurd h (by simp)
      · rename_i s2 h2
        obtain ⟨e1, e2, -⟩ := joinWorker_frame fmt fuel is_open now n _ s2 h2
        injection h with h
        subst h
        refine ⟨?_, e2⟩
        simp only [Stop, hr, hj, if_true, e1]
    · have hj' : s.life.joinable = false := by simpa using hj
      simp only [hr, hj', if_true, Bool.false_eq_true, if_false] at h
      injection h with h
      subst h
      exact ⟨by simp only [Stop, hr, hj', if_true, Bool.false_eq_true, if_false], rfl⟩
  · have hr' : s.life.running_ = false := by simpa using hr
    simp only [hr', Bool.false_eq_true, if_false] at h
    injection h with h
    subst h
    exact ⟨by simp only [Stop, hr', Bool.false_eq_true, if_false], rfl⟩

theorem applyCall_metrics (w1 w2 : LoggerWorld) (c : AppCall)
    (h : w1.metrics_ = w2.metrics_) : (applyCall w1 c).metrics_ = (applyCall w2 c).metrics_ := by
  cases c with
  | Increment a delta =>
    simp only [applyCall]
    cases w1.heap a <;> cases w2.heap a <;> exact h
  | Set a value =>
    simp only [applyCall]
    cases w1.heap a <;> cases w2.heap a <;> exact h
  | RegisterMetric metric => simp [applyCall, RegisterMetric, h]

theorem applyCall_file_queue (w : LoggerWorld) (c : AppCall) :
    (applyCall w c).file = w.file ∧ (applyCall w c).queue_ = w.queue_ := by
  cases c with
  | Increment a delta =>
    simp only [applyCall]
    cases w.heap a <;> exact ⟨rfl, rfl⟩
  | Set a value =>
    simp only [applyCall]
    cases w.heap a <;> exact ⟨rfl, rfl⟩
  | RegisterMetric metric => exact ⟨rfl, rfl⟩

theorem applyCalls_file_queue (calls : List AppCall) :
    ∀ w : LoggerWorld,
      (calls.foldl applyCall w).file = w.file ∧ (calls.foldl applyCall w).queue_ = w.queue_ := by
  induction calls with
  | nil => intro w; exact ⟨rfl, rfl⟩
  | cons c cs ih =>
    intro w
    obtain ⟨h1, h2⟩ := applyCall_file_queue w c
    obtain ⟨h3, h4⟩ := ih (applyCall w c)
    exact ⟨by rw [List.foldl_cons, h3, h1], by rw [List.foldl_cons, h4, h2]⟩

/-- Two runs over the same events, with the sink open or not: if both return, the callers
see the same lifecycle fields and the same registry. -/
theorem runEvents_caller_view (fmt : Format) (fuel n : Nat) (o1 o2 : Bool)
    (events : List Event) :
    ∀ (s1 s2 t1 t2 : Logger), s1.life = s2.life → s1.world.metrics_ = s2.world.metrics_ →
      runEvents fmt fuel o1 n events s1 = some t1 →
      runEvents fmt fuel o2 n events s2 = some t2 →
      t1.life = t2.life ∧ t1.world.metrics_ = t2.world.metrics_ := by
  induction events with
  | nil =>
    intro s1 s2 t1 t2 hl hm h1 h2
    simp only [runEvents, Option.some.injEq] at h1 h2
    subst h1 h2
    exact ⟨hl, hm⟩
  | cons e rest ih =>
    intro s1 s2 t1 t2 hl hm h1 h2
    cases e with
    | call c =>
      simp only [runEvents] at h1 h2
      exact ih { s1 with world := applyCall s1.world c } { s2 with world := applyCall s2.world c }
        t1 t2 hl (applyCall_metrics _ _ c hm) h1 h2
    | worker now =>
      simp only [runEvents] at h1 h2
      split at h1
      · exact absurd h1 (by simp)
      · rename_i u1 hu1
        split at h2
        · exact absurd h2 (by simp)
        · rename_i u2 hu2
          obtain ⟨a1, a2⟩ := workerStep_frame fmt fuel o1 now s1 u1 hu1
          obtain ⟨b1, b2⟩ := workerStep_frame fmt fuel o2 now s2 u2 hu2
          exact ih u1 u2 t1 t2 (by rw [a1, b1, hl]) (by rw [a2, b2, hm]) h1 h2
    | Stop now =>
      simp only [runEvents] at h1 h2
      split at h1
      · exact absurd h1 (by simp)
      · rename_i u1 hu1
        split at h2
        · exact absurd h2 (by simp)
        · rename_i u2 hu2
          obtain ⟨a1, a2⟩ := LoggerStop_frame fmt fuel o1 now n s1 u1 hu1
          obtain ⟨b1, b2⟩ := LoggerStop_frame fmt fuel o2 now n s2 u2 hu2
          exact ih u1 u2 t1 t2 (by rw [a1, b1, hl]) (by rw [a2, b2, hm]) h1 h2

/-- With the sink not open a step of the worker outside the loop makes it return, and
changes nothing else. -/
theorem workerStep_not_open (fmt : Format) (fuel now : Nat) (s : Logger)
    (h : s.worker ≠ WorkerAt.loop) :
    workerStep fmt fuel false now s = some { s with worker := WorkerAt.returned } := by
  unfold workerStep
  cases hw : s.worker with
  | entry => simp
  | loop => exact absurd hw h
  | returned =>
    simp only
    congr 1
    cases s
    simp only at hw
    simp [hw]

/-- With the sink not open `join()` returns as soon as the worker has made one step. -/
theorem joinWorker_not_open (fmt : Format) (fuel now n : Nat) (s : Logger)
    (h : s.worker ≠ WorkerAt.loop) :
    joinWorker fmt fuel false now (n + 1) s = some { s with worker := WorkerAt.returned } := by
  unfold joinWorker
  by_cases hr : s.worker = WorkerAt.returned
  · simp only [hr, if_true]
    congr 1
    cases s
    simp only at hr
    simp [hr]
  · simp only [hr, if_false, workerStep_not_open fmt fuel now s h]
    cases n <;> simp [joinWorker]


theorem LoggerStop_not_open_new (fmt : Format) (fuel now n : Nat) (s : Logger)
    (hw : s.worker ≠ WorkerAt.loop) (hl : s.life = Lifecycle.new) :
    Logger.Stop fmt fuel false now (n + 1) s
      = some ⟨s.world, ⟨false, false, 1⟩, WorkerAt.returned, s.passes⟩ := by
  have hj := joinWorker_not_open fmt fuel now n
    { s with life := { s.life with running_ := false } } hw
  unfold Logger.Stop
  simp only [hl, Lifecycle.new, if_true] at hj ⊢
  rw [hj]

theorem LoggerStop_stopped (fmt : Format) (fuel : Nat) (is_open : Bool) (now n : Nat)
    (s : Logger) (hl : s.life.running_ = false) :
    Logger.Stop fmt fuel is_open now n s = some s := by
  unfold Logger.Stop
  simp [hl]

/-- A run with the sink not open, from a state in which the worker is not in its loop and
`Stop()` has either not been called or has returned: every event returns, the worker
makes no pass, and the world is changed by the calls of the application threads only. -/
theorem runEvents_not_open (fmt : Format) (fuel n : Nat) (events : List Event) :
    ∀ s0 : Logger, s0.worker ≠ WorkerAt.loop →
      (s0.life = Lifecycle.new ∨
        (s0.life = ⟨false, false, 1⟩ ∧ s0.worker = WorkerAt.returned)) →
      ∃ s, runEvents fmt fuel false (n + 1) events s0 = some s ∧
        s.passes = s0.passes ∧ s.worker ≠ WorkerAt.loop ∧
        s.world = (appCalls events).foldl applyCall s0.world ∧
        (s0.worker = WorkerAt.returned → s.worker = WorkerAt.returned) ∧
        ((∃ now, Event.worker now ∈ events) → s.worker = WorkerAt.returned) ∧
        ((∃ now, Event.Stop now ∈ events) →
          s.life = ⟨false, false, 1⟩ ∧ s.worker = WorkerAt.returned) ∧
        ((∀ now, Event.Stop now ∉ events) → s.life = s0.life) := by
  induction events with
  | nil =>
    intro s0 hw _
    exact ⟨s0, rfl, rfl, hw, rfl, id, by simp, by simp, fun _ => rfl⟩
  | cons e rest ih =>
    intro s0 hw hl
    cases e with
    | call c =>
      obtain ⟨s, h1, h2, h3, h4, h5, h6, h7, h8⟩ :=
        ih { s0 with world := applyCall s0.world c } hw hl
      refine ⟨s, by simp only [runEvents, h1], h2, h3, by simp only [appCalls, List.foldl_cons, h4],
        h5, ?_, ?_, ?_⟩
      · rintro ⟨now, hm⟩
        exact h6 ⟨now, by simpa using hm⟩
      · rintro ⟨now, hm⟩
        exact h7 ⟨now, by simpa using hm⟩
      · intro hno
        exact h8 fun now hm => hno now (List.mem_cons_of_mem _ hm)
    | worker now0 =>
      have hstep := workerStep_not_open fmt fuel now0 s0 hw
      obtain ⟨s, h1, h2, h3, h4, h5, h6, h7, h8⟩ :=
        ih { s0 with worker := WorkerAt.returned } (by simp)
          (hl.imp id fun h => ⟨h.1, rfl⟩)
      refine ⟨s, by simp only [runEvents, hstep, h1], h2, h3,
        by simp only [appCalls, h4], fun _ => h5 rfl, fun _ => h5 rfl, ?_, ?_⟩
      · rintro ⟨now, hm⟩
        exact h7 ⟨now, by simpa using hm⟩
      · intro hno
        exact h8 fun now hm => hno now (List.mem_cons_of_mem _ hm)
    | Stop now0 =>
      have key : ∃ s1, Logger.Stop fmt fuel false now0 (n + 1) s0 = some s1 ∧
          s1.world = s0.world ∧ s1.passes = s0.passes ∧ s1.life = ⟨false, false, 1⟩ ∧
          s1.worker = WorkerAt.returned := by
        rcases hl with hl | ⟨hl, hr⟩
        · exact ⟨_, LoggerStop_not_open_new fmt fuel now0 n s0 hw hl, rfl, rfl, rfl, rfl⟩
        · exact ⟨s0, LoggerStop_stopped fmt fuel false now0 (n + 1) s0 (by rw [hl]),
            rfl, rfl, hl, hr⟩
      obtain ⟨s1, hstop, e1, e2, e3, e4⟩ := key
      obtain ⟨s, h1, h2, h3, h4, h5, h6, h7, h8⟩ :=
        ih s1 (by rw [e4]; simp) (Or.inr ⟨e3, e4⟩)
      have hlife : s.life = ⟨false, false, 1⟩ := by
        by_cases hex : ∃ now, Event.Stop now ∈ rest
        · exact (h7 hex).1
        · rw [h8 (fun now hm => hex ⟨now, hm⟩), e3]
      refine ⟨s, by simp only [runEvents, hstop, h1], by rw [h2, e2], h3,
        by simp only [appCalls, h4, e1], fun _ => h5 e4, fun _ => h5 e4,
        fun _ => ⟨hlife, h5 e4⟩, ?_⟩
      intro hno
      exact absurd (List.mem_cons_self _ _) (hno now0)


/-- C16: if the sink cannot be opened (`file.is_open()` false), the worker returns at its
first step, before any pass, whatever the flag readings: `OutputLoop` leaves the file,
the queue and every metric as they are, and in every run of the logger (calls of the
application threads, steps of the worker and calls of `Stop()` in any order) the worker
makes no pass at all, the final one included. So nothing is written, the queue stays
fresh, and the metric objects and the registry are exactly what the calls of the
application threads made them: no metric is reset, each keeps its pending value and its
`HasValue()` status, also after `Stop()`. Every event returns; in particular `Stop()`
returns, its `join()` finding the worker returned after at most one step, and leaves the
lifecycle fields as `Stop` does (flag cleared, worker joined once). No failure is
reported: whenever the run of the same events with the sink open returns, the callers see
the same lifecycle fields and the same registry in both runs. -/
theorem C16_sink_not_open_worker_does_nothing (fmt : Format) (fuel n : Nat) (hn : 1 ≤ n)
    (heap : Heap) (file : String) (events : List Event) :
    (∀ (rounds : List Round) (w : LoggerWorld),
      OutputLoop fmt fuel false rounds w = some w) ∧
    (∀ (now : Nat) (s : Logger), s.worker = WorkerAt.entry →
      workerStep fmt fuel false now s = some { s with worker := WorkerAt.returned }) ∧
    ∃ s, runEvents fmt fuel false n events (Logger.new heap file) = some s ∧
      s.passes = 0 ∧ s.worker ≠ WorkerAt.loop ∧
      s.world = (appCalls events).foldl applyCall (LoggerWorld.new heap file) ∧
      s.world.file = file ∧ s.world.queue_ = MPMCBoundedQueue.new 4096 ∧
      (∀ h, s.world.heap h
          = ((appCalls events).foldl applyCall (LoggerWorld.new heap file)).heap h ∧
        (s.world.heap h).HasValue
          = (((appCalls events).foldl applyCall (LoggerWorld.new heap file)).heap h).HasValue) ∧
      ((∃ now, Event.worker now ∈ events) → s.worker = WorkerAt.returned) ∧
      ((∃ now, Event.Stop now ∈ events) →
        s.life = { running_ := false, joinable := false, joins := 1 } ∧
        s.life = Stop Lifecycle.new ∧ s.worker = WorkerAt.returned) ∧
      ((∀ now, Event.Stop now ∉ events) → s.life = Lifecycle.new) ∧
      (∀ t, runEvents fmt fuel true n events (Logger.new heap file) = some t →
        t.life = s.life ∧ t.world.metrics_ = s.world.metrics_) := by
  refine ⟨fun _ _ => rfl, ?_, ?_⟩
  · intro now s hs
    simp [workerStep, hs]
  · obtain ⟨s, h1, h2, h3, h4, -, h6, h7, h8⟩ := runEvents_not_open fmt fuel (n - 1) events
      (Logger.new heap file) (by simp [Logger.new]) (Or.inl rfl)
    rw [← fuel_pos_eq n hn] at h1
    obtain ⟨hf, hq⟩ := applyCalls_file_queue (appCalls events) (LoggerWorld.new heap file)
    refine ⟨s, h1, h2, h3, h4, ?_, ?_, ?_, h6, ?_, h8, ?_⟩
    · rw [h4]
      exact hf
    · rw [h4]
      exact hq
    · intro h
      rw [h4]
      exact ⟨rfl, rfl⟩
    · intro hex
      exact ⟨(h7 hex).1, (h7 hex).1.trans rfl, (h7 hex).2⟩
    · intro t ht
      exact runEvents_caller_view fmt fuel n true false events _ _ t s rfl rfl ht h1

/-- Instance of C16 on `stopTestEvents`: the sink is not open, the counter is registered
and incremented by 2 and by 3 around a step of the worker, then `Stop()` is called twice.
All events return, nothing is written, the worker has made no pass and has returned, the
worker was joined once, and the counter still holds 5 as pending data. -/
theorem C16_sink_not_open_worker_does_nothing_witness :
    ∃ s, runEvents exampleFormat 1 false 1 stopTestEvents
        (Logger.new (fun _ => Metric.counter (Counter.new "stop_test_counter")) "") = some s ∧
      s.passes = 0 ∧ s.world.file = "" ∧ s.worker = WorkerAt.returned ∧
      s.life = { running_ := false, joinable := false, joins := 1 } ∧
      s.world.metrics_ = [some 0] ∧
      s.world.heap 0 = Metric.counter { name_ := "stop_test_counter", value_ := 5 } ∧
      (s.world.heap 0).HasValue = true := by
  obtain ⟨s, h1, h2, -, h4, h5, -, -, -, h9, -⟩ :=
    (C16_sink_not_open_worker_does_nothing exampleFormat 1 1 (by decide)
      (fun _ => Metric.counter (Counter.new "stop_test_counter")) "" stopTestEvents).2.2
  have hw : (appCalls stopTestEvents).foldl applyCall
      (LoggerWorld.new (fun _ => Metric.counter (Counter.new "stop_test_counter")) "")
      = ⟨[some 0], MPMCBoundedQueue.new 4096,
          Function.update (Function.update
            (fun _ => Metric.counter (Counter.new "stop_test_counter")) 0
            (Metric.counter ⟨"stop_test_counter", 2⟩)) 0
            (Metric.counter ⟨"stop_test_counter", 5⟩), ""⟩ := by
    simp [stopTestEvents, appCalls, applyCall, RegisterMetric, LoggerWorld.new, Counter.new,
      Counter.Increment, wrap64]
  rw [hw] at h4
  have hstop := h9 ⟨2, by simp [stopTestEvents]⟩
  refine ⟨s, h1, h2, h5, hstop.2.2, hstop.1, ?_, ?_, ?_⟩
  · rw [h4]
  · rw [h4]
    simp
  · rw [h4]
    simp [Metric.HasValue, Counter.HasValue]


theorem runEvents_calls (fmt : Format) (fuel n : Nat) (is_open : Bool) (calls : List AppCall)
    (rest : List Event) :
    ∀ s : Logger, runEvents fmt fuel is_open n (calls.map Event.call ++ rest) s
      = runEvents fmt fuel is_open n rest { s with world := calls.foldl applyCall s.world } := by
  induction calls with
  | nil => intro s; rfl
  | cons c cs ih =>
    intro s
    simp only [List.map_cons, List.cons_append, runEvents, List.foldl_cons]
    exact ih _

/-- With the sink open, `Stop()` on a constructed logger whose worker is in its loop waits
for the final pass of the worker. -/
theorem LoggerStop_open_loop (fmt : Format) (fuel now n : Nat) (s : Logger)
    (hw : s.worker = WorkerAt.loop) (hl : s.life = Lifecycle.new) :
    Logger.Stop fmt fuel true now (n + 1) s
      = (Pass fmt fuel now s.world).map fun w =>
          ⟨w, ⟨false, false, 1⟩, WorkerAt.returned, s.passes + 1⟩ := by
  unfold Logger.Stop
  simp only [hl, Lifecycle.new, if_true, joinWorker, hw, workerStep, Bool.false_eq_true,
    if_false]
  cases Pass fmt fuel now s.world with
  | none => rfl
  | some w => cases n <;> simp [joinWorker]

/-- The event model agrees with `OutputLoop`: with the sink open, a session in which the
worker reads the flag true in the rounds `pre` and `Stop()` is called after the calls of
`last` ends in the world that `OutputLoop` returns for these rounds, after `pre.length + 1`
passes, with the worker returned and joined. -/
theorem runEvents_session_loop (fmt : Format) (fuel n : Nat) (last : Round)
    (hlast : last.running = false) (pre : List Round) (hpre : ∀ r ∈ pre, r.running = true) :
    ∀ s : Logger, s.worker = WorkerAt.loop → s.life = Lifecycle.new →
      runEvents fmt fuel true (n + 1)
          (roundEvents pre ++ (last.calls.map Event.call ++ [Event.Stop last.now])) s
        = (WhileRunning fmt fuel (pre ++ [last]) s.world).map fun w =>
            ⟨w, ⟨false, false, 1⟩, WorkerAt.returned, s.passes + pre.length + 1⟩ := by
  induction pre with
  | nil =>
    intro s hw hl
    simp only [roundEvents, List.nil_append, runEvents_calls, runEvents, WhileRunning, hlast,
      Bool.false_eq_true, if_false, List.length_nil, Nat.add_zero]
    rw [LoggerStop_open_loop fmt fuel last.now n
      ⟨List.foldl applyCall s.world last.calls, s.life, s.worker, s.passes⟩ hw hl]
    cases Pass fmt fuel last.now (List.foldl applyCall s.world last.calls) <;> rfl
  | cons r rest ih =>
    intro s hw hl
    have hr : r.running = true := hpre r (List.mem_cons_self _ _)
    have ih' := ih (fun x hx => hpre x (List.mem_cons_of_mem _ hx))
    simp only [roundEvents, List.append_assoc, List.cons_append, runEvents_calls, runEvents,
      workerStep, hw, hl, Lifecycle.new, if_true, WhileRunning, hr, List.length_cons]
    cases hp : Pass fmt fuel r.now (List.foldl applyCall s.world r.calls) with
    | none => rfl
    | some w =>
      have h := ih' ⟨w, Lifecycle.new, WorkerAt.loop, s.passes + 1⟩ rfl rfl
      simp only [Lifecycle.new] at h
      simp only [List.append_eq]
      rw [h]
      congr 1
      funext w'
      congr 1
      omega

/-- The whole session from the constructor, with the sink open. -/
theorem runEvents_session_eq_OutputLoop (fmt : Format) (fuel n : Nat) (hn : 1 ≤ n)
    (heap : Heap) (file : String) (pre : List Round) (last : Round)
    (hpre : ∀ r ∈ pre, r.running = true) (hlast : last.running = false) :
    runEvents fmt fuel true n (sessionEvents pre last) (Logger.new heap file)
      = (OutputLoop fmt fuel true (pre ++ [last]) (LoggerWorld.new heap file)).map fun w =>
          ⟨w, Stop Lifecycle.new, WorkerAt.returned, pre.length + 1⟩ := by
  have h := runEvents_session_loop fmt fuel (n - 1) last hlast pre hpre
    ⟨LoggerWorld.new heap file, Lifecycle.new, WorkerAt.loop, 0⟩ rfl rfl
  rw [← fuel_pos_eq n hn] at h
  simp only [Nat.zero_add] at h
  simp only [sessionEvents, runEvents, workerStep, Logger.new, OutputLoop, Bool.not_true,
    Bool.false_eq_true, if_false]
  exact h


end metrics
